import Mathlib

/-!
# felixtoken: token ledger, staking lifecycle and settlement

A shallow embedding of `src/felixtoken.cpp` / `include/felixtoken.hpp`.

* Every action is a function `Ctx → args → State → Except String State`.
  An `eosio::check` that fails aborts the whole transaction, so a failing
  action is `.error msg` and has no effect on the state.
* `token::transfer_action(..).send(..)` queues an inline action that runs
  after the body of the sending action, in the same transaction; the
  embedding runs the body first and the queued transfer on its result.
* The multi-index tables are finite maps keyed by the primary key.
* `asset`, `symbol`, `name`, `time_point` and the multi-index container come
  from the eosio library; their behaviour is written out here as the library
  documents it (range-checked asset arithmetic, 32-bit second counts).
-/

namespace felix

/-! ## eosio library types -/

/-- The 64-bit value of an `eosio::name`. -/
abbrev name := Nat

/-- The value of `"felixstaking"_n`, the account holding the escrowed funds. -/
def felixstaking : name := 6531045069011789504

/-- The value of the name `felixtokenio`, the destination of banished stake. -/
def felixtokenio : name := 6531045083672010048

/-- The raw value of an `eosio::symbol_code`: up to seven characters, the
first one in the low byte. -/
abbrev symbol_code := Nat

/-- The loop of `symbol_code::is_valid`: a run of characters `A`..`Z`
followed by zero bytes only. -/
def symbol_code_valid_loop : Nat → Nat → Bool
  | 0, _ => true
  | i + 1, sym =>
    if 65 ≤ sym % 256 ∧ sym % 256 ≤ 90 then
      if (sym / 256) % 256 = 0 then decide (sym / 256 = 0)
      else symbol_code_valid_loop i (sym / 256)
    else false

/-- The method `symbol_code::is_valid`. -/
def symbol_code_is_valid (raw : symbol_code) : Bool := symbol_code_valid_loop 7 raw

/-- An `eosio::symbol`: a symbol code and a precision. Two symbols are equal
when both agree. -/
structure symbol where
  code : symbol_code
  precision : Nat
deriving DecidableEq

/-- The method `symbol::is_valid`. -/
def symbol.is_valid (sym : symbol) : Bool := symbol_code_is_valid sym.code

/-- The constant `felix_symbol( "FLX", 4 )`. -/
def felix_symbol : symbol := ⟨5786694, 4⟩

/-- The constant `asset::max_amount`, `2^62 - 1`. -/
def max_amount : Int := 4611686018427387903

/-- An `eosio::asset`: an amount (an `int64_t` in the source) and a symbol. -/
structure asset where
  amount : Int
  symbol : symbol
deriving DecidableEq

/-- The method `asset::is_amount_within_range`. -/
def asset.is_amount_within_range (a : asset) : Bool :=
  decide (-max_amount ≤ a.amount ∧ a.amount ≤ max_amount)

/-- The method `asset::is_valid`. -/
def asset.is_valid (a : asset) : Bool :=
  a.is_amount_within_range && a.symbol.is_valid

/-- The check `eosio::check( pred, msg )`: abort the transaction with `msg`
unless `pred` holds. -/
def check (pred : Bool) (msg : String) : Except String Unit :=
  if pred then .ok () else .error msg

/-- The operator `asset::operator+=`: the symbols must agree and the result
must stay within `±max_amount`. Every amount stored by the contract is within
that range and the other operand is an `int64_t`, so the 64-bit addition
cannot wrap back into the range: the sum is taken in `Int` and range-checked. -/
def asset.add (a b : asset) : Except String asset := do
  check (decide (b.symbol = a.symbol)) "attempt to add asset with different symbol"
  check (decide (-max_amount ≤ a.amount + b.amount)) "addition underflow"
  check (decide (a.amount + b.amount ≤ max_amount)) "addition overflow"
  pure ⟨a.amount + b.amount, a.symbol⟩

/-- The operator `asset::operator-=`, range-checked like `asset.add`. -/
def asset.sub (a b : asset) : Except String asset := do
  check (decide (b.symbol = a.symbol)) "attempt to subtract asset with different symbol"
  check (decide (-max_amount ≤ a.amount - b.amount)) "subtraction underflow"
  check (decide (a.amount - b.amount ≤ max_amount)) "subtraction overflow"
  pure ⟨a.amount - b.amount, a.symbol⟩

/-- The operator `>=` on assets: comparing assets of different symbols aborts. -/
def asset.ge (a b : asset) : Except String Bool := do
  check (decide (a.symbol = b.symbol)) "comparison of assets with different symbols is not allowed"
  pure (decide (b.amount ≤ a.amount))

/-- The operator `==` on assets: comparing assets of different symbols aborts. -/
def asset.eq (a b : asset) : Except String Bool := do
  check (decide (a.symbol = b.symbol)) "comparison of assets with different symbols is not allowed"
  pure (decide (a.amount = b.amount))

/-- Two's-complement wrap of an integer into the `int64_t` range. -/
def wrap64 (x : Int) : Int := (x + 9223372036854775808) % 18446744073709551616 - 9223372036854775808

/-- The method `time_point::sec_since_epoch`: the microsecond count divided by
`1000000` (C++ division, rounding toward zero) and cast to `uint32_t`. -/
def sec_since_epoch (t : Int) : Int := (Int.tdiv t 1000000) % 4294967296

/-- The constant `refund_delay_sec = 15 * 24 * 3600`. -/
def refund_delay_sec : Nat := 15 * 24 * 3600

/-! ## Tables and state -/

/-- A multi-index table with primary key `κ` and rows `α`. -/
abbrev Tbl (κ : Type) (α : Type) := Finmap (fun _ : κ => α)

/-- A row of the `stat` table (keyed by the symbol code of `supply`). -/
structure currency_stats where
  supply : asset
  max_supply : asset
  issuer : name
deriving DecidableEq

/-- A row of the `unstaking` table; the `account` field is the key. -/
structure unstaking where
  quantity : asset
  req_time : Int
deriving DecidableEq

/-- A deferred transaction as `unstake` builds it: the single action
`refunddef(account)` authorised by the contract, delayed by `delay_sec`. -/
structure deferred_trx where
  delay_sec : Nat
  account : name
deriving DecidableEq

/-- The persistent state the contract reads and writes.

* `stats`: the `stat` tables, one row per symbol code;
* `accounts`: the `accounts` tables, scoped by owner, keyed by symbol code,
  each row holding `balance`;
* `staking`, `unstaking`: the two staking tables, keyed by account;
* `totalStake`: the member `_totalStake.quantity` as the constructor loads it
  (the stored singleton, or `asset( 0, felix_symbol )` when none is stored)
  and the destructor stores it back;
* `deferred`: the host's deferred transactions sent by this contract, keyed
  by sender id. -/
structure State where
  stats : Tbl symbol_code currency_stats
  accounts : Tbl (name × symbol_code) asset
  staking : Tbl name asset
  unstaking : Tbl name unstaking
  totalStake : asset
  deferred : Tbl Nat deferred_trx
deriving DecidableEq

/-- The ledger before any action ran. -/
def State.empty : State :=
  { stats := ∅, accounts := ∅, staking := ∅, unstaking := ∅,
    totalStake := ⟨0, felix_symbol⟩, deferred := ∅ }

/-- What the host supplies to one action: the contract's own account
(`get_self()`), the accounts whose authority the action carries, the
existence check `is_account` and the block time in microseconds
(`current_time_point()`). -/
structure Ctx where
  self : name
  auth : List name
  is_account : name → Bool
  now : Int

/-- The host call `has_auth`. -/
def Ctx.has_auth (c : Ctx) (n : name) : Bool := decide (n ∈ c.auth)

/-- The host call `require_auth`. -/
def Ctx.require_auth (c : Ctx) (n : name) : Except String Unit :=
  check (c.has_auth n) "missing required authority"

/-- The context of an inline action sent with the permission of `actor`. -/
def Ctx.inline (c : Ctx) (actor : name) : Ctx := { c with auth := [actor] }

/-! ## The balance ledger and the supply registry -/

/-- The method `token::sub_balance`. -/
def sub_balance (owner : name) (value : asset) (s : State) : Except String State :=
  match s.accounts.lookup (owner, value.symbol.code) with
  | none => .error "no balance object found"
  | some bal => do
    check (decide (bal.amount ≥ value.amount)) "overdrawn balance"
    let b ← bal.sub value
    pure { s with accounts := s.accounts.insert (owner, value.symbol.code) b }

/-- The method `token::add_balance`; the payer of the row is not recorded. -/
def add_balance (owner : name) (value : asset) (_ram_payer : name) (s : State) :
    Except String State :=
  match s.accounts.lookup (owner, value.symbol.code) with
  | none => pure { s with accounts := s.accounts.insert (owner, value.symbol.code) value }
  | some bal => do
    let b ← bal.add value
    pure { s with accounts := s.accounts.insert (owner, value.symbol.code) b }

/-- The action `token::create`. -/
def create (c : Ctx) (issuer : name) (maximum_supply : asset) (s : State) :
    Except String State := do
  c.require_auth c.self
  check maximum_supply.symbol.is_valid "invalid symbol name"
  check maximum_supply.is_valid "invalid supply"
  check (decide (maximum_supply.amount > 0)) "max-supply must be positive"
  check (s.stats.lookup maximum_supply.symbol.code).isNone "token with symbol already exists"
  pure { s with stats := s.stats.insert maximum_supply.symbol.code
                  { supply := ⟨0, maximum_supply.symbol⟩, max_supply := maximum_supply,
                    issuer := issuer } }

/-- The action `token::issue`. -/
def issue (c : Ctx) (to_ : name) (quantity : asset) (memo : String) (s : State) :
    Except String State := do
  check quantity.symbol.is_valid "invalid symbol name"
  check (decide (memo.utf8ByteSize ≤ 256)) "memo has more than 256 bytes"
  match s.stats.lookup quantity.symbol.code with
  | none => .error "token with symbol does not exist, create token before issue"
  | some st => do
    check (decide (to_ = st.issuer)) "tokens can only be issued to issuer account"
    c.require_auth st.issuer
    check quantity.is_valid "invalid quantity"
    check (decide (quantity.amount > 0)) "must issue positive quantity"
    check (decide (quantity.symbol = st.supply.symbol)) "symbol precision mismatch"
    check (decide (quantity.amount ≤ wrap64 (st.max_supply.amount - st.supply.amount)))
      "quantity exceeds available supply"
    let supply ← st.supply.add quantity
    add_balance st.issuer quantity st.issuer
      { s with stats := s.stats.insert quantity.symbol.code { st with supply := supply } }

/-- The action `token::retire`. -/
def retire (c : Ctx) (quantity : asset) (memo : String) (s : State) :
    Except String State := do
  check quantity.symbol.is_valid "invalid symbol name"
  check (decide (memo.utf8ByteSize ≤ 256)) "memo has more than 256 bytes"
  match s.stats.lookup quantity.symbol.code with
  | none => .error "token with symbol does not exist"
  | some st => do
    c.require_auth st.issuer
    check quantity.is_valid "invalid quantity"
    check (decide (quantity.amount > 0)) "must retire positive quantity"
    check (decide (quantity.symbol = st.supply.symbol)) "symbol precision mismatch"
    let supply ← st.supply.sub quantity
    sub_balance st.issuer quantity
      { s with stats := s.stats.insert quantity.symbol.code { st with supply := supply } }

/-- The action `token::transfer`. The notifications to `from` and `to` are
handled by other contracts and are not part of this ledger. -/
def transfer (c : Ctx) (from_ to_ : name) (quantity : asset) (memo : String) (s : State) :
    Except String State := do
  check (decide (from_ ≠ to_)) "cannot transfer to self"
  c.require_auth from_
  check (c.is_account to_) "to account does not exist"
  match s.stats.lookup quantity.symbol.code with
  | none => .error "unable to find key"
  | some st => do
    check quantity.is_valid "invalid quantity"
    check (decide (quantity.amount > 0)) "must transfer positive quantity"
    check (decide (quantity.symbol = st.supply.symbol)) "symbol precision mismatch"
    check (decide (memo.utf8ByteSize ≤ 256)) "memo has more than 256 bytes"
    let payer := if c.has_auth to_ then to_ else from_
    let s1 ← sub_balance from_ quantity s
    add_balance to_ quantity payer s1

/-- The action `token::open`. -/
def open_ (c : Ctx) (owner : name) (sym : symbol) (ram_payer : name) (s : State) :
    Except String State := do
  c.require_auth ram_payer
  check (c.is_account owner) "owner account does not exist"
  match s.stats.lookup sym.code with
  | none => .error "symbol does not exist"
  | some st => do
    check (decide (st.supply.symbol = sym)) "symbol precision mismatch"
    match s.accounts.lookup (owner, sym.code) with
    | none => do
      check sym.is_valid "invalid symbol name"
      pure { s with accounts := s.accounts.insert (owner, sym.code) ⟨0, sym⟩ }
    | some _ => pure s

/-- The action `token::close`. -/
def close (c : Ctx) (owner : name) (sym : symbol) (s : State) : Except String State := do
  c.require_auth owner
  match s.accounts.lookup (owner, sym.code) with
  | none =>
    .error "Balance row already deleted or never existed. Action won't have any effect."
  | some bal => do
    check (decide (bal.amount = 0)) "Cannot close because the balance is not zero."
    pure { s with accounts := s.accounts.erase (owner, sym.code) }

/-! ## The staking lifecycle -/

/-- The action `token::stake`. The body updates the staking row and
`_totalStake`; the inline `transfer( account, felixstaking, quantity, "stake" )`
sent with the permission of `account` runs afterwards. -/
def stake (c : Ctx) (account : name) (quantity : asset) (s : State) :
    Except String State := do
  c.require_auth account
  check (decide (quantity.amount > 0)) "Stake must positive value"
  check (decide (quantity.symbol = felix_symbol)) "You can only stake FLX token"
  let row ← (match s.staking.lookup account with
    | none => pure quantity
    | some q => q.add quantity)
  let total ← s.totalStake.add quantity
  transfer (c.inline account) account felixstaking quantity "stake"
    { s with staking := s.staking.insert account row, totalStake := total }

/-- The action `token::unstake`. The deferred transaction replaces the one
pending under the same sender id (`cancel_deferred` followed by `send`). -/
def unstake (c : Ctx) (account : name) (quantity : asset) (s : State) :
    Except String State := do
  c.require_auth account
  check (decide (quantity.amount > 0)) "Unstake must positive value"
  let _unstaking_amount ← (match s.unstaking.lookup account with
    | none => pure (asset.mk 0 felix_symbol)
    | some u => (asset.mk 0 felix_symbol).add u.quantity)
  match s.staking.lookup account with
  | none => .error "No staking account"
  | some staked => do
    let enough ← staked.ge quantity
    check enough "Not enough staked token"
    let all ← staked.eq quantity
    let staking ← (if all then pure (s.staking.erase account)
      else do
        let q ← staked.sub quantity
        pure (s.staking.insert account q))
    let row ← (match s.unstaking.lookup account with
      | none => pure (unstaking.mk quantity c.now)
      | some u => do
        let q ← u.quantity.add quantity
        pure (unstaking.mk q c.now))
    let total ← s.totalStake.sub quantity
    pure { s with staking := staking,
                  unstaking := s.unstaking.insert account row,
                  totalStake := total,
                  deferred := (s.deferred.erase account).insert account
                    ⟨refund_delay_sec, account⟩ }

/-- The action `token::restake`. -/
def restake (c : Ctx) (account : name) (s : State) : Except String State := do
  c.require_auth c.self
  match s.unstaking.lookup account with
  | none => .error "Restaking request not found"
  | some u => do
    let row ← (match s.staking.lookup account with
      | none => pure u.quantity
      | some q => q.add u.quantity)
    let total ← s.totalStake.add u.quantity
    pure { s with staking := s.staking.insert account row,
                  totalStake := total,
                  unstaking := s.unstaking.erase account }

/-- The method `token::_refund`. The inline
`transfer( felixstaking, account, quantity, "unstake" )` runs after the row
is erased. -/
def _refund (c : Ctx) (account : name) (s : State) : Except String State :=
  match s.unstaking.lookup account with
  | none => .error "Unstaking request not found"
  | some u => do
    check (decide ((sec_since_epoch u.req_time + refund_delay_sec) % 4294967296
        ≤ sec_since_epoch c.now)) "Refund is not available yet"
    transfer (c.inline felixstaking) felixstaking account u.quantity "unstake"
      { s with unstaking := s.unstaking.erase account }

/-- The action `token::refund`. -/
def refund (c : Ctx) (account : name) (s : State) : Except String State := do
  c.require_auth account
  _refund c account s

/-- The action `token::refunddef`. -/
def refunddef (c : Ctx) (account : name) (s : State) : Except String State := do
  c.require_auth c.self
  match s.unstaking.lookup account with
  | none => .error "Unstaking request not found"
  | some u =>
    transfer (c.inline felixstaking) felixstaking account u.quantity "unstake"
      { s with unstaking := s.unstaking.erase account }

/-- The action `token::banish`. The inline
`transfer( felixstaking, felixtokenio, quantity, "banish" )` is queued while
the staking row is handled and runs after the whole body. -/
def banish (c : Ctx) (account : name) (s : State) : Except String State := do
  c.require_auth c.self
  let s1 ← (match s.staking.lookup account with
    | none => pure s
    | some q => do
      let total ← s.totalStake.sub q
      pure { s with totalStake := total, staking := s.staking.erase account })
  let s2 ← (match s1.unstaking.lookup account with
    | none => pure s1
    | some u => do
      let total ← s1.totalStake.add u.quantity
      pure { s1 with totalStake := total, unstaking := s1.unstaking.erase account })
  match s.staking.lookup account with
  | none => pure s2
  | some q => transfer (c.inline felixstaking) felixstaking felixtokenio q "banish" s2

/-- One round of the loop of `token::recalc`:
`totalAmount.amount += itor->quantity.amount` on `int64_t`. -/
def recalc_step (row : Sigma (fun _ : name => asset)) (acc : Int) : Int :=
  wrap64 (acc + row.2.amount)

/-- The 64-bit sum of `recalc` does not depend on the order of the rows. -/
instance recalc_step_comm : LeftCommutative recalc_step where
  left_comm := by
    intro a b x
    simp only [recalc_step, wrap64]
    omega

/-- The action `token::recalc`: the rows of the staking table are summed with
64-bit additions starting from `asset( 0, felix_symbol )`. -/
def recalc (c : Ctx) (s : State) : Except String State := do
  c.require_auth c.self
  pure { s with totalStake := ⟨Multiset.foldr recalc_step 0 s.staking.entries, felix_symbol⟩ }

/-! ## Calls and runs -/

/-- One call of an action of the contract, with its arguments. -/
inductive Call where
  | create (issuer : name) (maximum_supply : asset)
  | issue (to_ : name) (quantity : asset) (memo : String)
  | retire (quantity : asset) (memo : String)
  | transfer (from_ to_ : name) (quantity : asset) (memo : String)
  | open_ (owner : name) (sym : symbol) (ram_payer : name)
  | close (owner : name) (sym : symbol)
  | stake (account : name) (quantity : asset)
  | unstake (account : name) (quantity : asset)
  | restake (account : name)
  | refunddef (account : name)
  | refund (account : name)
  | banish (account : name)
  | recalc

/-- Dispatch of a call to its action. -/
def Call.apply (c : Ctx) : Call → State → Except String State
  | .create issuer maximum_supply => felix.create c issuer maximum_supply
  | .issue to_ quantity memo => felix.issue c to_ quantity memo
  | .retire quantity memo => felix.retire c quantity memo
  | .transfer from_ to_ quantity memo => felix.transfer c from_ to_ quantity memo
  | .open_ owner sym ram_payer => felix.open_ c owner sym ram_payer
  | .close owner sym => felix.close c owner sym
  | .stake account quantity => felix.stake c account quantity
  | .unstake account quantity => felix.unstake c account quantity
  | .restake account => felix.restake c account
  | .refunddef account => felix.refunddef c account
  | .refund account => felix.refund c account
  | .banish account => felix.banish c account
  | .recalc => felix.recalc c

/-- The state after a call: the result of the action when it succeeds, the
state before it when the transaction aborts. -/
def exec (c : Ctx) (call : Call) (s : State) : State :=
  match call.apply c s with
  | .ok s1 => s1
  | .error _ => s

/-- The state after a sequence of calls, each with its own context. -/
def run (calls : List (Ctx × Call)) (s : State) : State :=
  calls.foldl (fun st x => exec x.1 x.2 st) s

/-- The calls of the balance ledger and the supply registry. -/
def Call.is_token : Call → Bool
  | .create .. | .issue .. | .retire .. | .transfer .. | .open_ .. | .close .. => true
  | _ => false

/-- The calls `stake`, `unstake` and `restake`. -/
def Call.is_staking : Call → Bool
  | .stake .. | .unstake .. | .restake .. => true
  | _ => false

/-- The calls `create`, `issue`, `retire` and `transfer`. -/
def Call.is_registry : Call → Bool
  | .create .. | .issue .. | .retire .. | .transfer .. => true
  | _ => false

/-! ## Observations -/

/-- The sum of `f` over the rows of a table. -/
def Tbl.sum {κ α : Type} (t : Tbl κ α) (f : κ → α → Int) : Int :=
  (t.entries.map (fun e => f e.1 e.2)).sum

/-- The amount of the row with key `k` of a table of assets, `0` when there
is no such row. -/
def amount_at {κ : Type} [DecidableEq κ] (t : Tbl κ asset) (k : κ) : Int :=
  match t.lookup k with
  | some q => q.amount
  | none => 0

/-- The sum of the amounts of the rows of an `accounts` table with symbol
code `code`. -/
def accounts_sum (t : Tbl (name × symbol_code) asset) (code : symbol_code) : Int :=
  Tbl.sum t (fun k bal => if k.2 = code then bal.amount else 0)

/-- The amount of the balance row of `owner` for symbol code `code`, `0` when
there is no row. -/
def balance_of (s : State) (owner : name) (code : symbol_code) : Int :=
  amount_at s.accounts (owner, code)

/-- The FLX balance of `owner`. -/
def free_balance (s : State) (owner : name) : Int := balance_of s owner felix_symbol.code

/-- The staked amount of `account`, `0` when there is no staking row. -/
def staked_of (s : State) (account : name) : Int := amount_at s.staking account

/-- The pending amount of `account`, `0` when there is no unstaking row. -/
def pending_of (s : State) (account : name) : Int :=
  match s.unstaking.lookup account with
  | some u => u.quantity.amount
  | none => 0

/-- The sum of the amounts of all balance rows with symbol code `code`. -/
def balance_sum (s : State) (code : symbol_code) : Int := accounts_sum s.accounts code

/-- The sum of the quantities of all staking rows. -/
def staked_sum (s : State) : Int := Tbl.sum s.staking (fun _ q => q.amount)

/-- The supply of the currency with symbol code `code`, `0` when the
currency has no row in `stat`. -/
def supply_of (s : State) (code : symbol_code) : Int :=
  match s.stats.lookup code with
  | some st => st.supply.amount
  | none => 0

/-! ## A sample ledger -/

/-- A context in which the accounts of `auth` authorise the action, every
name is an existing account, and the block time is `now`. -/
def sample_ctx (auth : List name) (now : Int) : Ctx :=
  { self := felixtokenio, auth := auth, is_account := fun _ => true, now := now }

/-- The quantity of `n` units of FLX. -/
def flx (n : Int) : asset := ⟨n, felix_symbol⟩

/-- The calls of the scenario of the specification up to the transfer: the
contract creates FLX with a maximum of 1000 units for issuer `1`, who issues
500 units and transfers 200 of them to account `2`. -/
def sample_calls : List (Ctx × Call) :=
  [ (sample_ctx [felixtokenio] 0, .create 1 (flx 1000)),
    (sample_ctx [1] 0, .issue 1 (flx 500) ""),
    (sample_ctx [1] 0, .transfer 1 2 (flx 200) "") ]

/-- The ledger after `sample_calls`. -/
def sample_state : State := run sample_calls State.empty

/-- Account `2` stakes 150 units, asks 50 of them back, and the contract
restakes them. -/
def sample_staking_calls : List (Ctx × Call) :=
  [ (sample_ctx [2] 0, .stake 2 (flx 150)),
    (sample_ctx [2] 500000, .unstake 2 (flx 50)),
    (sample_ctx [felixtokenio] 600000, .restake 2) ]

/-- A ledger on which everything is staked: FLX is created with the largest
maximum supply, account `1` issues all of it and passes it to account `2`,
who stakes all of it; the escrow account then sends one unit back to `2`. -/
def full_stake_calls : List (Ctx × Call) :=
  [ (sample_ctx [felixtokenio] 0, .create 1 (flx max_amount)),
    (sample_ctx [1] 0, .issue 1 (flx max_amount) ""),
    (sample_ctx [1] 0, .transfer 1 2 (flx max_amount) ""),
    (sample_ctx [2] 0, .stake 2 (flx max_amount)),
    (sample_ctx [felixstaking] 0, .transfer felixstaking 2 (flx 1) "") ]

/-- The sample ledger after account `2` staked 150 units at time `0` and
asked all of them back half a second later. -/
def pending_state : State :=
  run [ (sample_ctx [2] 0, .stake 2 (flx 150)),
        (sample_ctx [2] 500000, .unstake 2 (flx 150)) ] sample_state

/-- The sample ledger after issuer `1` sent 200 units to the account
`felixtokenio`, which staked 150 of them. -/
def penalty_staker_state : State :=
  run [ (sample_ctx [1] 0, .transfer 1 felixtokenio (flx 200) ""),
        (sample_ctx [felixtokenio] 0, .stake felixtokenio (flx 150)) ] sample_state

/-! ## State predicates -/

/-- Conservation: for every symbol code the stored supply equals the sum of
the balance rows of that currency (both `0` when the currency has no row). -/
def conserved (s : State) : Prop :=
  ∀ code, supply_of s code = balance_sum s code

/-- Every balance row holds a non-negative amount. -/
def balances_nonneg (s : State) : Prop :=
  ∀ k bal, s.accounts.lookup k = some bal → 0 ≤ bal.amount

/-- Every staking row and every unstaking row holds a positive quantity. -/
def stakes_positive (s : State) : Prop :=
  (∀ a q, s.staking.lookup a = some q → 0 < q.amount)
    ∧ ∀ a u, s.unstaking.lookup a = some u → 0 < u.quantity.amount

/-- Every row of `stat` has `supply ≤ max_supply ≤ asset::max_amount`. -/
def supply_bounded (s : State) : Prop :=
  ∀ code st, s.stats.lookup code = some st →
    st.supply.amount ≤ st.max_supply.amount ∧ st.max_supply.amount ≤ max_amount

/-- The value is representable as an `int64_t`. -/
def is_int64 (x : Int) : Prop := -9223372036854775808 ≤ x ∧ x < 9223372036854775808

/-- The Total-Stake Aggregate equals the sum of the quantities of all staking
rows, as an FLX asset. -/
def aggregate_exact (s : State) : Prop := s.totalStake = ⟨staked_sum s, felix_symbol⟩

/-- FLX is registered in `stat` with precision 4, and every FLX balance row
holds an FLX amount between `0` and `asset::max_amount`. -/
@[reducible] def flx_ledger_ok (s : State) : Prop :=
  (s.stats.lookup felix_symbol.code).map (fun st => st.supply.symbol) = some felix_symbol
    ∧ ∀ e ∈ s.accounts.entries, e.1.2 = felix_symbol.code →
        e.2.symbol = felix_symbol ∧ 0 ≤ e.2.amount ∧ e.2.amount ≤ max_amount

/-- Every staking row and every unstaking row holds a positive FLX quantity,
and the Total-Stake Aggregate is an FLX asset within `±asset::max_amount`. -/
@[reducible] def flx_staking_ok (s : State) : Prop :=
  (∀ e ∈ s.staking.entries, e.2.symbol = felix_symbol ∧ 0 < e.2.amount)
    ∧ (∀ e ∈ s.unstaking.entries,
        e.2.quantity.symbol = felix_symbol ∧ 0 < e.2.quantity.amount)
    ∧ s.totalStake.symbol = felix_symbol
    ∧ -max_amount ≤ s.totalStake.amount ∧ s.totalStake.amount ≤ max_amount

/-- The invariant of the ledger. -/
def Inv (s : State) : Prop :=
  conserved s ∧ balances_nonneg s ∧ stakes_positive s ∧ supply_bounded s

/-- The sum of the quantities of all unstaking rows. -/
def pending_sum (s : State) : Int := Tbl.sum s.unstaking (fun _ u => u.quantity.amount)

/-- FLX has a row in `stat` whose supply carries `felix_symbol`. -/
def flx_reg (s : State) : Prop :=
  ∃ st, s.stats.lookup felix_symbol.code = some st ∧ st.supply.symbol = felix_symbol

/-- Every staking row, every unstaking row and the Total-Stake Aggregate carry
`felix_symbol`. -/
def rows_flx (s : State) : Prop :=
  (∀ a q, s.staking.lookup a = some q → q.symbol = felix_symbol)
    ∧ (∀ a u, s.unstaking.lookup a = some u → u.quantity.symbol = felix_symbol)
    ∧ s.totalStake.symbol = felix_symbol

/-- The Total-Stake Aggregate is at least the sum of the staking rows and at
most `asset::max_amount`. -/
def agg_ok (s : State) : Prop :=
  staked_sum s ≤ s.totalStake.amount ∧ s.totalStake.amount ≤ max_amount

/-- A staking row or an unstaking row exists only when FLX is registered. -/
def reg_if_rows (s : State) : Prop :=
  (∀ a q, s.staking.lookup a = some q → flx_reg s)
    ∧ ∀ a u, s.unstaking.lookup a = some u → flx_reg s

/-- The escrow account has neither a staking row nor an unstaking row. -/
def escrow_idle (s : State) : Prop :=
  s.staking.lookup felixstaking = none ∧ s.unstaking.lookup felixstaking = none

/-- Every balance row carries the symbol registered in `stat` for its key. -/
def sym_ok (s : State) : Prop :=
  ∀ o code bal, s.accounts.lookup (o, code) = some bal →
    ∃ st, s.stats.lookup code = some st ∧ bal.symbol = st.supply.symbol

/-- Every row of `stat` has a valid supply symbol. -/
def stats_ok (s : State) : Prop :=
  ∀ code st, s.stats.lookup code = some st → st.supply.symbol.is_valid = true

/-- The rows of `stat` of the first state are still there in the second one,
with the same supply symbol and issuer. -/
def stats_grow (s s1 : State) : Prop :=
  ∀ code st, s.stats.lookup code = some st →
    ∃ st1, s1.stats.lookup code = some st1 ∧ st1.supply.symbol = st.supply.symbol
      ∧ st1.issuer = st.issuer

/-- Every unstaking row holds at most `asset::max_amount`. -/
def pending_bounded (s : State) : Prop :=
  ∀ a u, s.unstaking.lookup a = some u → u.quantity.amount ≤ max_amount

/-- The part of the second invariant that concerns the staking tables. -/
def stk_ok (s : State) : Prop :=
  rows_flx s ∧ agg_ok s ∧ reg_if_rows s ∧ escrow_idle s ∧ pending_bounded s

/-- The second invariant of the ledger: symbols and the aggregate. -/
def Inv2 (s : State) : Prop :=
  stk_ok s ∧ sym_ok s ∧ stats_ok s

/-- The escrow account covers the staking rows and the unstaking rows. -/
def solvent (s : State) : Prop :=
  staked_sum s + pending_sum s ≤ free_balance s felixstaking

/-- No currency has the escrow account as its issuer. -/
def no_escrow_issuer (s : State) : Prop :=
  ∀ code st, s.stats.lookup code = some st → st.issuer ≠ felixstaking

/-- The calls in which the escrow account is neither made the issuer of a
currency nor the sender of a `transfer` action called from outside; the
transfers sent inline by `refund`, `refunddef` and `banish` are part of those
calls. -/
def Call.escrow_passive : Call → Bool
  | .create issuer _ => decide (issuer ≠ felixstaking)
  | .transfer from_ _ _ _ => decide (from_ ≠ felixstaking)
  | _ => true

/-- The pending quantity that a call adds to the excess of the Total-Stake
Aggregate over the staking rows: a successful `banish` adds the pending
quantity of the banished account, a successful `recalc` clears the excess. -/
def drift_step (c : Ctx) (call : Call) (s : State) (d : Int) : Int :=
  match call, call.apply c s with
  | .banish account, .ok _ => d + pending_of s account
  | .recalc, .ok _ => 0
  | _, _ => d

/-- The sum of the pending quantities of the unstaking rows erased by `banish`
since the last `recalc`, along a sequence of calls that starts in state `s`
with excess `d`. -/
def drift : List (Ctx × Call) → State → Int → Int
  | [], _, d => d
  | x :: rest, s, d => drift rest (exec x.1 x.2 s) (drift_step x.1 x.2 s d)

/-- The scenario calls followed by the stake of 150 units by account `2`. -/
def staked_calls : List (Ctx × Call) :=
  sample_calls ++ [ (sample_ctx [2] 0, .stake 2 (flx 150)) ]

/-- The calls that lead to `pending_state`. -/
def pending_calls : List (Ctx × Call) :=
  staked_calls ++ [ (sample_ctx [2] 500000, .unstake 2 (flx 150)) ]

/-- Account `2` stakes the whole supply, asks all of it back, receives it from
the escrow account by a transfer and stakes it again: the pending quantity and
the staked quantity are both `asset::max_amount`. -/
def pending_full_calls : List (Ctx × Call) :=
  [ (sample_ctx [felixtokenio] 0, .create 1 (flx max_amount)),
    (sample_ctx [1] 0, .issue 1 (flx max_amount) ""),
    (sample_ctx [1] 0, .transfer 1 2 (flx max_amount) ""),
    (sample_ctx [2] 0, .stake 2 (flx max_amount)),
    (sample_ctx [2] 0, .unstake 2 (flx max_amount)),
    (sample_ctx [felixstaking] 0, .transfer felixstaking 2 (flx max_amount) ""),
    (sample_ctx [2] 0, .stake 2 (flx max_amount)) ]

/-- Account `2` stakes 150 units and asks 50 of them back, account `1` stakes
100 units; the contract banishes `2` and then recomputes the aggregate. -/
def banish_calls : List (Ctx × Call) :=
  sample_calls ++
    [ (sample_ctx [2] 0, .stake 2 (flx 150)),
      (sample_ctx [2] 0, .unstake 2 (flx 50)),
      (sample_ctx [1] 0, .stake 1 (flx 100)),
      (sample_ctx [felixtokenio] 0, .banish 2) ]

/-- The scenario calls, the stake of 150 units by account `2`, and its
request to get 50 of them back. -/
def requested_calls : List (Ctx × Call) :=
  staked_calls ++ [ (sample_ctx [2] 500000, .unstake 2 (flx 50)) ]

/-- The symbol `eos_symbol`: `EOS` with precision 4. -/
def eos_symbol : symbol := ⟨5459781, 4⟩

/-- The account `felixfunding`, which pays the dividends. -/
def felixfunding : name := 6531044846424794816

/-- The account `eosio.token`, the contract of the currency of the dividends. -/
def eosio_token : name := 6138663591592764928

/-- A finite value of the C++ type `double` (IEEE 754 binary64): the number
`m * 2^e`, with a significand `m` of at most 53 bits. The sign of a zero is
not recorded; no operation of `dividend` depends on it. -/
structure f64 where
  m : Int
  e : Int
deriving DecidableEq

/-- The number of binary digits of `n`, counted in at most `fuel` halvings. -/
def bit_length_loop : Nat → Nat → Nat
  | 0, _ => 0
  | fuel + 1, n => if n = 0 then 0 else bit_length_loop fuel (n / 2) + 1

/-- The number of binary digits of `n`. -/
def bit_length (n : Nat) : Nat := bit_length_loop n n

/-- The binary64 value nearest to the rational `n / d` (for `d > 0`), ties to
the even significand. The quotient is computed with one or two digits more
than the 53 of the significand, and the remainder of the division is the
sticky digit. The exponent is not limited: the values that `dividend` forms
from `int64_t` amounts have a magnitude between `2^-64` and `2^127` or are
zero, inside the normal range of binary64. -/
def f64.round (n : Int) (d : Nat) : f64 :=
  if n = 0 then ⟨0, 0⟩
  else
    let a := n.natAbs
    let sh : Int := 54 - (bit_length a : Int) + (bit_length d : Int)
    let num := a * 2 ^ sh.toNat
    let den := d * 2 ^ (-sh).toNat
    let q := num / den
    let r := num % den
    let extra := bit_length q - 53
    let m0 := q / 2 ^ extra
    let low := q % 2 ^ extra
    let half := 2 ^ (extra - 1)
    let up : Bool := decide (half < low) || (decide (low = half) && (decide (r ≠ 0) || decide (m0 % 2 = 1)))
    let m : Int := if up then (m0 : Int) + 1 else (m0 : Int)
    ⟨if 0 < n then m else -m, (extra : Int) - sh⟩

/-- The conversion of an `int64_t` to `double`. -/
def f64.of_int (i : Int) : f64 := f64.round i 1

/-- The quotient of two doubles, rounded; `none` stands for the infinity or
the NaN that a zero divisor gives. -/
def f64.div (x y : f64) : Option f64 :=
  if y.m = 0 then none
  else
    let k := x.e - y.e
    let n := x.m * 2 ^ k.toNat
    let d := y.m.natAbs * 2 ^ (-k).toNat
    some (f64.round (if 0 < y.m then n else -n) d)

/-- The product of two doubles, rounded. -/
def f64.mul (x y : f64) : f64 :=
  let k := x.e + y.e
  f64.round (x.m * y.m * 2 ^ k.toNat) (2 ^ (-k).toNat)

/-- The conversion `static_cast<int64_t>` of a double: the integer part,
rounded toward zero. -/
def f64.to_int64 (x : f64) : Int :=
  if 0 ≤ x.e then x.m * 2 ^ x.e.toNat else Int.tdiv x.m (2 ^ (-x.e).toNat)

/-- An action sent to another contract: `contract::transfer( from, to,
quantity, memo )`. -/
structure payment where
  contract : name
  from_ : name
  to_ : name
  quantity : asset
  memo : String
deriving DecidableEq

/-- The action `token::dividend`. It writes no table of this contract: the
result is the unchanged state and the list of the actions sent to other
contracts. The constructor `asset( amount, eos_symbol )` aborts unless the
amount is within `±asset::max_amount`. The conversion of an infinity or a NaN
(the product after a division by zero) to `int64_t` is undefined in C++; in
the WebAssembly code of the contract it traps or yields `INT64_MIN`, and the
action aborts in both cases, as it does here. -/
def dividend (c : Ctx) (account : name) (baseAmount totalAmount : asset) (s : State) :
    Except String (State × List payment) := do
  c.require_auth c.self
  match s.staking.lookup account with
  | none => .error "No staking account"
  | some staked =>
    match f64.div (f64.of_int staked.amount) (f64.of_int totalAmount.amount) with
    | none => .error "magnitude of asset amount must be less than 2^62"
    | some ratio => do
      let quantity : asset :=
        ⟨f64.to_int64 (f64.mul (f64.of_int baseAmount.amount) ratio), eos_symbol⟩
      check quantity.is_amount_within_range "magnitude of asset amount must be less than 2^62"
      check quantity.symbol.is_valid "invalid symbol name"
      if quantity.amount > 0 then
        pure (s, [⟨eosio_token, felixfunding, account, quantity, "dividend"⟩])
      else pure (s, [])

/-- The payout that `dividend` computes from the base amount `b`, the staked
amount `s` and the total amount `T`: the binary64 quotient of `s` and `T`, the
binary64 product of `b` with it, truncated to an integer; `none` when `T` is
zero. -/
def binary64_payout (b s T : Int) : Option Int :=
  (f64.div (f64.of_int s) (f64.of_int T)).map
    (fun ratio => f64.to_int64 (f64.mul (f64.of_int b) ratio))

/-- The payout of the specification: `floor(b * (s / T))` in exact rational
arithmetic. -/
def exact_payout (b s T : Int) : Int := Int.floor ((b : ℚ) * ((s : ℚ) / (T : ℚ)))

/-! ## Sums over tables -/

theorem list_sum_kerase {κ α : Type} [DecidableEq κ] (g : κ → α → Int) (k : κ) :
    ∀ l : List (Sigma (fun _ : κ => α)),
      ((l.kerase k).map (fun e => g e.1 e.2)).sum
        = (l.map (fun e => g e.1 e.2)).sum
          - (match l.dlookup k with | some o => g k o | none => 0)
  | [] => by simp
  | ⟨a, b⟩ :: l => by
    by_cases h : k = a
    · subst h
      simp [List.kerase_cons_eq, List.dlookup_cons_eq]
    · rw [List.kerase_cons_ne h, List.dlookup_cons_ne _ _ h]
      simp only [List.map_cons, List.sum_cons]
      rw [list_sum_kerase g k l]
      ring

theorem Tbl.sum_erase {κ α : Type} [DecidableEq κ] (t : Tbl κ α) (f : κ → α → Int) (k : κ) :
    Tbl.sum (t.erase k) f
      = Tbl.sum t f - (match t.lookup k with | some o => f k o | none => 0) := by
  induction t using Finmap.induction_on with
  | _ a =>
    rw [Finmap.erase_toFinmap, Finmap.lookup_toFinmap]
    simp only [Tbl.sum, AList.toFinmap_entries, AList.erase, Multiset.map_coe, Multiset.sum_coe]
    exact list_sum_kerase f k a.entries

theorem Tbl.sum_insert {κ α : Type} [DecidableEq κ] (t : Tbl κ α) (f : κ → α → Int) (k : κ) (v : α) :
    Tbl.sum (t.insert k v) f
      = Tbl.sum t f - (match t.lookup k with | some o => f k o | none => 0) + f k v := by
  induction t using Finmap.induction_on with
  | _ a =>
    rw [Finmap.insert_toFinmap, Finmap.lookup_toFinmap]
    simp only [Tbl.sum, AList.toFinmap_entries, AList.insert_entries, Multiset.map_coe, Multiset.sum_coe,
      List.map_cons, List.sum_cons]
    have := list_sum_kerase f k a.entries
    simp only [AList.lookup] 
    rw [this]
    ring

theorem Tbl.sum_empty {κ α : Type} (f : κ → α → Int) : Tbl.sum (∅ : Tbl κ α) f = 0 := by
  rfl


/-! ## Checks and asset arithmetic -/

theorem check_ok_iff (p : Bool) (m : String) (u : Unit) : check p m = .ok u ↔ p = true := by
  cases p <;> simp [check]

theorem check_true (m : String) : check true m = .ok () := rfl

theorem bind_ok_iff {α β : Type} (x : Except String α) (f : α → Except String β) (b : β) :
    (x >>= f) = .ok b ↔ ∃ a, x = .ok a ∧ f a = .ok b := by
  cases x with
  | error e => simp [bind, Except.bind]
  | ok a => simp [bind, Except.bind]

theorem asset.add_ok_iff (a b r : asset) :
    a.add b = .ok r ↔ b.symbol = a.symbol ∧ -max_amount ≤ a.amount + b.amount
      ∧ a.amount + b.amount ≤ max_amount ∧ r = ⟨a.amount + b.amount, a.symbol⟩ := by
  simp only [asset.add, bind_ok_iff, check_ok_iff, pure, Except.pure, Except.ok.injEq,
    decide_eq_true_eq, exists_const]
  constructor
  · rintro ⟨h1, h2, h3, h4⟩; exact ⟨h1, h2, h3, h4.symm⟩
  · rintro ⟨h1, h2, h3, h4⟩; exact ⟨h1, h2, h3, h4.symm⟩

theorem asset.sub_ok_iff (a b r : asset) :
    a.sub b = .ok r ↔ b.symbol = a.symbol ∧ -max_amount ≤ a.amount - b.amount
      ∧ a.amount - b.amount ≤ max_amount ∧ r = ⟨a.amount - b.amount, a.symbol⟩ := by
  simp only [asset.sub, bind_ok_iff, check_ok_iff, pure, Except.pure, Except.ok.injEq,
    decide_eq_true_eq, exists_const]
  constructor
  · rintro ⟨h1, h2, h3, h4⟩; exact ⟨h1, h2, h3, h4.symm⟩
  · rintro ⟨h1, h2, h3, h4⟩; exact ⟨h1, h2, h3, h4.symm⟩

theorem sub_balance_ok {owner : name} {value : asset} {s s1 : State}
    (h : sub_balance owner value s = .ok s1) :
      ∃ bal, s.accounts.lookup (owner, value.symbol.code) = some bal
        ∧ value.amount ≤ bal.amount ∧ value.symbol = bal.symbol
        ∧ s1 = { s with
            accounts := s.accounts.insert (owner, value.symbol.code)
              ⟨bal.amount - value.amount, bal.symbol⟩ } := by
  unfold sub_balance at h
  split at h
  · cases h
  · rename_i bal hb
    simp only [bind_ok_iff, check_ok_iff, asset.sub_ok_iff, pure, Except.pure, Except.ok.injEq,
      decide_eq_true_eq, exists_const] at h
    obtain ⟨h1, b, ⟨h2, -, -, rfl⟩, rfl⟩ := h
    exact ⟨bal, hb, h1, h2, rfl⟩

theorem add_balance_ok {owner : name} {value : asset} {p : name} {s s1 : State}
    (h : add_balance owner value p s = .ok s1) :
      ∃ b, s1 = { s with accounts := s.accounts.insert (owner, value.symbol.code) b }
        ∧ b.symbol = value.symbol
        ∧ b.amount = balance_of s owner value.symbol.code + value.amount := by
  unfold add_balance at h
  split at h
  · rename_i hb
    simp only [pure, Except.pure, Except.ok.injEq] at h
    exact ⟨value, h.symm, rfl, by simp [balance_of, amount_at, hb]⟩
  · rename_i bal hb
    simp only [bind_ok_iff, asset.add_ok_iff, pure, Except.pure, Except.ok.injEq] at h
    obtain ⟨b, ⟨h2, -, -, rfl⟩, rfl⟩ := h
    exact ⟨_, rfl, h2.symm, by simp [balance_of, amount_at, hb]⟩

/-! ## Balances under table updates -/

theorem Tbl.sum_nonneg {κ α : Type} [DecidableEq κ] (t : Tbl κ α) (f : κ → α → Int)
    (h : ∀ k v, t.lookup k = some v → 0 ≤ f k v) : 0 ≤ Tbl.sum t f := by
  unfold Tbl.sum
  apply Multiset.sum_nonneg
  intro x hx
  obtain ⟨e, he, rfl⟩ := Multiset.mem_map.1 hx
  apply h e.1 e.2
  have : e.2 ∈ t.lookup e.1 := Finmap.mem_lookup_iff.2 (by simpa using he)
  simpa using this

theorem amount_at_insert {κ : Type} [DecidableEq κ] (t : Tbl κ asset) (k : κ) (b : asset)
    (k1 : κ) : amount_at (t.insert k b) k1 = if k1 = k then b.amount else amount_at t k1 := by
  unfold amount_at
  by_cases h : k1 = k
  · subst h
    simp [Finmap.lookup_insert]
  · simp only [Finmap.lookup_insert_of_ne _ h, if_neg h]

theorem amount_at_erase {κ : Type} [DecidableEq κ] (t : Tbl κ asset) (k k1 : κ) :
    amount_at (t.erase k) k1 = if k1 = k then 0 else amount_at t k1 := by
  unfold amount_at
  by_cases h : k1 = k
  · subst h
    simp [Finmap.lookup_erase]
  · simp only [Finmap.lookup_erase_ne h, if_neg h]

theorem accounts_sum_insert (t : Tbl (name × symbol_code) asset) (o : name) (c : symbol_code)
    (b : asset) (code : symbol_code) :
    accounts_sum (t.insert (o, c) b) code
      = accounts_sum t code + (if c = code then b.amount - amount_at t (o, c) else 0) := by
  simp only [accounts_sum, amount_at, Tbl.sum_insert]
  cases t.lookup (o, c) <;> by_cases hc : c = code <;> simp [hc]
  ring

theorem accounts_sum_erase (t : Tbl (name × symbol_code) asset) (o : name) (c : symbol_code)
    (code : symbol_code) :
    accounts_sum (t.erase (o, c)) code
      = accounts_sum t code - (if c = code then amount_at t (o, c) else 0) := by
  simp only [accounts_sum, amount_at, Tbl.sum_erase]
  cases t.lookup (o, c) <;> by_cases hc : c = code <;> simp [hc]

theorem balance_sum_nonneg (s : State) (h : balances_nonneg s) (code : symbol_code) :
    0 ≤ balance_sum s code := by
  unfold balance_sum accounts_sum
  apply Tbl.sum_nonneg
  intro k v hk
  have := h k v hk
  split <;> omega

theorem staked_sum_insert (t : Tbl name asset) (a : name) (q : asset) :
    Tbl.sum (t.insert a q) (fun _ x => x.amount)
      = Tbl.sum t (fun _ x => x.amount) + (q.amount - amount_at t a) := by
  simp only [amount_at, Tbl.sum_insert]
  cases t.lookup a <;> simp
  ring

theorem staked_sum_erase (t : Tbl name asset) (a : name) :
    Tbl.sum (t.erase a) (fun _ x => x.amount)
      = Tbl.sum t (fun _ x => x.amount) - amount_at t a := by
  simp only [amount_at, Tbl.sum_erase]
  cases t.lookup a <;> simp


/-! ## Inversion of the balance ledger actions -/

theorem require_auth_ok_iff (c : Ctx) (n : name) (u : Unit) :
    c.require_auth n = .ok u ↔ n ∈ c.auth := by
  simp [Ctx.require_auth, Ctx.has_auth, check_ok_iff]

theorem transfer_ok {c : Ctx} {from_ to_ : name} {quantity : asset} {memo : String}
    {s s1 : State} (h : transfer c from_ to_ quantity memo s = .ok s1) :
    from_ ≠ to_ ∧ from_ ∈ c.auth ∧ c.is_account to_ = true ∧ quantity.is_valid = true
      ∧ 0 < quantity.amount
      ∧ (∃ st, s.stats.lookup quantity.symbol.code = some st
          ∧ quantity.symbol = st.supply.symbol)
      ∧ ∃ bf bt, s.accounts.lookup (from_, quantity.symbol.code) = some bf
          ∧ quantity.amount ≤ bf.amount ∧ quantity.symbol = bf.symbol
          ∧ bt.symbol = quantity.symbol
          ∧ bt.amount = amount_at s.accounts (to_, quantity.symbol.code) + quantity.amount
          ∧ s1 = { s with
              accounts := (s.accounts.insert (from_, quantity.symbol.code)
                ⟨bf.amount - quantity.amount, bf.symbol⟩).insert
                  (to_, quantity.symbol.code) bt } := by
  unfold transfer at h
  simp only [bind_ok_iff, check_ok_iff, require_auth_ok_iff, decide_eq_true_eq, exists_const] at h
  obtain ⟨hne, hauth, hacc, h⟩ := h
  split at h
  · cases h
  · rename_i st hst
    simp only [bind_ok_iff, check_ok_iff, decide_eq_true_eq, exists_const] at h
    obtain ⟨hv, hpos, hsym, -, s', hsub, hadd⟩ := h
    obtain ⟨bf, hbf, hle, hs, rfl⟩ := sub_balance_ok hsub
    obtain ⟨bt, rfl, hbs, hba⟩ := add_balance_ok hadd
    refine ⟨hne, hauth, hacc, hv, hpos, ⟨st, hst, hsym⟩, bf, bt, hbf, hle, hs, hbs, ?_, rfl⟩
    rw [hba]
    simp only [balance_of, amount_at_insert]
    rw [if_neg]
    exact fun e => hne (congrArg Prod.fst e).symm


theorem transfer_effect {c : Ctx} {from_ to_ : name} {quantity : asset} {memo : String}
    {s s1 : State} (h : transfer c from_ to_ quantity memo s = .ok s1) :
    s1.stats = s.stats ∧ s1.staking = s.staking ∧ s1.unstaking = s.unstaking
      ∧ s1.totalStake = s.totalStake ∧ s1.deferred = s.deferred
      ∧ (∀ code, balance_sum s1 code = balance_sum s code)
      ∧ (balances_nonneg s → balances_nonneg s1)
      ∧ ∀ o code, balance_of s1 o code = balance_of s o code
          + (if o = to_ ∧ code = quantity.symbol.code then quantity.amount else 0)
          - (if o = from_ ∧ code = quantity.symbol.code then quantity.amount else 0) := by
  obtain ⟨hne, -, -, -, hpos, -, bf, bt, hbf, hle, -, -, hbt, rfl⟩ := transfer_ok h
  have hbf' : amount_at s.accounts (from_, quantity.symbol.code) = bf.amount := by
    simp [amount_at, hbf]
  have hk : (to_, quantity.symbol.code) ≠ (from_, quantity.symbol.code) :=
    fun e => hne (congrArg Prod.fst e).symm
  refine ⟨rfl, rfl, rfl, rfl, rfl, ?_, ?_, ?_⟩
  · intro code
    simp only [balance_sum, accounts_sum_insert, amount_at_insert, if_neg hk, hbt, hbf']
    by_cases hc : quantity.symbol.code = code <;> simp [hc]
  · intro hn k bal hk1
    by_cases h1 : k = (to_, quantity.symbol.code)
    · subst h1
      rw [Finmap.lookup_insert] at hk1
      cases hk1
      have : 0 ≤ amount_at s.accounts (to_, quantity.symbol.code) := by
        unfold amount_at
        split
        · rename_i q hq; exact hn _ _ hq
        · exact le_refl 0
      omega
    · rw [Finmap.lookup_insert_of_ne _ h1] at hk1
      by_cases h2 : k = (from_, quantity.symbol.code)
      · subst h2
        rw [Finmap.lookup_insert] at hk1
        cases hk1
        show 0 ≤ bf.amount - quantity.amount
        omega
      · rw [Finmap.lookup_insert_of_ne _ h2] at hk1
        exact hn k bal hk1
  · intro o code
    simp only [balance_of, amount_at_insert, Prod.mk.injEq, hbt]
    by_cases h1 : o = to_ ∧ code = quantity.symbol.code
    · obtain ⟨rfl, rfl⟩ := h1
      simp [hne.symm]
    · rw [if_neg h1, if_neg h1]
      by_cases h2 : o = from_ ∧ code = quantity.symbol.code
      · obtain ⟨rfl, rfl⟩ := h2
        simp [hbf']
      · simp [h2]

theorem Inv.of_accounts {s s1 : State} (hs : Inv s) (h1 : s1.stats = s.stats)
    (h2 : s1.staking = s.staking) (h3 : s1.unstaking = s.unstaking)
    (h4 : ∀ code, balance_sum s1 code = balance_sum s code)
    (h5 : balances_nonneg s1) : Inv s1 := by
  obtain ⟨hc, -, hp, hb⟩ := hs
  refine ⟨?_, h5, ?_, ?_⟩
  · intro code
    rw [h4, ← hc code]
    simp only [supply_of, h1]
  · simpa only [stakes_positive, h2, h3] using hp
  · simpa only [supply_bounded, h1] using hb

theorem Inv.transfer {c : Ctx} {from_ to_ : name} {quantity : asset} {memo : String}
    {s s1 : State} (hs : Inv s) (h : transfer c from_ to_ quantity memo s = .ok s1) :
    Inv s1 := by
  obtain ⟨h1, h2, h3, -, -, h4, h5, -⟩ := transfer_effect h
  exact hs.of_accounts h1 h2 h3 h4 (h5 hs.2.1)


theorem wrap64_of_range (x : Int) (h1 : -9223372036854775808 ≤ x)
    (h2 : x < 9223372036854775808) : wrap64 x = x := by
  unfold wrap64
  omega

theorem supply_nonneg {s : State} (hs : Inv s) (code : symbol_code) : 0 ≤ supply_of s code := by
  rw [hs.1 code]
  exact balance_sum_nonneg s hs.2.1 code

theorem create_ok {c : Ctx} {issuer : name} {maximum_supply : asset} {s s1 : State}
    (h : create c issuer maximum_supply s = .ok s1) :
    c.self ∈ c.auth ∧ maximum_supply.is_valid = true ∧ 0 < maximum_supply.amount
      ∧ s.stats.lookup maximum_supply.symbol.code = none
      ∧ s1 = { s with
          stats := s.stats.insert maximum_supply.symbol.code
            { supply := ⟨0, maximum_supply.symbol⟩, max_supply := maximum_supply,
              issuer := issuer } } := by
  unfold create at h
  simp only [bind_ok_iff, check_ok_iff, require_auth_ok_iff, decide_eq_true_eq, exists_const,
    Option.isNone_iff_eq_none, pure, Except.pure, Except.ok.injEq] at h
  obtain ⟨h1, -, h2, h3, h4, h5⟩ := h
  exact ⟨h1, h2, h3, h4, h5.symm⟩

theorem Inv.create {c : Ctx} {issuer : name} {maximum_supply : asset} {s s1 : State}
    (hs : Inv s) (h : create c issuer maximum_supply s = .ok s1) : Inv s1 := by
  obtain ⟨-, hv, hpos, hnone, rfl⟩ := create_ok h
  obtain ⟨hc, hn, hp, hb⟩ := hs
  refine ⟨?_, hn, hp, ?_⟩
  · intro code
    have := hc code
    simp only [supply_of, balance_sum] at this ⊢
    by_cases hcode : code = maximum_supply.symbol.code
    · subst hcode
      rw [Finmap.lookup_insert]
      rw [hnone] at this
      exact this
    · rw [Finmap.lookup_insert_of_ne _ hcode]
      exact this
  · intro code st hst
    by_cases hcode : code = maximum_supply.symbol.code
    · subst hcode
      rw [Finmap.lookup_insert] at hst
      cases hst
      simp only [asset.is_valid, asset.is_amount_within_range, Bool.and_eq_true,
        decide_eq_true_eq] at hv
      exact ⟨le_of_lt hpos, hv.1.2⟩
    · rw [Finmap.lookup_insert_of_ne _ hcode] at hst
      exact hb code st hst

theorem issue_ok {c : Ctx} {to_ : name} {quantity : asset} {memo : String} {s s1 : State}
    (h : issue c to_ quantity memo s = .ok s1) :
    ∃ st, s.stats.lookup quantity.symbol.code = some st ∧ to_ = st.issuer
      ∧ st.issuer ∈ c.auth ∧ 0 < quantity.amount ∧ quantity.symbol = st.supply.symbol
      ∧ quantity.amount ≤ wrap64 (st.max_supply.amount - st.supply.amount)
      ∧ add_balance st.issuer quantity st.issuer
          { s with
            stats := s.stats.insert quantity.symbol.code
              { st with supply := ⟨st.supply.amount + quantity.amount, st.supply.symbol⟩ } }
          = .ok s1 := by
  unfold issue at h
  simp only [bind_ok_iff, check_ok_iff, decide_eq_true_eq, exists_const] at h
  obtain ⟨-, -, h⟩ := h
  split at h
  · cases h
  · rename_i st hst
    simp only [bind_ok_iff, check_ok_iff, require_auth_ok_iff, decide_eq_true_eq, exists_const,
      asset.add_ok_iff] at h
    obtain ⟨h1, h2, -, h4, h5, h6, sup, ⟨-, -, -, rfl⟩, h8⟩ := h
    exact ⟨st, hst, h1, h2, h4, h5, h6, h8⟩

theorem Inv.issue {c : Ctx} {to_ : name} {quantity : asset} {memo : String} {s s1 : State}
    (hs : Inv s) (h : issue c to_ quantity memo s = .ok s1) : Inv s1 := by
  obtain ⟨st, hst, -, -, hpos, hsym, hle, hadd⟩ := issue_ok h
  obtain ⟨b, rfl, -, hb⟩ := add_balance_ok hadd
  clear h hadd
  have hsup := supply_nonneg hs quantity.symbol.code
  obtain ⟨hc, hn, hp, hbd⟩ := hs
  have hst' := hbd _ _ hst
  simp only [supply_of, hst] at hsup
  rw [wrap64_of_range _ (by unfold max_amount at hst'; omega)
    (by unfold max_amount at hst'; omega)] at hle
  refine ⟨?_, ?_, hp, ?_⟩
  · intro code
    have := hc code
    simp only [supply_of, balance_sum, accounts_sum_insert, balance_of] at this hb ⊢
    by_cases hcode : code = quantity.symbol.code
    · subst hcode
      rw [Finmap.lookup_insert]
      simp only [hst] at this
      simp only [if_true]
      omega
    · rw [Finmap.lookup_insert_of_ne _ hcode, if_neg (Ne.symm hcode)]
      simpa using this
  · intro k bal hk
    by_cases h1 : k = (st.issuer, quantity.symbol.code)
    · subst h1
      rw [Finmap.lookup_insert] at hk
      cases hk
      have : 0 ≤ amount_at s.accounts (st.issuer, quantity.symbol.code) := by
        unfold amount_at
        split
        · rename_i q hq; exact hn _ _ hq
        · exact le_refl 0
      simp only [balance_of] at hb
      omega
    · rw [Finmap.lookup_insert_of_ne _ h1] at hk
      exact hn k bal hk
  · intro code st1 hst1
    by_cases hcode : code = quantity.symbol.code
    · subst hcode
      rw [Finmap.lookup_insert] at hst1
      cases hst1
      exact ⟨by show st.supply.amount + quantity.amount ≤ st.max_supply.amount; omega, hst'.2⟩
    · rw [Finmap.lookup_insert_of_ne _ hcode] at hst1
      exact hbd code st1 hst1


theorem retire_ok {c : Ctx} {quantity : asset} {memo : String} {s s1 : State}
    (h : retire c quantity memo s = .ok s1) :
    ∃ st, s.stats.lookup quantity.symbol.code = some st
      ∧ st.issuer ∈ c.auth ∧ 0 < quantity.amount ∧ quantity.symbol = st.supply.symbol
      ∧ sub_balance st.issuer quantity
          { s with
            stats := s.stats.insert quantity.symbol.code
              { st with supply := ⟨st.supply.amount - quantity.amount, st.supply.symbol⟩ } }
          = .ok s1 := by
  unfold retire at h
  simp only [bind_ok_iff, check_ok_iff, decide_eq_true_eq, exists_const] at h
  obtain ⟨-, -, h⟩ := h
  split at h
  · cases h
  · rename_i st hst
    simp only [bind_ok_iff, check_ok_iff, require_auth_ok_iff, decide_eq_true_eq, exists_const,
      asset.sub_ok_iff] at h
    obtain ⟨h2, -, h4, h5, sup, ⟨-, -, -, rfl⟩, h8⟩ := h
    exact ⟨st, hst, h2, h4, h5, h8⟩

theorem Inv.retire {c : Ctx} {quantity : asset} {memo : String} {s s1 : State}
    (hs : Inv s) (h : retire c quantity memo s = .ok s1) : Inv s1 := by
  obtain ⟨st, hst, -, hpos, hsym, hsub⟩ := retire_ok h
  obtain ⟨bal, hbal, hle, -, rfl⟩ := sub_balance_ok hsub
  clear h hsub
  obtain ⟨hc, hn, hp, hbd⟩ := hs
  have hst' := hbd _ _ hst
  have hbal' : amount_at s.accounts (st.issuer, quantity.symbol.code) = bal.amount := by
    simp only [amount_at] at hbal ⊢
    simp only [hbal]
  refine ⟨?_, ?_, hp, ?_⟩
  · intro code
    have := hc code
    simp only [supply_of, balance_sum, accounts_sum_insert] at this ⊢
    by_cases hcode : code = quantity.symbol.code
    · subst hcode
      rw [Finmap.lookup_insert]
      simp only [hst] at this
      simp only [if_true, hbal']
      omega
    · rw [Finmap.lookup_insert_of_ne _ hcode, if_neg (Ne.symm hcode)]
      simpa using this
  · intro k b hk
    by_cases h1 : k = (st.issuer, quantity.symbol.code)
    · subst h1
      rw [Finmap.lookup_insert] at hk
      cases hk
      show 0 ≤ bal.amount - quantity.amount
      omega
    · rw [Finmap.lookup_insert_of_ne _ h1] at hk
      exact hn k b hk
  · intro code st1 hst1
    by_cases hcode : code = quantity.symbol.code
    · subst hcode
      rw [Finmap.lookup_insert] at hst1
      cases hst1
      exact ⟨by show st.supply.amount - quantity.amount ≤ st.max_supply.amount; omega, hst'.2⟩
    · rw [Finmap.lookup_insert_of_ne _ hcode] at hst1
      exact hbd code st1 hst1

theorem open_ok {c : Ctx} {owner : name} {sym : symbol} {ram_payer : name} {s s1 : State}
    (h : open_ c owner sym ram_payer s = .ok s1) :
    s1 = s ∨ (s.accounts.lookup (owner, sym.code) = none
      ∧ s1 = { s with accounts := s.accounts.insert (owner, sym.code) ⟨0, sym⟩ }) := by
  unfold open_ at h
  simp only [bind_ok_iff, check_ok_iff, require_auth_ok_iff, exists_const] at h
  obtain ⟨-, -, h⟩ := h
  split at h
  · cases h
  · simp only [bind_ok_iff, check_ok_iff, exists_const] at h
    obtain ⟨-, h⟩ := h
    split at h
    · rename_i hnone
      simp only [bind_ok_iff, check_ok_iff, exists_const, pure, Except.pure,
        Except.ok.injEq] at h
      exact Or.inr ⟨hnone, h.2.symm⟩
    · simp only [pure, Except.pure, Except.ok.injEq] at h
      exact Or.inl h.symm

theorem Inv.open_ {c : Ctx} {owner : name} {sym : symbol} {ram_payer : name} {s s1 : State}
    (hs : Inv s) (h : felix.open_ c owner sym ram_payer s = .ok s1) : Inv s1 := by
  rcases open_ok h with rfl | ⟨hnone, rfl⟩
  · exact hs
  · refine hs.of_accounts rfl rfl rfl ?_ ?_
    · intro code
      simp only [balance_sum, accounts_sum_insert, amount_at, hnone]
      simp
    · intro k b hk
      by_cases h1 : k = (owner, sym.code)
      · subst h1
        rw [Finmap.lookup_insert] at hk
        cases hk
        exact le_refl 0
      · rw [Finmap.lookup_insert_of_ne _ h1] at hk
        exact hs.2.1 k b hk

theorem close_ok {c : Ctx} {owner : name} {sym : symbol} {s s1 : State}
    (h : close c owner sym s = .ok s1) :
    ∃ bal, s.accounts.lookup (owner, sym.code) = some bal ∧ bal.amount = 0
      ∧ s1 = { s with accounts := s.accounts.erase (owner, sym.code) } := by
  unfold close at h
  simp only [bind_ok_iff, check_ok_iff, require_auth_ok_iff, exists_const] at h
  obtain ⟨-, h⟩ := h
  split at h
  · cases h
  · rename_i bal hbal
    simp only [bind_ok_iff, check_ok_iff, exists_const, decide_eq_true_eq, pure, Except.pure,
      Except.ok.injEq] at h
    exact ⟨bal, hbal, h.1, h.2.symm⟩

theorem Inv.close {c : Ctx} {owner : name} {sym : symbol} {s s1 : State}
    (hs : Inv s) (h : felix.close c owner sym s = .ok s1) : Inv s1 := by
  obtain ⟨bal, hbal, h0, rfl⟩ := close_ok h
  refine hs.of_accounts rfl rfl rfl ?_ ?_
  · intro code
    simp only [balance_sum, accounts_sum_erase, amount_at, hbal, h0]
    simp
  · intro k b hk
    by_cases h1 : k = (owner, sym.code)
    · subst h1
      rw [Finmap.lookup_erase] at hk
      cases hk
    · rw [Finmap.lookup_erase_ne h1] at hk
      exact hs.2.1 k b hk


/-! ## Inversion of the staking actions -/

theorem erase_of_lookup_none {κ α : Type} [DecidableEq κ] (t : Tbl κ α) (k : κ)
    (h : t.lookup k = none) : t.erase k = t := by
  apply Finmap.ext_lookup
  intro x
  by_cases hx : x = k
  · subst hx
    rw [Finmap.lookup_erase, h]
  · rw [Finmap.lookup_erase_ne hx]

theorem stake_ok {c : Ctx} {account : name} {quantity : asset} {s s1 : State}
    (h : stake c account quantity s = .ok s1) :
    account ∈ c.auth ∧ 0 < quantity.amount ∧ quantity.symbol = felix_symbol
      ∧ quantity.symbol = s.totalStake.symbol
      ∧ (-max_amount ≤ s.totalStake.amount + quantity.amount
          ∧ s.totalStake.amount + quantity.amount ≤ max_amount)
      ∧ ∃ row, row.amount = staked_of s account + quantity.amount
          ∧ row.symbol = quantity.symbol
          ∧ (s.staking.lookup account = none → row = quantity)
          ∧ transfer (c.inline account) account felixstaking quantity "stake"
              { s with
                staking := s.staking.insert account row,
                totalStake := ⟨s.totalStake.amount + quantity.amount, s.totalStake.symbol⟩ }
              = .ok s1 := by
  unfold stake at h
  simp only [bind_ok_iff, check_ok_iff, require_auth_ok_iff, decide_eq_true_eq,
    exists_const] at h
  obtain ⟨h1, h2, h3, h⟩ := h
  split at h
  · rename_i hnone
    simp only [bind_ok_iff, asset.add_ok_iff, pure, Except.pure, Except.ok.injEq] at h
    obtain ⟨row, rfl, total, ⟨h4, r1, r2, rfl⟩, h5⟩ := h
    exact ⟨h1, h2, h3, h4, ⟨r1, r2⟩, quantity, by simp [staked_of, amount_at, hnone], rfl,
      fun _ => rfl, h5⟩
  · rename_i q hq
    simp only [bind_ok_iff, asset.add_ok_iff] at h
    obtain ⟨row, ⟨hsym, -, -, rfl⟩, total, ⟨h4, r1, r2, rfl⟩, h5⟩ := h
    refine ⟨h1, h2, h3, h4, ⟨r1, r2⟩, ⟨q.amount + quantity.amount, q.symbol⟩,
      by simp [staked_of, amount_at, hq], hsym.symm, ?_, h5⟩
    intro hnone
    rw [hnone] at hq
    cases hq

theorem restake_ok {c : Ctx} {account : name} {s s1 : State}
    (h : restake c account s = .ok s1) :
    c.self ∈ c.auth ∧ ∃ u, s.unstaking.lookup account = some u
      ∧ u.quantity.symbol = s.totalStake.symbol
      ∧ (-max_amount ≤ s.totalStake.amount + u.quantity.amount
          ∧ s.totalStake.amount + u.quantity.amount ≤ max_amount)
      ∧ ∃ row, row.amount = staked_of s account + u.quantity.amount
          ∧ (∀ q, s.staking.lookup account = some q → row.symbol = q.symbol)
          ∧ (s.staking.lookup account = none → row = u.quantity)
          ∧ s1 = { s with
              staking := s.staking.insert account row,
              totalStake := ⟨s.totalStake.amount + u.quantity.amount, s.totalStake.symbol⟩,
              unstaking := s.unstaking.erase account } := by
  unfold restake at h
  simp only [bind_ok_iff, require_auth_ok_iff, exists_const] at h
  obtain ⟨h1, h⟩ := h
  split at h
  · cases h
  · rename_i u hu
    split at h
    · rename_i hnone
      simp only [bind_ok_iff, asset.add_ok_iff, pure, Except.pure, Except.ok.injEq] at h
      obtain ⟨row, rfl, total, ⟨h4, r1, r2, rfl⟩, rfl⟩ := h
      refine ⟨h1, u, hu, h4, ⟨r1, r2⟩, u.quantity, by simp [staked_of, amount_at, hnone], ?_,
        fun _ => rfl, rfl⟩
      intro q hq
      rw [hnone] at hq
      cases hq
    · rename_i q hq
      simp only [bind_ok_iff, asset.add_ok_iff, pure, Except.pure, Except.ok.injEq] at h
      obtain ⟨row, ⟨-, -, -, rfl⟩, total, ⟨h4, r1, r2, rfl⟩, rfl⟩ := h
      refine ⟨h1, u, hu, h4, ⟨r1, r2⟩, ⟨q.amount + u.quantity.amount, q.symbol⟩,
        by simp [staked_of, amount_at, hq], ?_, ?_, rfl⟩
      · intro q1 hq1
        rw [hq] at hq1
        cases hq1
        rfl
      · intro hnone
        rw [hnone] at hq
        cases hq

theorem refunddef_ok {c : Ctx} {account : name} {s s1 : State}
    (h : refunddef c account s = .ok s1) :
    c.self ∈ c.auth ∧ ∃ u, s.unstaking.lookup account = some u
      ∧ transfer (c.inline felixstaking) felixstaking account u.quantity "unstake"
          { s with unstaking := s.unstaking.erase account } = .ok s1 := by
  unfold refunddef at h
  simp only [bind_ok_iff, require_auth_ok_iff, exists_const] at h
  obtain ⟨h1, h⟩ := h
  split at h
  · cases h
  · rename_i u hu
    exact ⟨h1, u, hu, h⟩

theorem refund_ok {c : Ctx} {account : name} {s s1 : State}
    (h : refund c account s = .ok s1) :
    account ∈ c.auth ∧ ∃ u, s.unstaking.lookup account = some u
      ∧ (sec_since_epoch u.req_time + refund_delay_sec) % 4294967296 ≤ sec_since_epoch c.now
      ∧ transfer (c.inline felixstaking) felixstaking account u.quantity "unstake"
          { s with unstaking := s.unstaking.erase account } = .ok s1 := by
  unfold refund _refund at h
  simp only [bind_ok_iff, require_auth_ok_iff, exists_const] at h
  obtain ⟨h1, h⟩ := h
  split at h
  · cases h
  · rename_i u hu
    simp only [bind_ok_iff, check_ok_iff, decide_eq_true_eq, exists_const] at h
    exact ⟨h1, u, hu, h.1, h.2⟩

theorem recalc_ok {c : Ctx} {s s1 : State} (h : recalc c s = .ok s1) :
    c.self ∈ c.auth
      ∧ s1 = { s with
          totalStake := ⟨Multiset.foldr recalc_step 0 s.staking.entries, felix_symbol⟩ } := by
  unfold recalc at h
  simp only [bind_ok_iff, require_auth_ok_iff, exists_const, pure, Except.pure,
    Except.ok.injEq] at h
  exact ⟨h.1, h.2.symm⟩


theorem asset.ge_ok_iff (a b : asset) (r : Bool) :
    a.ge b = .ok r ↔ a.symbol = b.symbol ∧ r = decide (b.amount ≤ a.amount) := by
  simp only [asset.ge, bind_ok_iff, check_ok_iff, pure, Except.pure, Except.ok.injEq,
    decide_eq_true_eq, exists_const]
  constructor
  · rintro ⟨h1, h2⟩; exact ⟨h1, h2.symm⟩
  · rintro ⟨h1, h2⟩; exact ⟨h1, h2.symm⟩

theorem asset.eq_ok_iff (a b : asset) (r : Bool) :
    a.eq b = .ok r ↔ a.symbol = b.symbol ∧ r = decide (a.amount = b.amount) := by
  simp only [asset.eq, bind_ok_iff, check_ok_iff, pure, Except.pure, Except.ok.injEq,
    decide_eq_true_eq, exists_const]
  constructor
  · rintro ⟨h1, h2⟩; exact ⟨h1, h2.symm⟩
  · rintro ⟨h1, h2⟩; exact ⟨h1, h2.symm⟩

theorem unstake_ok {c : Ctx} {account : name} {quantity : asset} {s s1 : State}
    (h : unstake c account quantity s = .ok s1) :
    account ∈ c.auth ∧ 0 < quantity.amount
      ∧ ∃ staked, s.staking.lookup account = some staked
        ∧ staked.symbol = quantity.symbol ∧ quantity.amount ≤ staked.amount
        ∧ quantity.symbol = s.totalStake.symbol
        ∧ (-max_amount ≤ s.totalStake.amount - quantity.amount
            ∧ s.totalStake.amount - quantity.amount ≤ max_amount)
        ∧ ∃ row, row.quantity.amount = pending_of s account + quantity.amount
          ∧ row.req_time = c.now
          ∧ (s.unstaking.lookup account = none → row.quantity = quantity)
          ∧ s1 = { s with
              staking := if staked.amount = quantity.amount then s.staking.erase account
                else s.staking.insert account
                  ⟨staked.amount - quantity.amount, staked.symbol⟩,
              unstaking := s.unstaking.insert account row,
              totalStake := ⟨s.totalStake.amount - quantity.amount, s.totalStake.symbol⟩,
              deferred := (s.deferred.erase account).insert account
                ⟨refund_delay_sec, account⟩ } := by
  unfold unstake at h
  simp only [bind_ok_iff, check_ok_iff, require_auth_ok_iff, decide_eq_true_eq,
    exists_const] at h
  obtain ⟨h1, h2, -, -, h⟩ := h
  split at h
  · cases h
  · rename_i staked hst
    simp only [bind_ok_iff, check_ok_iff, asset.ge_ok_iff, asset.eq_ok_iff, asset.sub_ok_iff,
      decide_eq_true_eq, exists_const, pure, Except.pure, Except.ok.injEq] at h
    obtain ⟨enough, ⟨hsym, rfl⟩, hle, all, ⟨-, rfl⟩, stk, hstk, row, hrow, total,
      ⟨h4, r1, r2, rfl⟩, rfl⟩ := h
    simp only [decide_eq_true_eq] at hle hstk
    refine ⟨h1, h2, staked, hst, hsym, hle, h4, ⟨r1, r2⟩, row, ?_, ?_, ?_, ?_⟩
    · split at hrow
      · rename_i hnone
        simp only [Except.ok.injEq] at hrow
        subst hrow
        simp [pending_of, hnone]
      · rename_i u hu
        simp only [bind_ok_iff, asset.add_ok_iff, Except.ok.injEq] at hrow
        obtain ⟨q, ⟨-, -, -, rfl⟩, rfl⟩ := hrow
        simp [pending_of, hu]
    · split at hrow
      · simp only [Except.ok.injEq] at hrow
        subst hrow
        rfl
      · simp only [bind_ok_iff, asset.add_ok_iff, Except.ok.injEq] at hrow
        obtain ⟨q, -, rfl⟩ := hrow
        rfl
    · intro hnone
      rw [hnone] at hrow
      simp only [Except.ok.injEq] at hrow
      subst hrow
      rfl
    · split at hstk
      · rename_i heq
        simp only [Except.ok.injEq] at hstk
        subst hstk
        rw [if_pos heq]
      · rename_i hneq
        simp only [bind_ok_iff, asset.sub_ok_iff, Except.ok.injEq] at hstk
        obtain ⟨q, ⟨-, -, -, rfl⟩, rfl⟩ := hstk
        rw [if_neg hneq]


/-- The state `banish` reaches before its queued transfer runs. -/
theorem banish_ok {c : Ctx} {account : name} {s s1 : State}
    (h : banish c account s = .ok s1) :
    c.self ∈ c.auth
      ∧ ∃ s2, s2 = { s with
            staking := s.staking.erase account,
            unstaking := s.unstaking.erase account,
            totalStake := ⟨s.totalStake.amount - staked_of s account + pending_of s account,
              s.totalStake.symbol⟩ }
          ∧ (∀ q, s.staking.lookup account = some q →
              transfer (c.inline felixstaking) felixstaking felixtokenio q "banish" s2 = .ok s1)
          ∧ (s.staking.lookup account = none → s1 = s2) := by
  unfold banish at h
  simp only [bind_ok_iff, require_auth_ok_iff, exists_const] at h
  obtain ⟨h1, sa, hsa, sb, hsb, h⟩ := h
  refine ⟨h1, sb, ?_, ?_, ?_⟩
  · cases hstk : s.staking.lookup account with
    | none =>
      rw [hstk] at hsa
      simp only [pure, Except.pure, Except.ok.injEq] at hsa
      subst hsa
      cases hun : s.unstaking.lookup account with
      | none =>
        rw [hun] at hsb
        simp only [pure, Except.pure, Except.ok.injEq] at hsb
        subst hsb
        simp [staked_of, pending_of, amount_at, hstk, hun, erase_of_lookup_none]
      | some u =>
        rw [hun] at hsb
        simp only [bind_ok_iff, asset.add_ok_iff, pure, Except.pure, Except.ok.injEq] at hsb
        obtain ⟨total, ⟨-, -, -, rfl⟩, rfl⟩ := hsb
        simp [staked_of, pending_of, amount_at, hstk, hun, erase_of_lookup_none]
    | some q =>
      rw [hstk] at hsa
      simp only [bind_ok_iff, asset.sub_ok_iff, pure, Except.pure, Except.ok.injEq] at hsa
      obtain ⟨total, ⟨-, -, -, rfl⟩, rfl⟩ := hsa
      cases hun : s.unstaking.lookup account with
      | none =>
        simp only [hun] at hsb
        simp only [pure, Except.pure, Except.ok.injEq] at hsb
        subst hsb
        simp [staked_of, pending_of, amount_at, hstk, hun, erase_of_lookup_none]
      | some u =>
        simp only [hun] at hsb
        simp only [bind_ok_iff, asset.add_ok_iff, pure, Except.pure, Except.ok.injEq] at hsb
        obtain ⟨total, ⟨-, -, -, rfl⟩, rfl⟩ := hsb
        simp [staked_of, pending_of, amount_at, hstk, hun]
  · intro q hq
    rw [hq] at h
    exact h
  · intro hnone
    rw [hnone] at h
    simp only [pure, Except.pure, Except.ok.injEq] at h
    exact h.symm


/-! ## The invariant is kept by every action -/

theorem Tbl.forall_insert {κ α : Type} [DecidableEq κ] {t : Tbl κ α} {P : α → Prop}
    (h : ∀ k v, t.lookup k = some v → P v) (a : κ) (row : α) (hr : P row) :
    ∀ k v, (t.insert a row).lookup k = some v → P v := by
  intro k v hk
  by_cases hka : k = a
  · subst hka
    rw [Finmap.lookup_insert] at hk
    cases hk
    exact hr
  · rw [Finmap.lookup_insert_of_ne _ hka] at hk
    exact h k v hk

theorem Tbl.forall_erase {κ α : Type} [DecidableEq κ] {t : Tbl κ α} {P : α → Prop}
    (h : ∀ k v, t.lookup k = some v → P v) (a : κ) :
    ∀ k v, (t.erase a).lookup k = some v → P v := by
  intro k v hk
  by_cases hka : k = a
  · subst hka
    rw [Finmap.lookup_erase] at hk
    cases hk
  · rw [Finmap.lookup_erase_ne hka] at hk
    exact h k v hk

theorem staked_of_nonneg {s : State} (hs : stakes_positive s) (a : name) :
    0 ≤ staked_of s a := by
  unfold staked_of amount_at
  split
  · rename_i q hq
    exact le_of_lt (hs.1 a q hq)
  · exact le_refl 0

theorem pending_of_nonneg {s : State} (hs : stakes_positive s) (a : name) :
    0 ≤ pending_of s a := by
  unfold pending_of
  split
  · rename_i u hu
    exact le_of_lt (hs.2 a u hu)
  · exact le_refl 0

theorem Inv.of_staking {s s1 : State} (hs : Inv s) (h1 : s1.stats = s.stats)
    (h2 : s1.accounts = s.accounts) (h3 : stakes_positive s1) : Inv s1 := by
  obtain ⟨hc, hn, -, hb⟩ := hs
  refine ⟨?_, ?_, h3, ?_⟩
  · intro code
    have := hc code
    simpa only [supply_of, balance_sum, h1, h2] using this
  · simpa only [balances_nonneg, h2] using hn
  · simpa only [supply_bounded, h1] using hb

theorem Inv.stake {c : Ctx} {account : name} {quantity : asset} {s s1 : State}
    (hs : Inv s) (h : felix.stake c account quantity s = .ok s1) : Inv s1 := by
  obtain ⟨-, hpos, -, -, -, row, hrow, -, -, htr⟩ := stake_ok h
  refine Inv.transfer ?_ htr
  refine hs.of_staking rfl rfl ⟨?_, hs.2.2.1.2⟩
  have := staked_of_nonneg hs.2.2.1 account
  exact Tbl.forall_insert (P := fun q : asset => 0 < q.amount) hs.2.2.1.1 account row (by omega)

theorem Inv.unstake {c : Ctx} {account : name} {quantity : asset} {s s1 : State}
    (hs : Inv s) (h : felix.unstake c account quantity s = .ok s1) : Inv s1 := by
  obtain ⟨-, hpos, staked, hst, -, hle, -, -, row, hrow, -, -, rfl⟩ := unstake_ok h
  have hp := pending_of_nonneg hs.2.2.1 account
  refine hs.of_staking rfl rfl ⟨?_, ?_⟩
  · show ∀ a q, (if staked.amount = quantity.amount then s.staking.erase account
        else s.staking.insert account ⟨staked.amount - quantity.amount, staked.symbol⟩).lookup a
        = some q → 0 < q.amount
    split
    · exact Tbl.forall_erase (P := fun q : asset => 0 < q.amount) hs.2.2.1.1 account
    · rename_i hne
      exact Tbl.forall_insert (P := fun q : asset => 0 < q.amount) hs.2.2.1.1 account _
        (by show 0 < staked.amount - quantity.amount; omega)
  · exact Tbl.forall_insert (P := fun u : unstaking => 0 < u.quantity.amount) hs.2.2.1.2 account row
      (by omega)

theorem Inv.restake {c : Ctx} {account : name} {s s1 : State}
    (hs : Inv s) (h : felix.restake c account s = .ok s1) : Inv s1 := by
  obtain ⟨-, u, hu, -, -, row, hrow, -, -, rfl⟩ := restake_ok h
  have hp := staked_of_nonneg hs.2.2.1 account
  have hu' := hs.2.2.1.2 account u hu
  refine hs.of_staking rfl rfl ⟨?_, ?_⟩
  · exact Tbl.forall_insert (P := fun q : asset => 0 < q.amount) hs.2.2.1.1 account row (by omega)
  · exact Tbl.forall_erase (P := fun u : unstaking => 0 < u.quantity.amount) hs.2.2.1.2 account

theorem Inv.refunddef {c : Ctx} {account : name} {s s1 : State}
    (hs : Inv s) (h : felix.refunddef c account s = .ok s1) : Inv s1 := by
  obtain ⟨-, u, -, htr⟩ := refunddef_ok h
  refine Inv.transfer ?_ htr
  refine hs.of_staking rfl rfl ⟨hs.2.2.1.1, ?_⟩
  exact Tbl.forall_erase (P := fun u : unstaking => 0 < u.quantity.amount) hs.2.2.1.2 account

theorem Inv.refund {c : Ctx} {account : name} {s s1 : State}
    (hs : Inv s) (h : felix.refund c account s = .ok s1) : Inv s1 := by
  obtain ⟨-, u, -, -, htr⟩ := refund_ok h
  refine Inv.transfer ?_ htr
  refine hs.of_staking rfl rfl ⟨hs.2.2.1.1, ?_⟩
  exact Tbl.forall_erase (P := fun u : unstaking => 0 < u.quantity.amount) hs.2.2.1.2 account

theorem Inv.banish {c : Ctx} {account : name} {s s1 : State}
    (hs : Inv s) (h : felix.banish c account s = .ok s1) : Inv s1 := by
  obtain ⟨-, s2, rfl, htr, hnone⟩ := banish_ok h
  have h2 : Inv { s with
      staking := s.staking.erase account,
      unstaking := s.unstaking.erase account,
      totalStake := ⟨s.totalStake.amount - staked_of s account + pending_of s account,
        s.totalStake.symbol⟩ } :=
    hs.of_staking rfl rfl
      ⟨Tbl.forall_erase (P := fun q : asset => 0 < q.amount) hs.2.2.1.1 account,
       Tbl.forall_erase (P := fun u : unstaking => 0 < u.quantity.amount) hs.2.2.1.2 account⟩
  cases hstk : s.staking.lookup account with
  | none => rw [hnone hstk]; exact h2
  | some q => exact Inv.transfer h2 (htr q hstk)

theorem Inv.recalc {c : Ctx} {s s1 : State}
    (hs : Inv s) (h : felix.recalc c s = .ok s1) : Inv s1 := by
  obtain ⟨-, rfl⟩ := recalc_ok h
  exact hs.of_staking rfl rfl hs.2.2.1

theorem Inv.empty : Inv State.empty := by
  refine ⟨?_, ?_, ⟨?_, ?_⟩, ?_⟩
  · intro code
    simp [supply_of, balance_sum, accounts_sum, State.empty, Finmap.lookup_empty, Tbl.sum_empty]
  · intro k bal hk
    simp [State.empty, Finmap.lookup_empty] at hk
  · intro a q hq
    simp [State.empty, Finmap.lookup_empty] at hq
  · intro a u hu
    simp [State.empty, Finmap.lookup_empty] at hu
  · intro code st hst
    simp [State.empty, Finmap.lookup_empty] at hst

theorem Inv.apply {c : Ctx} {call : Call} {s s1 : State}
    (hs : Inv s) (h : call.apply c s = .ok s1) : Inv s1 := by
  cases call with
  | create issuer maximum_supply => exact hs.create h
  | issue to_ quantity memo => exact hs.issue h
  | retire quantity memo => exact hs.retire h
  | transfer from_ to_ quantity memo => exact hs.transfer h
  | open_ owner sym ram_payer => exact hs.open_ h
  | close owner sym => exact hs.close h
  | stake account quantity => exact hs.stake h
  | unstake account quantity => exact hs.unstake h
  | restake account => exact hs.restake h
  | refunddef account => exact hs.refunddef h
  | refund account => exact hs.refund h
  | banish account => exact hs.banish h
  | recalc => exact hs.recalc h

theorem Inv.exec {c : Ctx} {call : Call} {s : State} (hs : Inv s) : Inv (exec c call s) := by
  unfold felix.exec
  split
  · rename_i s1 h
    exact hs.apply h
  · exact hs

theorem Inv.run (calls : List (Ctx × Call)) : ∀ {s : State}, Inv s → Inv (run calls s) := by
  induction calls with
  | nil => intro s hs; exact hs
  | cons x xs ih =>
    intro s hs
    exact ih (hs.exec)


/-! ## The aggregate and the staking rows -/

theorem recalc_sum (t : Tbl name asset) :
    Multiset.foldr recalc_step 0 t.entries = wrap64 (Tbl.sum t (fun _ q => q.amount)) := by
  induction t using Finmap.induction_on with
  | _ a =>
    simp only [Tbl.sum, AList.toFinmap_entries, Multiset.map_coe, Multiset.sum_coe,
      Multiset.coe_foldr]
    induction a.entries with
    | nil => rfl
    | cons e l ih =>
      simp only [List.foldr_cons, List.map_cons, List.sum_cons, recalc_step, ih, wrap64]
      omega

theorem max_amount_int64 {x : Int} (h1 : -max_amount ≤ x) (h2 : x ≤ max_amount) :
    is_int64 x := by
  unfold max_amount at h1 h2
  unfold is_int64
  omega

theorem aggregate_stake {c : Ctx} {account : name} {quantity : asset} {s s1 : State}
    (hs : aggregate_exact s) (h : stake c account quantity s = .ok s1) :
    aggregate_exact s1 ∧ is_int64 (staked_sum s1) := by
  obtain ⟨-, -, hsym, hts, hr, row, hrow, -, -, htr⟩ := stake_ok h
  obtain ⟨-, h2, -, h4, -⟩ := transfer_effect htr
  have hsum : staked_sum s1 = staked_sum s + quantity.amount := by
    simp only [staked_sum, h2, staked_sum_insert, hrow, staked_of]
    ring
  have hagg : s.totalStake.amount = staked_sum s := by rw [hs]
  refine ⟨?_, ?_⟩
  · unfold aggregate_exact
    rw [h4, hsum, ← hagg, ← hts, hsym]
  · rw [hsum, ← hagg]
    exact max_amount_int64 hr.1 hr.2

theorem aggregate_unstake {c : Ctx} {account : name} {quantity : asset} {s s1 : State}
    (hs : aggregate_exact s) (h : unstake c account quantity s = .ok s1) :
    aggregate_exact s1 ∧ is_int64 (staked_sum s1) := by
  obtain ⟨-, -, staked, hst, -, -, hts, hr, row, -, -, -, rfl⟩ := unstake_ok h
  have hat : amount_at s.staking account = staked.amount := by simp [amount_at, hst]
  have hsum : staked_sum { s with
      staking := if staked.amount = quantity.amount then s.staking.erase account
        else s.staking.insert account ⟨staked.amount - quantity.amount, staked.symbol⟩,
      unstaking := s.unstaking.insert account row,
      totalStake := ⟨s.totalStake.amount - quantity.amount, s.totalStake.symbol⟩,
      deferred := (s.deferred.erase account).insert account ⟨refund_delay_sec, account⟩ }
      = staked_sum s - quantity.amount := by
    simp only [staked_sum]
    split
    · rename_i heq
      rw [staked_sum_erase, hat, heq]
    · rw [staked_sum_insert, hat]
      ring
  have hagg : s.totalStake.amount = staked_sum s := by rw [hs]
  have hsy : s.totalStake.symbol = felix_symbol := by rw [hs]
  refine ⟨?_, ?_⟩
  · unfold aggregate_exact
    rw [hsum, ← hagg, hsy]
  · rw [hsum, ← hagg]
    exact max_amount_int64 hr.1 hr.2

theorem aggregate_restake {c : Ctx} {account : name} {s s1 : State}
    (hs : aggregate_exact s) (h : restake c account s = .ok s1) :
    aggregate_exact s1 ∧ is_int64 (staked_sum s1) := by
  obtain ⟨-, u, -, -, hr, row, hrow, -, -, rfl⟩ := restake_ok h
  have hsum : staked_sum { s with
      staking := s.staking.insert account row,
      totalStake := ⟨s.totalStake.amount + u.quantity.amount, s.totalStake.symbol⟩,
      unstaking := s.unstaking.erase account }
      = staked_sum s + u.quantity.amount := by
    simp only [staked_sum, staked_sum_insert, hrow, staked_of]
    ring
  have hagg : s.totalStake.amount = staked_sum s := by rw [hs]
  have hsy : s.totalStake.symbol = felix_symbol := by rw [hs]
  refine ⟨?_, ?_⟩
  · unfold aggregate_exact
    rw [hsum, ← hagg, hsy]
  · rw [hsum, ← hagg]
    exact max_amount_int64 hr.1 hr.2

theorem aggregate_exec {c : Ctx} {call : Call} {s : State} (hcall : call.is_staking = true)
    (hs : aggregate_exact s ∧ is_int64 (staked_sum s)) :
    aggregate_exact (exec c call s) ∧ is_int64 (staked_sum (exec c call s)) := by
  unfold exec
  split
  · rename_i s1 h
    cases call with
    | stake account quantity => exact aggregate_stake hs.1 h
    | unstake account quantity => exact aggregate_unstake hs.1 h
    | restake account => exact aggregate_restake hs.1 h
    | _ => simp [Call.is_staking] at hcall
  · exact hs

theorem aggregate_run (calls : List (Ctx × Call)) :
    ∀ {s : State}, (∀ x ∈ calls, x.2.is_staking = true) →
      aggregate_exact s ∧ is_int64 (staked_sum s) →
      aggregate_exact (run calls s) ∧ is_int64 (staked_sum (run calls s)) := by
  induction calls with
  | nil => intro s _ hs; exact hs
  | cons x xs ih =>
    intro s hx hs
    exact ih (fun y hy => hx y (List.mem_cons_of_mem _ hy))
      (aggregate_exec (hx x (List.mem_cons_self _ _)) hs)

theorem recalc_fixed {c : Ctx} {s : State} (hauth : c.self ∈ c.auth)
    (hs : aggregate_exact s) (hr : is_int64 (staked_sum s)) : recalc c s = .ok s := by
  unfold recalc
  simp only [Ctx.require_auth, Ctx.has_auth, hauth, decide_True, check_true, bind, Except.bind,
    pure, Except.pure, Except.ok.injEq]
  rw [recalc_sum]
  have : wrap64 (staked_sum s) = staked_sum s := wrap64_of_range _ hr.1 hr.2
  unfold aggregate_exact at hs
  unfold staked_sum at this hs
  rw [this, ← hs]

/-! ## When the actions succeed -/

theorem Tbl.lookup_mem {κ α : Type} [DecidableEq κ] {t : Tbl κ α} {k : κ} {v : α}
    (h : t.lookup k = some v) : (⟨k, v⟩ : Sigma (fun _ : κ => α)) ∈ t.entries :=
  Finmap.mem_lookup_iff.1 (by simp [h])

theorem flx_ledger_ok.row {s : State} (h : flx_ledger_ok s) {o : name} {b : asset}
    (hb : s.accounts.lookup (o, felix_symbol.code) = some b) :
    b.symbol = felix_symbol ∧ 0 ≤ b.amount ∧ b.amount ≤ max_amount :=
  h.2 ⟨(o, felix_symbol.code), b⟩ (Tbl.lookup_mem hb) rfl

theorem flx_ledger_ok.registered {s : State} (h : flx_ledger_ok s) :
    ∃ st, s.stats.lookup felix_symbol.code = some st ∧ st.supply.symbol = felix_symbol := by
  have h1 := h.1
  cases hst : s.stats.lookup felix_symbol.code with
  | none => rw [hst] at h1; cases h1
  | some st =>
    rw [hst] at h1
    simp only [Option.map_some', Option.some.injEq] at h1
    exact ⟨st, rfl, h1⟩

theorem free_balance_nonneg {s : State} (h : flx_ledger_ok s) (o : name) :
    0 ≤ free_balance s o ∧ free_balance s o ≤ max_amount := by
  unfold free_balance balance_of amount_at
  split
  · rename_i b hb
    exact (h.row hb).2
  · unfold max_amount
    omega

theorem felix_symbol_valid : felix_symbol.is_valid = true := by decide

theorem sub_balance_iff (owner : name) (value : asset) (s s1 : State) :
    sub_balance owner value s = .ok s1 ↔
      ∃ bal, s.accounts.lookup (owner, value.symbol.code) = some bal
        ∧ value.amount ≤ bal.amount ∧ value.symbol = bal.symbol
        ∧ -max_amount ≤ bal.amount - value.amount ∧ bal.amount - value.amount ≤ max_amount
        ∧ s1 = { s with
            accounts := s.accounts.insert (owner, value.symbol.code)
              ⟨bal.amount - value.amount, bal.symbol⟩ } := by
  unfold sub_balance
  cases hb : s.accounts.lookup (owner, value.symbol.code) with
  | none =>
    constructor
    · intro h; cases h
    · rintro ⟨b, hb1, -⟩; cases hb1
  | some bal =>
    constructor
    · intro h
      simp only [bind_ok_iff, check_ok_iff, asset.sub_ok_iff, pure, Except.pure,
        Except.ok.injEq, decide_eq_true_eq, exists_const] at h
      obtain ⟨h1, b, ⟨h2, h3, h4, rfl⟩, rfl⟩ := h
      exact ⟨bal, rfl, h1, h2, h3, h4, rfl⟩
    · rintro ⟨b, hb1, h1, h2, h3, h4, rfl⟩
      cases hb1
      simp only [bind_ok_iff, check_ok_iff, asset.sub_ok_iff, pure, Except.pure,
        Except.ok.injEq, decide_eq_true_eq, exists_const]
      exact ⟨h1, _, ⟨h2, h3, h4, rfl⟩, rfl⟩

theorem add_balance_iff (owner : name) (value : asset) (p : name) (s s1 : State) :
    add_balance owner value p s = .ok s1 ↔
      (s.accounts.lookup (owner, value.symbol.code) = none
        ∧ s1 = { s with accounts := s.accounts.insert (owner, value.symbol.code) value })
      ∨ ∃ bal, s.accounts.lookup (owner, value.symbol.code) = some bal
        ∧ value.symbol = bal.symbol
        ∧ -max_amount ≤ bal.amount + value.amount ∧ bal.amount + value.amount ≤ max_amount
        ∧ s1 = { s with
            accounts := s.accounts.insert (owner, value.symbol.code)
              ⟨bal.amount + value.amount, bal.symbol⟩ } := by
  unfold add_balance
  cases hb : s.accounts.lookup (owner, value.symbol.code) with
  | none =>
    constructor
    · intro h
      simp only [pure, Except.pure, Except.ok.injEq] at h
      exact Or.inl ⟨rfl, h.symm⟩
    · rintro (⟨-, rfl⟩ | ⟨b, hb1, -⟩)
      · rfl
      · cases hb1
  | some bal =>
    constructor
    · intro h
      simp only [bind_ok_iff, asset.add_ok_iff, pure, Except.pure, Except.ok.injEq] at h
      obtain ⟨b, ⟨h2, h3, h4, rfl⟩, rfl⟩ := h
      exact Or.inr ⟨bal, rfl, h2, h3, h4, rfl⟩
    · rintro (⟨hb1, -⟩ | ⟨b, hb1, h2, h3, h4, rfl⟩)
      · cases hb1
      · cases hb1
        simp only [bind_ok_iff, asset.add_ok_iff, pure, Except.pure, Except.ok.injEq]
        exact ⟨_, ⟨h2, h3, h4, rfl⟩, rfl⟩

theorem transfer_iff (c : Ctx) (from_ to_ : name) (quantity : asset) (memo : String)
    (s s1 : State) :
    transfer c from_ to_ quantity memo s = .ok s1 ↔
      from_ ≠ to_ ∧ from_ ∈ c.auth ∧ c.is_account to_ = true
        ∧ ∃ st, s.stats.lookup quantity.symbol.code = some st
          ∧ quantity.is_valid = true ∧ 0 < quantity.amount
          ∧ quantity.symbol = st.supply.symbol ∧ memo.utf8ByteSize ≤ 256
          ∧ ∃ s0, sub_balance from_ quantity s = .ok s0
            ∧ add_balance to_ quantity (if c.has_auth to_ then to_ else from_) s0 = .ok s1 := by
  unfold transfer
  cases hst : s.stats.lookup quantity.symbol.code with
  | none =>
    constructor
    · intro h
      simp only [bind_ok_iff, check_ok_iff, require_auth_ok_iff, exists_const] at h
      obtain ⟨-, -, -, h⟩ := h
      cases h
    · rintro ⟨-, -, -, st, h, -⟩
      cases h
  | some st =>
    constructor
    · intro h
      simp only [bind_ok_iff, check_ok_iff, require_auth_ok_iff, decide_eq_true_eq,
        exists_const] at h
      obtain ⟨h1, h2, h3, h4, h5, h6, h7, h8⟩ := h
      exact ⟨h1, h2, h3, st, rfl, h4, h5, h6, h7, h8⟩
    · rintro ⟨h1, h2, h3, st1, hst1, h4, h5, h6, h7, h8⟩
      cases hst1
      simp only [bind_ok_iff, check_ok_iff, require_auth_ok_iff, decide_eq_true_eq,
        exists_const]
      exact ⟨h1, h2, h3, h4, h5, h6, h7, h8⟩

/-- An FLX transfer succeeds when the sender holds the amount and the
receiver's balance stays within `asset::max_amount`. -/
theorem transfer_flx_ok (c : Ctx) (from_ to_ : name) (quantity : asset) (memo : String)
    (s : State) (hl : flx_ledger_ok s) (hne : from_ ≠ to_) (hauth : from_ ∈ c.auth)
    (hacc : c.is_account to_ = true) (hsym : quantity.symbol = felix_symbol)
    (hpos : 0 < quantity.amount) (hle : quantity.amount ≤ free_balance s from_)
    (hroom : free_balance s to_ + quantity.amount ≤ max_amount)
    (hmemo : memo.utf8ByteSize ≤ 256) :
    ∃ s1, transfer c from_ to_ quantity memo s = .ok s1 := by
  obtain ⟨amt, sym⟩ := quantity
  simp only at hsym hpos hle hroom
  subst hsym
  obtain ⟨st, hst, hstsym⟩ := hl.registered
  obtain ⟨bf, hbf⟩ : ∃ bf, s.accounts.lookup (from_, felix_symbol.code) = some bf := by
    cases hb : s.accounts.lookup (from_, felix_symbol.code) with
    | none =>
      simp only [free_balance, balance_of, amount_at, hb] at hle
      omega
    | some bf => exact ⟨bf, rfl⟩
  have hbf' := hl.row hbf
  have hle' : amt ≤ bf.amount := by
    simpa only [free_balance, balance_of, amount_at, hbf] using hle
  have hvalid : (asset.mk amt felix_symbol).is_valid = true := by
    simp only [asset.is_valid, asset.is_amount_within_range, Bool.and_eq_true,
      decide_eq_true_eq, felix_symbol_valid, and_true]
    have := hbf'.2.2
    unfold max_amount at this ⊢
    omega
  have hk : (to_, felix_symbol.code) ≠ (from_, felix_symbol.code) :=
    fun e => hne (congrArg Prod.fst e).symm
  have hsub : sub_balance from_ ⟨amt, felix_symbol⟩ s = .ok { s with
      accounts := s.accounts.insert (from_, felix_symbol.code)
        ⟨bf.amount - amt, bf.symbol⟩ } :=
    (sub_balance_iff _ _ _ _).2 ⟨bf, hbf, hle', hbf'.1.symm,
      by show -max_amount ≤ bf.amount - amt; unfold max_amount; omega,
      by show bf.amount - amt ≤ max_amount; have := hbf'.2.2; omega, rfl⟩
  have hadd : ∃ s1, add_balance to_ ⟨amt, felix_symbol⟩ (if c.has_auth to_ then to_ else from_)
      { s with
        accounts := s.accounts.insert (from_, felix_symbol.code)
          ⟨bf.amount - amt, bf.symbol⟩ } = .ok s1 := by
    cases hb : s.accounts.lookup (to_, felix_symbol.code) with
    | none =>
      exact ⟨_, (add_balance_iff _ _ _ _ _).2
        (Or.inl ⟨by rw [← hb]; exact Finmap.lookup_insert_of_ne _ hk, rfl⟩)⟩
    | some bt =>
      have hbt := hl.row hb
      have hr : bt.amount + amt ≤ max_amount := by
        simpa only [free_balance, balance_of, amount_at, hb] using hroom
      exact ⟨_, (add_balance_iff _ _ _ _ _).2
        (Or.inr ⟨bt, by rw [← hb]; exact Finmap.lookup_insert_of_ne _ hk, hbt.1.symm,
          by show -max_amount ≤ bt.amount + amt; have := hbt.2.1; unfold max_amount; omega,
          hr, rfl⟩)⟩
  obtain ⟨s1, hs1⟩ := hadd
  exact ⟨s1, (transfer_iff _ _ _ _ _ _ _).2
    ⟨hne, hauth, hacc, st, hst, hvalid, hpos, hstsym.symm, hmemo, _, hsub, hs1⟩⟩

theorem flx_staking_ok.staked {s : State} (h : flx_staking_ok s) {a : name} {q : asset}
    (hq : s.staking.lookup a = some q) : q.symbol = felix_symbol ∧ 0 < q.amount :=
  h.1 ⟨a, q⟩ (Tbl.lookup_mem hq)

theorem flx_staking_ok.pending {s : State} (h : flx_staking_ok s) {a : name} {u : unstaking}
    (hu : s.unstaking.lookup a = some u) :
    u.quantity.symbol = felix_symbol ∧ 0 < u.quantity.amount :=
  h.2.1 ⟨a, u⟩ (Tbl.lookup_mem hu)

theorem stake_iff (c : Ctx) (account : name) (quantity : asset) (s s1 : State) :
    stake c account quantity s = .ok s1 ↔
      account ∈ c.auth ∧ 0 < quantity.amount ∧ quantity.symbol = felix_symbol
        ∧ ∃ row, (match s.staking.lookup account with
              | none => (pure quantity : Except String asset)
              | some q => q.add quantity) = .ok row
          ∧ ∃ total, s.totalStake.add quantity = .ok total
            ∧ transfer (c.inline account) account felixstaking quantity "stake"
                { s with staking := s.staking.insert account row, totalStake := total }
                = .ok s1 := by
  unfold stake
  simp only [bind_ok_iff, check_ok_iff, require_auth_ok_iff, decide_eq_true_eq, exists_const,
    gt_iff_lt]

/-- A stake succeeds when the account holds the amount and neither its
staking row, nor the aggregate, nor the escrow balance leaves the range of an
asset. -/
theorem stake_flx_ok {c : Ctx} {account : name} {quantity : asset} {s : State}
    (hl : flx_ledger_ok s) (hs : flx_staking_ok s) (hauth : account ∈ c.auth)
    (hacc : c.is_account felixstaking = true) (hne : account ≠ felixstaking)
    (hpos : 0 < quantity.amount) (hsym : quantity.symbol = felix_symbol)
    (hle : quantity.amount ≤ free_balance s account)
    (ov1 : staked_of s account + quantity.amount ≤ max_amount)
    (ov2 : s.totalStake.amount + quantity.amount ≤ max_amount)
    (ov3 : free_balance s felixstaking + quantity.amount ≤ max_amount) :
    ∃ s1, stake c account quantity s = .ok s1 := by
  have hrow : ∃ row, (match s.staking.lookup account with
      | none => (pure quantity : Except String asset)
      | some q => q.add quantity) = Except.ok row := by
    cases hq : s.staking.lookup account with
    | none => exact ⟨quantity, rfl⟩
    | some q =>
      have hq' := hs.staked hq
      simp only [staked_of, amount_at, hq] at ov1
      exact ⟨_, (asset.add_ok_iff _ _ _).2
        ⟨by rw [hsym, hq'.1], by unfold max_amount; omega, ov1, rfl⟩⟩
  obtain ⟨row, hrow⟩ := hrow
  have htot : s.totalStake.add quantity
      = .ok ⟨s.totalStake.amount + quantity.amount, s.totalStake.symbol⟩ :=
    (asset.add_ok_iff _ _ _).2
      ⟨by rw [hsym, hs.2.2.1], by have := hs.2.2.2.1; omega, ov2, rfl⟩
  obtain ⟨s1, hs1⟩ := transfer_flx_ok (c.inline account) account felixstaking quantity "stake"
    { s with
      staking := s.staking.insert account row,
      totalStake := ⟨s.totalStake.amount + quantity.amount, s.totalStake.symbol⟩ }
    hl hne (by simp [Ctx.inline]) hacc hsym hpos hle ov3 (by decide)
  exact ⟨s1, (stake_iff _ _ _ _ _).2 ⟨hauth, hpos, hsym, row, hrow, _, htot, hs1⟩⟩

theorem restake_iff (c : Ctx) (account : name) (s s1 : State) :
    restake c account s = .ok s1 ↔
      c.self ∈ c.auth ∧ ∃ u, s.unstaking.lookup account = some u
        ∧ ∃ row, (match s.staking.lookup account with
              | none => (pure u.quantity : Except String asset)
              | some q => q.add u.quantity) = .ok row
          ∧ ∃ total, s.totalStake.add u.quantity = .ok total
            ∧ s1 = { s with
                staking := s.staking.insert account row,
                totalStake := total,
                unstaking := s.unstaking.erase account } := by
  unfold restake
  cases hu : s.unstaking.lookup account with
  | none =>
    constructor
    · intro h
      simp only [bind_ok_iff, require_auth_ok_iff, exists_const] at h
      cases h.2
    · rintro ⟨-, u, h, -⟩
      cases h
  | some u =>
    constructor
    · intro h
      simp only [bind_ok_iff, require_auth_ok_iff, exists_const, pure, Except.pure,
        Except.ok.injEq] at h
      obtain ⟨h1, row, hrow, total, htot, rfl⟩ := h
      exact ⟨h1, u, rfl, row, hrow, total, htot, rfl⟩
    · rintro ⟨h1, u1, hu1, row, hrow, total, htot, rfl⟩
      cases hu1
      simp only [bind_ok_iff, require_auth_ok_iff, exists_const, pure, Except.pure,
        Except.ok.injEq]
      exact ⟨h1, row, hrow, total, htot, rfl⟩

theorem unstake_iff (c : Ctx) (account : name) (quantity : asset) (s s1 : State) :
    unstake c account quantity s = .ok s1 ↔
      account ∈ c.auth ∧ 0 < quantity.amount
        ∧ (∃ x, (match s.unstaking.lookup account with
              | none => (pure (asset.mk 0 felix_symbol) : Except String asset)
              | some u => (asset.mk 0 felix_symbol).add u.quantity) = .ok x)
        ∧ ∃ staked, s.staking.lookup account = some staked
          ∧ staked.symbol = quantity.symbol ∧ quantity.amount ≤ staked.amount
          ∧ ∃ stk, (if staked.amount = quantity.amount
                then (pure (s.staking.erase account) : Except String (Tbl name asset))
                else staked.sub quantity >>= fun q => pure (s.staking.insert account q))
              = .ok stk
            ∧ ∃ row, (match s.unstaking.lookup account with
                  | none => (pure (unstaking.mk quantity c.now) : Except String unstaking)
                  | some u => u.quantity.add quantity >>= fun q => pure (unstaking.mk q c.now))
                = .ok row
              ∧ ∃ total, s.totalStake.sub quantity = .ok total
                ∧ s1 = { s with
                    staking := stk,
                    unstaking := s.unstaking.insert account row,
                    totalStake := total,
                    deferred := (s.deferred.erase account).insert account
                      ⟨refund_delay_sec, account⟩ } := by
  unfold unstake
  cases hst : s.staking.lookup account with
  | none =>
    constructor
    · intro h
      simp only [bind_ok_iff, check_ok_iff, require_auth_ok_iff, exists_const] at h
      obtain ⟨-, -, -, -, h⟩ := h
      cases h
    · rintro ⟨-, -, -, st, h, -⟩
      cases h
  | some staked =>
    constructor
    · intro h
      simp only [bind_ok_iff, check_ok_iff, require_auth_ok_iff, asset.ge_ok_iff,
        asset.eq_ok_iff, decide_eq_true_eq, exists_const, pure, Except.pure,
        Except.ok.injEq] at h
      obtain ⟨h1, h2, x, hx, enough, ⟨hsym, rfl⟩, hle, all, ⟨-, rfl⟩, stk, hstk, row, hrow,
        total, htot, rfl⟩ := h
      simp only [decide_eq_true_eq] at hle hstk
      exact ⟨h1, h2, ⟨x, hx⟩, staked, rfl, hsym, hle, stk, hstk, row, hrow, total, htot, rfl⟩
    · rintro ⟨h1, h2, ⟨x, hx⟩, st1, hst1, hsym, hle, stk, hstk, row, hrow, total, htot, rfl⟩
      cases hst1
      simp only [bind_ok_iff, check_ok_iff, require_auth_ok_iff, asset.ge_ok_iff,
        asset.eq_ok_iff, decide_eq_true_eq, exists_const, pure, Except.pure,
        Except.ok.injEq]
      refine ⟨h1, h2, x, hx, _, ⟨hsym, rfl⟩, by simpa using hle, _, ⟨hsym, rfl⟩, stk, ?_,
        row, hrow, total, htot, rfl⟩
      simpa only [decide_eq_true_eq] using hstk

/-! ## Effects of a stake -/

theorem stake_effect {c : Ctx} {account : name} {quantity : asset} {s s1 : State}
    (h : stake c account quantity s = .ok s1) :
    account ≠ felixstaking ∧ 0 < quantity.amount ∧ quantity.symbol = felix_symbol
      ∧ quantity.amount ≤ free_balance s account
      ∧ (∃ row, s1.staking = s.staking.insert account row
          ∧ row.amount = staked_of s account + quantity.amount
          ∧ row.symbol = felix_symbol
          ∧ (s.staking.lookup account = none → row = quantity))
      ∧ s1.totalStake = ⟨s.totalStake.amount + quantity.amount, felix_symbol⟩
      ∧ (∀ o, free_balance s1 o = free_balance s o
          + (if o = felixstaking then quantity.amount else 0)
          - (if o = account then quantity.amount else 0))
      ∧ s1.stats = s.stats ∧ s1.unstaking = s.unstaking ∧ s1.deferred = s.deferred := by
  obtain ⟨-, hpos, hsym, hts, -, row, hrow, hrs, hnone, htr⟩ := stake_ok h
  obtain ⟨hne, -, -, -, -, -, bf, -, hbf, hle, -⟩ := transfer_ok htr
  obtain ⟨h1, h2, h3, h4, h5, -, -, hbal⟩ := transfer_effect htr
  have hcode : quantity.symbol.code = felix_symbol.code := by rw [hsym]
  refine ⟨hne, hpos, hsym, ?_, ⟨row, h2, hrow, by rw [hrs, hsym], hnone⟩, ?_, ?_, h1, h3, h5⟩
  · rw [hcode] at hbf
    simp only [free_balance, balance_of, amount_at]
    rw [show s.accounts.lookup (account, felix_symbol.code) = some bf from hbf]
    exact hle
  · rw [h4, ← hts, hsym]
  · intro o
    have := hbal o felix_symbol.code
    simp only [hcode, and_true] at this
    exact this

theorem staked_of_insert (s : State) (t : Tbl name asset) (a : name) (row : asset)
    (h : s.staking = t.insert a row) : staked_of s a = row.amount := by
  simp [staked_of, h, amount_at_insert]

/-! ## Settlement -/

theorem refunddef_missing {c : Ctx} {A : name} {s : State} (hauth : c.self ∈ c.auth)
    (hnone : s.unstaking.lookup A = none) :
    refunddef c A s = .error "Unstaking request not found" := by
  unfold refunddef
  simp only [Ctx.require_auth, Ctx.has_auth, hauth, decide_True, check_true, hnone, bind,
    Except.bind]

theorem refund_missing {c : Ctx} {A : name} {s : State} (hauth : A ∈ c.auth)
    (hnone : s.unstaking.lookup A = none) :
    refund c A s = .error "Unstaking request not found" := by
  unfold refund _refund
  simp only [Ctx.require_auth, Ctx.has_auth, hauth, decide_True, check_true, hnone, bind,
    Except.bind]

theorem exec_refunddef_missing (c : Ctx) {A : name} {s : State}
    (hnone : s.unstaking.lookup A = none) : exec c (.refunddef A) s = s := by
  unfold exec
  simp only [Call.apply]
  split
  · rename_i s1 h
    obtain ⟨-, u, hu, -⟩ := refunddef_ok h
    rw [hnone] at hu
    cases hu
  · rfl

theorem exec_refund_missing (c : Ctx) {A : name} {s : State}
    (hnone : s.unstaking.lookup A = none) : exec c (.refund A) s = s := by
  unfold exec
  simp only [Call.apply]
  split
  · rename_i s1 h
    obtain ⟨-, u, hu, -⟩ := refund_ok h
    rw [hnone] at hu
    cases hu
  · rfl

/-- What the transfer queued by `_refund` and `refunddef` does to the state in
which the unstaking row is already erased. -/
theorem settle_effect {c : Ctx} {A : name} {u : unstaking} {s s1 : State}
    (h : transfer (c.inline felixstaking) felixstaking A u.quantity "unstake"
      { s with unstaking := s.unstaking.erase A } = .ok s1) :
    A ≠ felixstaking ∧ s1.unstaking = s.unstaking.erase A ∧ s1.staking = s.staking
      ∧ s1.totalStake = s.totalStake ∧ s1.stats = s.stats ∧ s1.deferred = s.deferred
      ∧ ∀ o code, balance_of s1 o code = balance_of s o code
          + (if o = A ∧ code = u.quantity.symbol.code then u.quantity.amount else 0)
          - (if o = felixstaking ∧ code = u.quantity.symbol.code
              then u.quantity.amount else 0) := by
  obtain ⟨hne, -⟩ := transfer_ok h
  obtain ⟨h1, h2, h3, h4, h5, -, -, hbal⟩ := transfer_effect h
  exact ⟨Ne.symm hne, h3, h2, h4, h1, h5, hbal⟩

theorem refund_iff (c : Ctx) (A : name) (s s1 : State) :
    refund c A s = .ok s1 ↔
      A ∈ c.auth ∧ ∃ u, s.unstaking.lookup A = some u
        ∧ (sec_since_epoch u.req_time + refund_delay_sec) % 4294967296
            ≤ sec_since_epoch c.now
        ∧ transfer (c.inline felixstaking) felixstaking A u.quantity "unstake"
            { s with unstaking := s.unstaking.erase A } = .ok s1 := by
  unfold refund _refund
  cases hu : s.unstaking.lookup A with
  | none =>
    constructor
    · intro h
      simp only [bind_ok_iff, require_auth_ok_iff, exists_const] at h
      cases h.2
    · rintro ⟨-, u, h, -⟩
      cases h
  | some u =>
    constructor
    · intro h
      simp only [bind_ok_iff, check_ok_iff, require_auth_ok_iff, decide_eq_true_eq,
        exists_const] at h
      exact ⟨h.1, u, rfl, h.2.1, h.2.2⟩
    · rintro ⟨h1, u1, hu1, h2, h3⟩
      cases hu1
      simp only [bind_ok_iff, check_ok_iff, require_auth_ok_iff, decide_eq_true_eq,
        exists_const]
      exact ⟨h1, h2, h3⟩

theorem refund_not_matured {c : Ctx} {A : name} {s : State} {u : unstaking}
    (hauth : A ∈ c.auth) (hu : s.unstaking.lookup A = some u)
    (h : sec_since_epoch c.now < (sec_since_epoch u.req_time + refund_delay_sec) % 4294967296) :
    refund c A s = .error "Refund is not available yet" := by
  unfold refund _refund
  have h1 : decide ((sec_since_epoch u.req_time + refund_delay_sec) % 4294967296
      ≤ sec_since_epoch c.now) = false := by
    simp only [decide_eq_false_iff_not, not_le]
    exact h
  simp only [Ctx.require_auth, Ctx.has_auth, hauth, decide_True, check_true, hu, h1, check,
    bind, Except.bind]
  rfl

theorem sec_since_epoch_eq {t : Int} (h0 : 0 ≤ t) (h1 : t / 1000000 < 4294967296) :
    sec_since_epoch t = t / 1000000 := by
  unfold sec_since_epoch
  rw [Int.tdiv_eq_ediv h0 (by decide)]
  omega

theorem refund_delay_sec_eq : (refund_delay_sec : Int) = 1296000 := by
  unfold refund_delay_sec
  norm_num

/-! ## Symbols of the balance rows and of `stat` -/

theorem Tbl.lookup_insert_cases {κ α : Type} [DecidableEq κ] {t : Tbl κ α} {k k1 : κ}
    {v v1 : α} (h : (t.insert k v).lookup k1 = some v1) :
    (k1 = k ∧ v1 = v) ∨ (k1 ≠ k ∧ t.lookup k1 = some v1) := by
  by_cases hk : k1 = k
  · subst hk
    rw [Finmap.lookup_insert] at h
    cases h
    exact Or.inl ⟨rfl, rfl⟩
  · rw [Finmap.lookup_insert_of_ne _ hk] at h
    exact Or.inr ⟨hk, h⟩

theorem Tbl.lookup_erase_cases {κ α : Type} [DecidableEq κ] {t : Tbl κ α} {k k1 : κ}
    {v1 : α} (h : (t.erase k).lookup k1 = some v1) : k1 ≠ k ∧ t.lookup k1 = some v1 := by
  by_cases hk : k1 = k
  · subst hk
    rw [Finmap.lookup_erase] at h
    cases h
  · rw [Finmap.lookup_erase_ne hk] at h
    exact ⟨hk, h⟩

theorem stats_grow_of_eq {s s1 : State} (h : s1.stats = s.stats) : stats_grow s s1 := by
  intro code st hst
  exact ⟨st, by rw [h]; exact hst, rfl, rfl⟩

theorem stats_grow.trans {s s1 s2 : State} (h1 : stats_grow s s1) (h2 : stats_grow s1 s2) :
    stats_grow s s2 := by
  intro code st hst
  obtain ⟨st1, hst1, hs1, hi1⟩ := h1 code st hst
  obtain ⟨st2, hst2, hs2, hi2⟩ := h2 code st1 hst1
  exact ⟨st2, hst2, by rw [hs2, hs1], by rw [hi2, hi1]⟩

theorem stats_grow.flx_reg {s s1 : State} (h : stats_grow s s1) (hr : flx_reg s) :
    flx_reg s1 := by
  obtain ⟨st, hst, hsym⟩ := hr
  obtain ⟨st1, hst1, hs1, -⟩ := h _ st hst
  exact ⟨st1, hst1, by rw [hs1, hsym]⟩

theorem sym_ok_step {s s1 : State} (h : sym_ok s) (hg : stats_grow s s1)
    (hrows : ∀ o code bal, s1.accounts.lookup (o, code) = some bal →
      s.accounts.lookup (o, code) = some bal
        ∨ ∃ st, s1.stats.lookup code = some st ∧ bal.symbol = st.supply.symbol) :
    sym_ok s1 := by
  intro o code bal hb
  rcases hrows o code bal hb with h1 | h1
  · obtain ⟨st, hst, hsym⟩ := h o code bal h1
    obtain ⟨st1, hst1, hs1, -⟩ := hg code st hst
    exact ⟨st1, hst1, by rw [hsym, hs1]⟩
  · exact h1

/-- What a successful transfer does to the tables of symbols. -/
theorem transfer_syms {c : Ctx} {from_ to_ : name} {quantity : asset} {memo : String}
    {s s1 : State} (h : transfer c from_ to_ quantity memo s = .ok s1) :
    stats_grow s s1 ∧ (stats_ok s → stats_ok s1) ∧ (sym_ok s → sym_ok s1) := by
  obtain ⟨-, -, -, -, -, ⟨st, hst, hsym⟩, bf, bt, hbf, -, hbs, hbt, -, rfl⟩ := transfer_ok h
  refine ⟨stats_grow_of_eq rfl, fun hs => hs, fun hs => ?_⟩
  refine sym_ok_step hs (stats_grow_of_eq rfl) ?_
  intro o code bal hb
  rcases Tbl.lookup_insert_cases hb with ⟨hk, rfl⟩ | ⟨-, hb1⟩
  · cases hk
    exact Or.inr ⟨st, hst, by rw [hbt, hsym]⟩
  · rcases Tbl.lookup_insert_cases hb1 with ⟨hk, rfl⟩ | ⟨-, hb2⟩
    · cases hk
      exact Or.inr ⟨st, hst, by show bf.symbol = _; rw [← hbs, hsym]⟩
    · exact Or.inl hb2

theorem create_syms {c : Ctx} {issuer : name} {maximum_supply : asset} {s s1 : State}
    (h : create c issuer maximum_supply s = .ok s1) :
    stats_grow s s1 ∧ (stats_ok s → stats_ok s1) ∧ (sym_ok s → sym_ok s1) := by
  obtain ⟨-, hv, -, hnone, rfl⟩ := create_ok h
  have hg : stats_grow s { s with
      stats := s.stats.insert maximum_supply.symbol.code
        { supply := ⟨0, maximum_supply.symbol⟩, max_supply := maximum_supply,
          issuer := issuer } } := by
    intro code st hst
    have hne : code ≠ maximum_supply.symbol.code := by
      intro e
      rw [e, hnone] at hst
      cases hst
    exact ⟨st, by rw [Finmap.lookup_insert_of_ne _ hne]; exact hst, rfl, rfl⟩
  refine ⟨hg, fun hs => ?_, fun hs => sym_ok_step hs hg (fun o code bal hb => Or.inl hb)⟩
  intro code st hst
  rcases Tbl.lookup_insert_cases hst with ⟨-, rfl⟩ | ⟨-, h1⟩
  · simp only [asset.is_valid, Bool.and_eq_true] at hv
    exact hv.2
  · exact hs code st h1

theorem issue_syms {c : Ctx} {to_ : name} {quantity : asset} {memo : String} {s s1 : State}
    (h : issue c to_ quantity memo s = .ok s1) :
    stats_grow s s1 ∧ (stats_ok s → stats_ok s1) ∧ (sym_ok s → sym_ok s1) := by
  obtain ⟨st, hst, -, -, -, hsym, -, hadd⟩ := issue_ok h
  obtain ⟨b, rfl, hbs, -⟩ := add_balance_ok hadd
  have hg : stats_grow s { s with
      stats := s.stats.insert quantity.symbol.code
        { st with supply := ⟨st.supply.amount + quantity.amount, st.supply.symbol⟩ } } := by
    intro code st0 hst0
    by_cases hc : code = quantity.symbol.code
    · subst hc
      rw [hst] at hst0
      cases hst0
      exact ⟨_, Finmap.lookup_insert _, rfl, rfl⟩
    · exact ⟨st0, by rw [Finmap.lookup_insert_of_ne _ hc]; exact hst0, rfl, rfl⟩
  refine ⟨hg, fun hs => ?_, fun hs => sym_ok_step hs hg ?_⟩
  · intro code st0 hst0
    rcases Tbl.lookup_insert_cases hst0 with ⟨-, rfl⟩ | ⟨-, h1⟩
    · exact hs _ st hst
    · exact hs code st0 h1
  · intro o code bal hb
    rcases Tbl.lookup_insert_cases hb with ⟨hk, rfl⟩ | ⟨-, hb1⟩
    · cases hk
      exact Or.inr ⟨_, Finmap.lookup_insert _, by rw [hbs, hsym]⟩
    · exact Or.inl hb1

theorem retire_syms {c : Ctx} {quantity : asset} {memo : String} {s s1 : State}
    (h : retire c quantity memo s = .ok s1) :
    stats_grow s s1 ∧ (stats_ok s → stats_ok s1) ∧ (sym_ok s → sym_ok s1) := by
  obtain ⟨st, hst, -, -, hsym, hsub⟩ := retire_ok h
  obtain ⟨bal, -, -, hbs, rfl⟩ := sub_balance_ok hsub
  have hg : stats_grow s { s with
      stats := s.stats.insert quantity.symbol.code
        { st with supply := ⟨st.supply.amount - quantity.amount, st.supply.symbol⟩ } } := by
    intro code st0 hst0
    by_cases hc : code = quantity.symbol.code
    · subst hc
      rw [hst] at hst0
      cases hst0
      exact ⟨_, Finmap.lookup_insert _, rfl, rfl⟩
    · exact ⟨st0, by rw [Finmap.lookup_insert_of_ne _ hc]; exact hst0, rfl, rfl⟩
  refine ⟨hg, fun hs => ?_, fun hs => sym_ok_step hs hg ?_⟩
  · intro code st0 hst0
    rcases Tbl.lookup_insert_cases hst0 with ⟨-, rfl⟩ | ⟨-, h1⟩
    · exact hs _ st hst
    · exact hs code st0 h1
  · intro o code b hb
    rcases Tbl.lookup_insert_cases hb with ⟨hk, rfl⟩ | ⟨-, hb1⟩
    · cases hk
      exact Or.inr ⟨_, Finmap.lookup_insert _, by show bal.symbol = _; rw [← hbs, hsym]⟩
    · exact Or.inl hb1

theorem open_syms {c : Ctx} {owner : name} {sym : symbol} {ram_payer : name} {s s1 : State}
    (h : open_ c owner sym ram_payer s = .ok s1) :
    stats_grow s s1 ∧ (stats_ok s → stats_ok s1) ∧ (sym_ok s → sym_ok s1) := by
  have hst : ∃ st, s.stats.lookup sym.code = some st ∧ st.supply.symbol = sym := by
    unfold open_ at h
    simp only [bind_ok_iff, check_ok_iff, require_auth_ok_iff, exists_const] at h
    obtain ⟨-, -, h⟩ := h
    split at h
    · cases h
    · rename_i st hst
      simp only [bind_ok_iff, check_ok_iff, exists_const, decide_eq_true_eq] at h
      exact ⟨st, hst, h.1⟩
  obtain ⟨st, hst, hsym⟩ := hst
  rcases open_ok h with rfl | ⟨-, rfl⟩
  · exact ⟨stats_grow_of_eq rfl, fun hs => hs, fun hs => hs⟩
  · refine ⟨stats_grow_of_eq rfl, fun hs => hs, fun hs => ?_⟩
    refine sym_ok_step hs (stats_grow_of_eq rfl) ?_
    intro o code bal hb
    rcases Tbl.lookup_insert_cases hb with ⟨hk, rfl⟩ | ⟨-, hb1⟩
    · cases hk
      exact Or.inr ⟨st, hst, hsym.symm⟩
    · exact Or.inl hb1

theorem close_syms {c : Ctx} {owner : name} {sym : symbol} {s s1 : State}
    (h : close c owner sym s = .ok s1) :
    stats_grow s s1 ∧ (stats_ok s → stats_ok s1) ∧ (sym_ok s → sym_ok s1) := by
  obtain ⟨bal, -, -, rfl⟩ := close_ok h
  refine ⟨stats_grow_of_eq rfl, fun hs => hs, fun hs => ?_⟩
  refine sym_ok_step hs (stats_grow_of_eq rfl) ?_
  intro o code b hb
  exact Or.inl (Tbl.lookup_erase_cases hb).2
theorem syms_of_frame {s sb s1 : State}
    (h : stats_grow sb s1 ∧ (stats_ok sb → stats_ok s1) ∧ (sym_ok sb → sym_ok s1))
    (hst : sb.stats = s.stats) (hacc : sb.accounts = s.accounts) :
    stats_grow s s1 ∧ (stats_ok s → stats_ok s1) ∧ (sym_ok s → sym_ok s1) := by
  unfold stats_grow stats_ok sym_ok at h ⊢
  rw [hst, hacc] at h
  exact h

theorem stake_syms {c : Ctx} {account : name} {quantity : asset} {s s1 : State}
    (h : stake c account quantity s = .ok s1) :
    stats_grow s s1 ∧ (stats_ok s → stats_ok s1) ∧ (sym_ok s → sym_ok s1) := by
  obtain ⟨-, -, -, -, -, row, -, -, -, htr⟩ := stake_ok h
  exact syms_of_frame (transfer_syms htr) rfl rfl

theorem refunddef_syms {c : Ctx} {account : name} {s s1 : State}
    (h : refunddef c account s = .ok s1) :
    stats_grow s s1 ∧ (stats_ok s → stats_ok s1) ∧ (sym_ok s → sym_ok s1) := by
  obtain ⟨-, u, -, htr⟩ := refunddef_ok h
  exact syms_of_frame (transfer_syms htr) rfl rfl

theorem refund_syms {c : Ctx} {account : name} {s s1 : State}
    (h : refund c account s = .ok s1) :
    stats_grow s s1 ∧ (stats_ok s → stats_ok s1) ∧ (sym_ok s → sym_ok s1) := by
  obtain ⟨-, u, -, -, htr⟩ := refund_ok h
  exact syms_of_frame (transfer_syms htr) rfl rfl

theorem banish_syms {c : Ctx} {account : name} {s s1 : State}
    (h : banish c account s = .ok s1) :
    stats_grow s s1 ∧ (stats_ok s → stats_ok s1) ∧ (sym_ok s → sym_ok s1) := by
  obtain ⟨-, s2, rfl, htr, hnone⟩ := banish_ok h
  cases hq : s.staking.lookup account with
  | none =>
    rw [hnone hq]
    exact ⟨stats_grow_of_eq rfl, fun hs => hs, fun hs => hs⟩
  | some q => exact syms_of_frame (transfer_syms (htr q hq)) rfl rfl

theorem apply_syms {c : Ctx} {call : Call} {s s1 : State} (h : call.apply c s = .ok s1) :
    stats_grow s s1 ∧ (stats_ok s → stats_ok s1) ∧ (sym_ok s → sym_ok s1) := by
  cases call with
  | create issuer maximum_supply => exact create_syms h
  | issue to_ quantity memo => exact issue_syms h
  | retire quantity memo => exact retire_syms h
  | transfer from_ to_ quantity memo => exact transfer_syms h
  | open_ owner sym ram_payer => exact open_syms h
  | close owner sym => exact close_syms h
  | stake account quantity => exact stake_syms h
  | unstake account quantity =>
    obtain ⟨-, -, staked, -, -, -, -, -, row, -, -, -, rfl⟩ := unstake_ok h
    exact ⟨stats_grow_of_eq rfl, fun hs => hs, fun hs => hs⟩
  | restake account =>
    obtain ⟨-, u, -, -, -, row, -, -, -, rfl⟩ := restake_ok h
    exact ⟨stats_grow_of_eq rfl, fun hs => hs, fun hs => hs⟩
  | refunddef account => exact refunddef_syms h
  | refund account => exact refund_syms h
  | banish account => exact banish_syms h
  | recalc =>
    obtain ⟨-, rfl⟩ := recalc_ok h
    exact ⟨stats_grow_of_eq rfl, fun hs => hs, fun hs => hs⟩

/-- What a call leaves alone in the staking tables when it is not one of the
staking actions. -/
theorem apply_token_frame {c : Ctx} {call : Call} {s s1 : State}
    (hcall : call.is_token = true) (h : call.apply c s = .ok s1) :
    s1.staking = s.staking ∧ s1.unstaking = s.unstaking ∧ s1.totalStake = s.totalStake
      ∧ s1.deferred = s.deferred := by
  cases call with
  | create issuer maximum_supply =>
    obtain ⟨-, -, -, -, rfl⟩ := create_ok h
    exact ⟨rfl, rfl, rfl, rfl⟩
  | issue to_ quantity memo =>
    obtain ⟨st, -, -, -, -, -, -, hadd⟩ := issue_ok h
    obtain ⟨b, rfl, -, -⟩ := add_balance_ok hadd
    exact ⟨rfl, rfl, rfl, rfl⟩
  | retire quantity memo =>
    obtain ⟨st, -, -, -, -, hsub⟩ := retire_ok h
    obtain ⟨bal, -, -, -, rfl⟩ := sub_balance_ok hsub
    exact ⟨rfl, rfl, rfl, rfl⟩
  | transfer from_ to_ quantity memo =>
    obtain ⟨-, h2, h3, h4, h5, -⟩ := transfer_effect h
    exact ⟨h2, h3, h4, h5⟩
  | open_ owner sym ram_payer =>
    rcases open_ok h with rfl | ⟨-, rfl⟩
    · exact ⟨rfl, rfl, rfl, rfl⟩
    · exact ⟨rfl, rfl, rfl, rfl⟩
  | close owner sym =>
    obtain ⟨bal, -, -, rfl⟩ := close_ok h
    exact ⟨rfl, rfl, rfl, rfl⟩
  | _ => simp [Call.is_token] at hcall

/-! ## The staking tables stay well formed -/

theorem Tbl.le_sum {κ α : Type} [DecidableEq κ] (t : Tbl κ α) (f : κ → α → Int)
    (hpos : ∀ k v, t.lookup k = some v → 0 ≤ f k v) {k : κ} {v : α}
    (h : t.lookup k = some v) : f k v ≤ Tbl.sum t f := by
  have h1 := Tbl.sum_erase t f k
  simp only [h] at h1
  have h2 : 0 ≤ Tbl.sum (t.erase k) f := by
    apply Tbl.sum_nonneg
    intro k1 v1 hk1
    exact hpos k1 v1 (Tbl.lookup_erase_cases hk1).2
  omega

theorem staked_le_sum {s : State} (hp : stakes_positive s) (a : name) :
    staked_of s a ≤ staked_sum s := by
  unfold staked_of amount_at
  cases hq : s.staking.lookup a with
  | none =>
    exact Tbl.sum_nonneg _ _ (fun k v hk => le_of_lt (hp.1 k v hk))
  | some q =>
    exact Tbl.le_sum s.staking (fun _ x => x.amount)
      (fun k v hk => le_of_lt (hp.1 k v hk)) hq

theorem staked_sum_nonneg {s : State} (hp : stakes_positive s) : 0 ≤ staked_sum s :=
  Tbl.sum_nonneg _ _ (fun k v hk => le_of_lt (hp.1 k v hk))

theorem pending_sum_nonneg {s : State} (hp : stakes_positive s) : 0 ≤ pending_sum s :=
  Tbl.sum_nonneg _ _ (fun k v hk => le_of_lt (hp.2 k v hk))

theorem pending_le_sum {s : State} (hp : stakes_positive s) (a : name) :
    pending_of s a ≤ pending_sum s := by
  unfold pending_of
  cases hq : s.unstaking.lookup a with
  | none => exact pending_sum_nonneg hp
  | some u =>
    exact Tbl.le_sum s.unstaking (fun _ x => x.quantity.amount)
      (fun k v hk => le_of_lt (hp.2 k v hk)) hq

theorem stk_ok_frame {s s1 : State} (hs : stk_ok s) (h1 : s1.staking = s.staking)
    (h2 : s1.unstaking = s.unstaking) (h3 : s1.totalStake = s.totalStake)
    (hg : stats_grow s s1) : stk_ok s1 := by
  obtain ⟨hr, ha, hreg, he, hb⟩ := hs
  refine ⟨?_, ?_, ?_, ?_, ?_⟩
  · simpa only [rows_flx, h1, h2, h3] using hr
  · simpa only [agg_ok, staked_sum, h1, h3] using ha
  · refine ⟨fun a q hq => ?_, fun a u hu => ?_⟩
    · rw [h1] at hq
      exact hg.flx_reg (hreg.1 a q hq)
    · rw [h2] at hu
      exact hg.flx_reg (hreg.2 a u hu)
  · simpa only [escrow_idle, h1, h2] using he
  · simpa only [pending_bounded, h2] using hb

theorem stk_ok_token {c : Ctx} {call : Call} {s s1 : State} (hs : stk_ok s)
    (hcall : call.is_token = true) (h : call.apply c s = .ok s1) : stk_ok s1 := by
  obtain ⟨h1, h2, h3, -⟩ := apply_token_frame hcall h
  exact stk_ok_frame hs h1 h2 h3 (apply_syms h).1

theorem stk_ok_stake {c : Ctx} {account : name} {quantity : asset} {s s1 : State}
    (hs : stk_ok s) (h : stake c account quantity s = .ok s1) : stk_ok s1 := by
  obtain ⟨hne, hpos, hsym, -, ⟨row, hstk, hamt, hrsym, -⟩, htot, -, hstats, huns, -⟩ :=
    stake_effect h
  obtain ⟨-, -, -, -, ⟨-, hr2⟩, row1, -, -, -, htr⟩ := stake_ok h
  obtain ⟨-, -, -, -, -, ⟨st, hst, hqs⟩, -⟩ := transfer_ok htr
  obtain ⟨hr, ha, hreg, he, hb⟩ := hs
  have hflx : flx_reg s1 := by
    refine ⟨st, ?_, ?_⟩
    · rw [hstats, ← hsym]
      exact hst
    · rw [← hqs, hsym]
  refine ⟨⟨?_, ?_, ?_⟩, ⟨?_, ?_⟩, ⟨fun _ _ _ => hflx, fun _ _ _ => hflx⟩, ⟨?_, ?_⟩, ?_⟩
  · rw [hstk]
    exact Tbl.forall_insert (P := fun q : asset => q.symbol = felix_symbol) hr.1 account row hrsym
  · rw [huns]
    exact hr.2.1
  · rw [htot]
  · unfold staked_sum
    rw [hstk, staked_sum_insert, htot]
    have := ha.1
    simp only [staked_sum, staked_of] at this hamt
    simp only
    omega
  · rw [htot]
    exact hr2
  · rw [hstk, Finmap.lookup_insert_of_ne _ (Ne.symm hne)]
    exact he.1
  · rw [huns]
    exact he.2
  · simpa only [pending_bounded, huns] using hb

theorem unstake_row {c : Ctx} {account : name} {quantity : asset} {s s1 : State}
    (h : unstake c account quantity s = .ok s1) :
    ∃ row, s1.unstaking = s.unstaking.insert account row ∧ row.req_time = c.now
      ∧ (s.unstaking.lookup account = none → row.quantity = quantity)
      ∧ ∀ u, s.unstaking.lookup account = some u →
          row.quantity.symbol = u.quantity.symbol
            ∧ row.quantity.amount = u.quantity.amount + quantity.amount
            ∧ u.quantity.amount + quantity.amount ≤ max_amount
            ∧ u.quantity.symbol = felix_symbol ∧ u.quantity.amount ≤ max_amount := by
  obtain ⟨-, -, ⟨x, hx⟩, staked, -, -, -, stk, -, row, hrow, total, -, rfl⟩ :=
    (unstake_iff c account quantity s s1).1 h
  refine ⟨row, rfl, ?_, ?_, ?_⟩
  · cases hu : s.unstaking.lookup account with
    | none =>
      rw [hu] at hrow
      simp only [pure, Except.pure, Except.ok.injEq] at hrow
      subst hrow
      rfl
    | some u =>
      rw [hu] at hrow
      simp only [bind_ok_iff, asset.add_ok_iff, pure, Except.pure, Except.ok.injEq] at hrow
      obtain ⟨q, -, rfl⟩ := hrow
      rfl
  · intro hu
    rw [hu] at hrow
    simp only [pure, Except.pure, Except.ok.injEq] at hrow
    subst hrow
    rfl
  · intro u hu
    rw [hu] at hrow hx
    simp only [bind_ok_iff, asset.add_ok_iff, pure, Except.pure, Except.ok.injEq] at hrow hx
    obtain ⟨q, ⟨-, -, h3, rfl⟩, rfl⟩ := hrow
    obtain ⟨h4, -, h5, -⟩ := hx
    exact ⟨rfl, rfl, h3, h4, by omega⟩

theorem stk_ok_unstake {c : Ctx} {account : name} {quantity : asset} {s s1 : State}
    (hs : stk_ok s) (hp : stakes_positive s)
    (h : unstake c account quantity s = .ok s1) : stk_ok s1 := by
  obtain ⟨row, hun, -, hnone, hsome⟩ := unstake_row h
  obtain ⟨-, hpos, staked, hst, hsym, hle, htsym, -, row1, -, -, -, rfl⟩ := unstake_ok h
  obtain ⟨hr, ha, hreg, he, hb⟩ := hs
  have hflx : flx_reg s := hreg.1 account staked hst
  have hstk : staked.symbol = felix_symbol := hr.1 account staked hst
  have hne : account ≠ felixstaking := by
    intro hacc
    rw [hacc, he.1] at hst
    cases hst
  have hsa : staked_of s account = staked.amount := by
    simp only [staked_of, amount_at, hst]
  have hsl := staked_le_sum hp account
  have hrow : row.quantity.symbol = felix_symbol ∧ row.quantity.amount ≤ max_amount := by
    cases hu : s.unstaking.lookup account with
    | none =>
      rw [hnone hu, ← hsym]
      refine ⟨hstk, ?_⟩
      have := ha.1
      have := ha.2
      omega
    | some u =>
      obtain ⟨h1, h2, h3, h4, -⟩ := hsome u hu
      rw [h1, h2]
      exact ⟨h4, h3⟩
  simp only at hun
  refine ⟨⟨?_, ?_, ?_⟩, ⟨?_, ?_⟩, ⟨fun _ _ _ => hflx, fun _ _ _ => hflx⟩, ⟨?_, ?_⟩, ?_⟩
  · simp only
    split
    · exact Tbl.forall_erase (P := fun q : asset => q.symbol = felix_symbol) hr.1 account
    · exact Tbl.forall_insert (P := fun q : asset => q.symbol = felix_symbol) hr.1 account _
        hstk
  · rw [hun]
    exact Tbl.forall_insert (P := fun u : unstaking => u.quantity.symbol = felix_symbol)
      hr.2.1 account row hrow.1
  · exact hr.2.2
  · have := ha.1
    simp only [staked_sum, staked_of] at this hsa ⊢
    split
    · rename_i heq
      rw [staked_sum_erase]
      omega
    · rw [staked_sum_insert]
      simp only
      omega
  · have := ha.2
    simp only
    omega
  · simp only
    split
    · rw [Finmap.lookup_erase_ne (Ne.symm hne)]
      exact he.1
    · rw [Finmap.lookup_insert_of_ne _ (Ne.symm hne)]
      exact he.1
  · rw [hun, Finmap.lookup_insert_of_ne _ (Ne.symm hne)]
    exact he.2
  · rw [pending_bounded, hun]
    exact Tbl.forall_insert (P := fun u : unstaking => u.quantity.amount ≤ max_amount)
      hb account row hrow.2

theorem stk_ok_restake {c : Ctx} {account : name} {s s1 : State}
    (hs : stk_ok s)
    (h : restake c account s = .ok s1) : stk_ok s1 := by
  obtain ⟨-, u, hu, -, ⟨-, hr2⟩, row, hamt, hrsym, hnone, rfl⟩ := restake_ok h
  obtain ⟨hr, ha, hreg, he, hb⟩ := hs
  have hflx : flx_reg s := hreg.2 account u hu
  have hus : u.quantity.symbol = felix_symbol := hr.2.1 account u hu
  have hne : account ≠ felixstaking := by
    intro hacc
    rw [hacc, he.2] at hu
    cases hu
  have hrow : row.symbol = felix_symbol := by
    cases hq : s.staking.lookup account with
    | none => rw [hnone hq]; exact hus
    | some q => rw [hrsym q hq]; exact hr.1 account q hq
  refine ⟨⟨?_, ?_, ?_⟩, ⟨?_, ?_⟩, ⟨fun _ _ _ => hflx, fun _ _ _ => hflx⟩, ⟨?_, ?_⟩, ?_⟩
  · exact Tbl.forall_insert (P := fun q : asset => q.symbol = felix_symbol) hr.1 account row hrow
  · exact Tbl.forall_erase (P := fun u : unstaking => u.quantity.symbol = felix_symbol)
      hr.2.1 account
  · exact hr.2.2
  · have := ha.1
    simp only [staked_sum, staked_of] at this hamt ⊢
    rw [staked_sum_insert]
    omega
  · exact hr2
  · simp only
    rw [Finmap.lookup_insert_of_ne _ (Ne.symm hne)]
    exact he.1
  · simp only
    rw [Finmap.lookup_erase_ne (Ne.symm hne)]
    exact he.2
  · exact Tbl.forall_erase (P := fun u : unstaking => u.quantity.amount ≤ max_amount)
      hb account

theorem stk_ok_settle {c : Ctx} {account : name} {q : asset} {memo : String} {s s1 : State}
    (hs : stk_ok s)
    (h : transfer c felixstaking account q memo
      { s with unstaking := s.unstaking.erase account } = .ok s1) : stk_ok s1 := by
  obtain ⟨h1, h2, h3, h4, -, -⟩ := transfer_effect h
  obtain ⟨hr, ha, hreg, he, hb⟩ := hs
  simp only at h1 h2 h3 h4
  have hg : stats_grow s s1 := stats_grow_of_eq h1
  refine ⟨⟨?_, ?_, ?_⟩, ?_, ⟨?_, ?_⟩, ⟨?_, ?_⟩, ?_⟩
  · rw [h2]
    exact hr.1
  · rw [h3]
    exact Tbl.forall_erase (P := fun u : unstaking => u.quantity.symbol = felix_symbol)
      hr.2.1 account
  · rw [h4]
    exact hr.2.2
  · simpa only [agg_ok, staked_sum, h2, h4] using ha
  · intro a q1 hq
    rw [h2] at hq
    exact hg.flx_reg (hreg.1 a q1 hq)
  · intro a u hu
    rw [h3] at hu
    exact hg.flx_reg (hreg.2 a u (Tbl.lookup_erase_cases hu).2)
  · rw [h2]
    exact he.1
  · rw [h3]
    by_cases hacc : felixstaking = account
    · rw [hacc]
      exact Finmap.lookup_erase _ _
    · rw [Finmap.lookup_erase_ne hacc]
      exact he.2
  · rw [pending_bounded, h3]
    exact Tbl.forall_erase (P := fun u : unstaking => u.quantity.amount ≤ max_amount)
      hb account

theorem banish_range {c : Ctx} {account : name} {s s1 : State}
    (h : banish c account s = .ok s1) (u : unstaking)
    (hu : s.unstaking.lookup account = some u) :
    s.totalStake.amount - staked_of s account + u.quantity.amount ≤ max_amount := by
  unfold banish at h
  simp only [bind_ok_iff, require_auth_ok_iff, exists_const] at h
  obtain ⟨-, sa, hsa, sb, hsb, -⟩ := h
  cases hstk : s.staking.lookup account with
  | none =>
    rw [hstk] at hsa
    simp only [pure, Except.pure, Except.ok.injEq] at hsa
    subst hsa
    rw [hu] at hsb
    simp only [bind_ok_iff, asset.add_ok_iff, pure, Except.pure, Except.ok.injEq] at hsb
    obtain ⟨total, ⟨-, -, h3, -⟩, -⟩ := hsb
    simp only [staked_of, amount_at, hstk]
    omega
  | some q =>
    rw [hstk] at hsa
    simp only [bind_ok_iff, asset.sub_ok_iff, pure, Except.pure, Except.ok.injEq] at hsa
    obtain ⟨total, ⟨-, -, -, rfl⟩, rfl⟩ := hsa
    simp only [hu] at hsb
    simp only [bind_ok_iff, asset.add_ok_iff, pure, Except.pure, Except.ok.injEq] at hsb
    obtain ⟨total, ⟨-, -, h3, -⟩, -⟩ := hsb
    simp only [staked_of, amount_at, hstk]
    omega

theorem stk_ok_banish {c : Ctx} {account : name} {s s1 : State}
    (hs : stk_ok s) (hp : stakes_positive s)
    (h : banish c account s = .ok s1) : stk_ok s1 := by
  have hrange := banish_range h
  obtain ⟨-, s2, hs2, htr, hnone⟩ := banish_ok h
  obtain ⟨hr, ha, hreg, he, hb⟩ := hs
  have h2 : stk_ok s2 := by
    subst hs2
    refine ⟨⟨?_, ?_, ?_⟩, ⟨?_, ?_⟩, ⟨?_, ?_⟩, ⟨?_, ?_⟩, ?_⟩
    · exact Tbl.forall_erase (P := fun q : asset => q.symbol = felix_symbol) hr.1 account
    · exact Tbl.forall_erase (P := fun u : unstaking => u.quantity.symbol = felix_symbol)
        hr.2.1 account
    · exact hr.2.2
    · have := ha.1
      have := pending_of_nonneg hp account
      simp only [staked_sum, staked_of] at *
      rw [staked_sum_erase]
      omega
    · simp only
      cases hu : s.unstaking.lookup account with
      | none =>
        have := ha.2
        have := staked_of_nonneg hp account
        simp only [pending_of, hu]
        omega
      | some u =>
        have := hrange u hu
        simp only [pending_of, hu]
        exact this
    · intro a q hq
      exact hreg.1 a q (Tbl.lookup_erase_cases hq).2
    · intro a u hu
      exact hreg.2 a u (Tbl.lookup_erase_cases hu).2
    · simp only
      by_cases hacc : felixstaking = account
      · rw [hacc]
        exact Finmap.lookup_erase _ _
      · rw [Finmap.lookup_erase_ne hacc]
        exact he.1
    · simp only
      by_cases hacc : felixstaking = account
      · rw [hacc]
        exact Finmap.lookup_erase _ _
      · rw [Finmap.lookup_erase_ne hacc]
        exact he.2
    · exact Tbl.forall_erase (P := fun u : unstaking => u.quantity.amount ≤ max_amount)
        hb account
  cases hq : s.staking.lookup account with
  | none =>
    rw [hnone hq]
    exact h2
  | some q =>
    obtain ⟨e1, e2, e3, e4, -, -⟩ := transfer_effect (htr q hq)
    exact stk_ok_frame h2 e2 e3 e4 (stats_grow_of_eq e1)

theorem stk_ok_recalc {c : Ctx} {s s1 : State}
    (hs : stk_ok s) (hp : stakes_positive s)
    (h : recalc c s = .ok s1) : stk_ok s1 := by
  obtain ⟨-, rfl⟩ := recalc_ok h
  obtain ⟨hr, ha, hreg, he, hb⟩ := hs
  have h0 := staked_sum_nonneg hp
  have hsum : Multiset.foldr recalc_step 0 s.staking.entries = staked_sum s := by
    rw [recalc_sum]
    have h1 := ha.1
    have h2 := ha.2
    apply wrap64_of_range
    · unfold staked_sum at h0
      omega
    · unfold staked_sum max_amount at *
      omega
  refine ⟨⟨hr.1, hr.2.1, rfl⟩, ⟨?_, ?_⟩, hreg, he, hb⟩
  · simp only [hsum]
    exact le_refl _
  · simp only [hsum]
    exact le_trans ha.1 ha.2

theorem stk_ok_apply {c : Ctx} {call : Call} {s s1 : State}
    (hs : stk_ok s) (hp : stakes_positive s) (h : call.apply c s = .ok s1) : stk_ok s1 := by
  cases call with
  | create issuer maximum_supply => exact stk_ok_token hs (by rfl) h
  | issue to_ quantity memo => exact stk_ok_token hs (by rfl) h
  | retire quantity memo => exact stk_ok_token hs (by rfl) h
  | transfer from_ to_ quantity memo => exact stk_ok_token hs (by rfl) h
  | open_ owner sym ram_payer => exact stk_ok_token hs (by rfl) h
  | close owner sym => exact stk_ok_token hs (by rfl) h
  | stake account quantity => exact stk_ok_stake hs h
  | unstake account quantity => exact stk_ok_unstake hs hp h
  | restake account => exact stk_ok_restake hs h
  | refunddef account =>
    obtain ⟨-, u, -, htr⟩ := refunddef_ok h
    exact stk_ok_settle hs htr
  | refund account =>
    obtain ⟨-, u, -, -, htr⟩ := refund_ok h
    exact stk_ok_settle hs htr
  | banish account => exact stk_ok_banish hs hp h
  | recalc => exact stk_ok_recalc hs hp h

theorem Inv2_apply {c : Ctx} {call : Call} {s s1 : State}
    (hi : Inv s) (hs : Inv2 s) (h : call.apply c s = .ok s1) : Inv2 s1 :=
  ⟨stk_ok_apply hs.1 hi.2.2.1 h, (apply_syms h).2.2 hs.2.1, (apply_syms h).2.1 hs.2.2⟩

theorem Inv2_exec {c : Ctx} {call : Call} {s : State} (hi : Inv s) (hs : Inv2 s) :
    Inv2 (exec c call s) := by
  unfold felix.exec
  split
  · rename_i s1 h
    exact Inv2_apply hi hs h
  · exact hs

theorem Inv2_run (calls : List (Ctx × Call)) :
    ∀ {s : State}, Inv s → Inv2 s → Inv2 (run calls s) := by
  induction calls with
  | nil => intro s _ hs; exact hs
  | cons x xs ih =>
    intro s hi hs
    exact ih hi.exec (Inv2_exec hi hs)

theorem Inv2_empty : Inv2 State.empty := by
  refine ⟨⟨⟨?_, ?_, rfl⟩, ⟨?_, ?_⟩, ⟨?_, ?_⟩, ⟨rfl, rfl⟩, ?_⟩, ?_, ?_⟩
  · intro a q hq
    simp [State.empty, Finmap.lookup_empty] at hq
  · intro a u hu
    simp [State.empty, Finmap.lookup_empty] at hu
  · simp [staked_sum, State.empty, Tbl.sum_empty]
  · simp [State.empty, max_amount]
  · intro a q hq
    simp [State.empty, Finmap.lookup_empty] at hq
  · intro a u hu
    simp [State.empty, Finmap.lookup_empty] at hu
  · intro a u hu
    simp [State.empty, Finmap.lookup_empty] at hu
  · intro o code bal hb
    simp [State.empty, Finmap.lookup_empty] at hb
  · intro code st hst
    simp [State.empty, Finmap.lookup_empty] at hst

/-- Every state reached from the empty ledger satisfies both invariants. -/
theorem reachable_inv (calls : List (Ctx × Call)) :
    Inv (run calls State.empty) ∧ Inv2 (run calls State.empty) :=
  ⟨Inv.run calls Inv.empty, Inv2_run calls Inv.empty Inv2_empty⟩

/-! ## The excess of the aggregate over the staking rows -/

theorem drift_step_error {c : Ctx} {call : Call} {s : State} {e : String} (d : Int)
    (h : call.apply c s = .error e) : drift_step c call s d = d := by
  unfold drift_step
  rw [h]
  cases call <;> rfl

theorem excess_apply {c : Ctx} {call : Call} {s s1 : State} (hi : Inv s) (h2 : Inv2 s)
    (h : call.apply c s = .ok s1) :
    s1.totalStake.amount - staked_sum s1
      = drift_step c call s (s.totalStake.amount - staked_sum s) := by
  have hframe : ∀ {s1 : State}, s1.staking = s.staking → s1.totalStake = s.totalStake →
      s1.totalStake.amount - staked_sum s1 = s.totalStake.amount - staked_sum s := by
    intro s1 e1 e2
    simp only [staked_sum, e1, e2]
  have htoken : call.is_token = true → s1.totalStake.amount - staked_sum s1
      = s.totalStake.amount - staked_sum s := by
    intro hc
    obtain ⟨e1, -, e3, -⟩ := apply_token_frame hc h
    exact hframe e1 e3
  have hstep : ∀ d, (∀ a, call ≠ .banish a) → call ≠ .recalc → drift_step c call s d = d := by
    intro d hb hr
    unfold drift_step
    rw [h]
    cases call <;> first | rfl | exact absurd rfl (hb _) | exact absurd rfl hr
  cases call with
  | create issuer maximum_supply =>
    rw [hstep _ (fun _ => Call.noConfusion) Call.noConfusion]; exact htoken rfl
  | issue to_ quantity memo =>
    rw [hstep _ (fun _ => Call.noConfusion) Call.noConfusion]; exact htoken rfl
  | retire quantity memo =>
    rw [hstep _ (fun _ => Call.noConfusion) Call.noConfusion]; exact htoken rfl
  | transfer from_ to_ quantity memo =>
    rw [hstep _ (fun _ => Call.noConfusion) Call.noConfusion]; exact htoken rfl
  | open_ owner sym ram_payer =>
    rw [hstep _ (fun _ => Call.noConfusion) Call.noConfusion]; exact htoken rfl
  | close owner sym =>
    rw [hstep _ (fun _ => Call.noConfusion) Call.noConfusion]; exact htoken rfl
  | stake account quantity =>
    rw [hstep _ (fun _ => Call.noConfusion) Call.noConfusion]
    obtain ⟨-, -, -, -, ⟨row, hstk, hamt, -, -⟩, htot, -⟩ := stake_effect h
    simp only [staked_sum, staked_of] at hamt ⊢
    rw [hstk, staked_sum_insert, htot]
    simp only
    omega
  | unstake account quantity =>
    rw [hstep _ (fun _ => Call.noConfusion) Call.noConfusion]
    obtain ⟨-, -, staked, hst, -, -, -, -, row, -, -, -, rfl⟩ := unstake_ok h
    have hsa : amount_at s.staking account = staked.amount := by
      simp only [amount_at, hst]
    simp only [staked_sum]
    split
    · rw [staked_sum_erase]
      omega
    · rw [staked_sum_insert]
      simp only
      omega
  | restake account =>
    rw [hstep _ (fun _ => Call.noConfusion) Call.noConfusion]
    obtain ⟨-, u, -, -, -, row, hamt, -, -, rfl⟩ := restake_ok h
    simp only [staked_sum, staked_of] at hamt ⊢
    rw [staked_sum_insert]
    omega
  | refunddef account =>
    rw [hstep _ (fun _ => Call.noConfusion) Call.noConfusion]
    obtain ⟨-, u, -, htr⟩ := refunddef_ok h
    obtain ⟨-, e2, -, e4, -⟩ := transfer_effect htr
    exact hframe e2 e4
  | refund account =>
    rw [hstep _ (fun _ => Call.noConfusion) Call.noConfusion]
    obtain ⟨-, u, -, -, htr⟩ := refund_ok h
    obtain ⟨-, e2, -, e4, -⟩ := transfer_effect htr
    exact hframe e2 e4
  | banish account =>
    have hd : ∀ d, drift_step c (.banish account) s d = d + pending_of s account := by
      intro d
      unfold drift_step
      rw [h]
    rw [hd]
    obtain ⟨-, s2, hs2, htr, hnone⟩ := banish_ok h
    have hs2e : s2.totalStake.amount - staked_sum s2
        = s.totalStake.amount - staked_sum s + pending_of s account := by
      subst hs2
      simp only [staked_sum, staked_of]
      rw [staked_sum_erase]
      omega
    cases hq : s.staking.lookup account with
    | none =>
      rw [hnone hq]
      exact hs2e
    | some q =>
      obtain ⟨-, e2, -, e4, -⟩ := transfer_effect (htr q hq)
      rw [← hs2e]
      simp only [staked_sum, e2, e4]
  | recalc =>
    have hd : ∀ d, drift_step c .recalc s d = 0 := by
      intro d
      unfold drift_step
      rw [h]
    rw [hd]
    have h0 := staked_sum_nonneg hi.2.2.1
    have h1 := h2.1.2.1.1
    have h3 := h2.1.2.1.2
    obtain ⟨-, rfl⟩ := recalc_ok h
    simp only [recalc_sum, staked_sum] at h0 h1 ⊢
    rw [wrap64_of_range]
    · omega
    · omega
    · unfold max_amount at h3
      omega

theorem drift_step_nonneg {c : Ctx} {call : Call} {s : State} (hi : Inv s) {d : Int}
    (hd : 0 ≤ d) : 0 ≤ drift_step c call s d := by
  have := pending_of_nonneg hi.2.2.1
  unfold drift_step
  split
  · rename_i account _ _
    have := this account
    omega
  · exact le_refl 0
  · exact hd

theorem drift_run (calls : List (Ctx × Call)) :
    ∀ {s : State}, Inv s → Inv2 s → 0 ≤ s.totalStake.amount - staked_sum s →
      (run calls s).totalStake.amount - staked_sum (run calls s)
          = drift calls s (s.totalStake.amount - staked_sum s)
        ∧ 0 ≤ drift calls s (s.totalStake.amount - staked_sum s) := by
  induction calls with
  | nil => intro s _ _ h0; exact ⟨rfl, h0⟩
  | cons x xs ih =>
    intro s hi h2 h0
    have hstep : (exec x.1 x.2 s).totalStake.amount - staked_sum (exec x.1 x.2 s)
        = drift_step x.1 x.2 s (s.totalStake.amount - staked_sum s) := by
      unfold felix.exec
      split
      · rename_i s1 h
        exact excess_apply hi h2 h
      · rename_i e h
        rw [drift_step_error _ h]
    have h1 := ih hi.exec (Inv2_exec hi h2) (by rw [hstep]; exact drift_step_nonneg hi h0)
    rw [hstep] at h1
    exact h1

/-! ## Aborted calls and transfers that go through -/

theorem exec_of_error {c : Ctx} {call : Call} {s : State} {e : String}
    (h : call.apply c s = .error e) : exec c call s = s := by
  unfold felix.exec
  rw [h]

theorem exec_of_ok {c : Ctx} {call : Call} {s s1 : State}
    (h : call.apply c s = .ok s1) : exec c call s = s1 := by
  unfold felix.exec
  rw [h]

theorem fails_of_not_ok (c : Ctx) (call : Call) (s : State)
    (h : ∀ s1, call.apply c s ≠ .ok s1) :
    (∃ e, call.apply c s = .error e) ∧ exec c call s = s := by
  cases hr : call.apply c s with
  | error e => exact ⟨⟨e, rfl⟩, exec_of_error hr⟩
  | ok s1 => exact absurd hr (h s1)

theorem Tbl.pair_le_sum {κ α : Type} [DecidableEq κ] (t : Tbl κ α) (f : κ → α → Int)
    (hpos : ∀ k v, t.lookup k = some v → 0 ≤ f k v) {k1 k2 : κ} (hne : k1 ≠ k2) :
    (match t.lookup k1 with | some o => f k1 o | none => 0)
      + (match t.lookup k2 with | some o => f k2 o | none => 0) ≤ Tbl.sum t f := by
  have h1 := Tbl.sum_erase t f k1
  have h2 := Tbl.sum_erase (t.erase k1) f k2
  rw [Finmap.lookup_erase_ne (Ne.symm hne)] at h2
  have h3 : 0 ≤ Tbl.sum ((t.erase k1).erase k2) f := by
    apply Tbl.sum_nonneg
    intro k v hk
    exact hpos k v (Tbl.lookup_erase_cases (Tbl.lookup_erase_cases hk).2).2
  cases hl1 : t.lookup k1 <;> cases hl2 : t.lookup k2 <;>
    simp only [hl1, hl2] at h1 h2 ⊢ <;> omega

theorem supply_le_max {s : State} (hi : Inv s) (code : symbol_code) :
    supply_of s code ≤ max_amount := by
  unfold supply_of
  cases hst : s.stats.lookup code with
  | none => simp only; unfold max_amount; omega
  | some st =>
    have := hi.2.2.2 code st hst
    simp only
    omega

theorem balance_pair_le {s : State} (hi : Inv s) {o1 o2 : name} (hne : o1 ≠ o2)
    (code : symbol_code) :
    balance_of s o1 code + balance_of s o2 code ≤ max_amount := by
  have h1 := supply_le_max hi code
  have h2 := hi.1 code
  have hk : (o1, code) ≠ (o2, code) := fun e => hne (congrArg Prod.fst e)
  have h3 := Tbl.pair_le_sum s.accounts (fun k bal => if k.2 = code then bal.amount else 0)
    (by
      intro k v hkv
      have := hi.2.1 k v hkv
      simp only
      split <;> omega) hk
  simp only [balance_sum, accounts_sum] at h2
  simp only [balance_of, amount_at]
  cases hb1 : s.accounts.lookup (o1, code) <;> cases hb2 : s.accounts.lookup (o2, code) <;>
    simp only [hb1, hb2, if_true] at h3 ⊢ <;> omega

theorem balance_of_le {s : State} (hi : Inv s) (o : name) (code : symbol_code) :
    0 ≤ balance_of s o code ∧ balance_of s o code ≤ max_amount := by
  have h1 := supply_le_max hi code
  have h2 := hi.1 code
  simp only [balance_sum, accounts_sum] at h2
  simp only [balance_of, amount_at]
  cases hb : s.accounts.lookup (o, code) with
  | none => simp only; unfold max_amount; omega
  | some bal =>
    have h3 := Tbl.le_sum s.accounts (fun k bal => if k.2 = code then bal.amount else 0)
      (by
        intro k v hkv
        have := hi.2.1 k v hkv
        simp only
        split <;> omega) hb
    have h4 := hi.2.1 _ _ hb
    simp only [if_true] at h3 ⊢
    omega

theorem frame_ok {s : State} (s1 : State) (hi : Inv s) (h2 : Inv2 s)
    (hst : s1.stats = s.stats)
    (hacc : s1.accounts = s.accounts) (hp : stakes_positive s1) :
    Inv s1 ∧ sym_ok s1 ∧ stats_ok s1 := by
  refine ⟨hi.of_staking hst hacc hp, ?_, ?_⟩
  · simpa only [sym_ok, hst, hacc] using h2.2.1
  · simpa only [stats_ok, hst] using h2.2.2

/-- On a ledger that satisfies the invariants a transfer succeeds when none
of its checks fails: the amounts stay in range by conservation. -/
theorem transfer_succeeds {s : State} (hi : Inv s) (hsy : sym_ok s) (hso : stats_ok s)
    (c : Ctx)
    (from_ to_ : name) (quantity : asset) (memo : String)
    (hne : from_ ≠ to_) (hauth : from_ ∈ c.auth) (hacc : c.is_account to_ = true)
    {st : currency_stats} (hst : s.stats.lookup quantity.symbol.code = some st)
    (hsym : quantity.symbol = st.supply.symbol) (hpos : 0 < quantity.amount)
    (hmemo : memo.utf8ByteSize ≤ 256) {bf : asset}
    (hbf : s.accounts.lookup (from_, quantity.symbol.code) = some bf)
    (hle : quantity.amount ≤ bf.amount) :
    ∃ s1, transfer c from_ to_ quantity memo s = .ok s1 := by
  have hbfa : balance_of s from_ quantity.symbol.code = bf.amount := by
    simp only [balance_of, amount_at, hbf]
  have hfrom := balance_of_le hi from_ quantity.symbol.code
  have hpair := balance_pair_le hi hne quantity.symbol.code
  have hto := balance_of_le hi to_ quantity.symbol.code
  have hbfs : quantity.symbol = bf.symbol := by
    obtain ⟨st1, hst1, hs1⟩ := hsy _ _ _ hbf
    rw [hst] at hst1
    cases hst1
    rw [hs1, hsym]
  have hvalid : quantity.is_valid = true := by
    have hsv := hso _ _ hst
    rw [← hsym] at hsv
    simp only [asset.is_valid, asset.is_amount_within_range, hsv, Bool.and_true,
      Bool.and_eq_true, decide_eq_true_eq]
    unfold max_amount at *
    omega
  have hk : (to_, quantity.symbol.code) ≠ (from_, quantity.symbol.code) :=
    fun e => hne (congrArg Prod.fst e).symm
  have hsub : sub_balance from_ quantity s = .ok
      { s with
        accounts := s.accounts.insert (from_, quantity.symbol.code)
          ⟨bf.amount - quantity.amount, bf.symbol⟩ } :=
    (sub_balance_iff from_ quantity s _).2
      ⟨bf, hbf, hle, hbfs, by unfold max_amount at *; omega, by omega, rfl⟩
  have hadd : ∃ s1, add_balance to_ quantity (if c.has_auth to_ then to_ else from_)
      { s with
        accounts := s.accounts.insert (from_, quantity.symbol.code)
          ⟨bf.amount - quantity.amount, bf.symbol⟩ } = .ok s1 := by
    cases hbt : s.accounts.lookup (to_, quantity.symbol.code) with
    | none =>
      exact ⟨_, (add_balance_iff to_ quantity _ _ _).2
        (Or.inl ⟨by simp only; rw [Finmap.lookup_insert_of_ne _ hk]; exact hbt, rfl⟩)⟩
    | some bt =>
      have hbta : balance_of s to_ quantity.symbol.code = bt.amount := by
        simp only [balance_of, amount_at, hbt]
      have hbts : quantity.symbol = bt.symbol := by
        obtain ⟨st1, hst1, hs1⟩ := hsy _ _ _ hbt
        rw [hst] at hst1
        cases hst1
        rw [hs1, hsym]
      exact ⟨_, (add_balance_iff to_ quantity _ _ _).2
        (Or.inr ⟨bt, by simp only; rw [Finmap.lookup_insert_of_ne _ hk]; exact hbt, hbts,
          by unfold max_amount at *; omega, by omega, rfl⟩)⟩
  obtain ⟨s1, hadd⟩ := hadd
  exact ⟨s1, (transfer_iff c from_ to_ quantity memo s s1).2
    ⟨hne, hauth, hacc, st, hst, hvalid, hpos, hsym, hmemo, _, hsub, hadd⟩⟩

/-! ## The two settlement paths -/

theorem transfer_det {c1 c2 : Ctx} {from_ to_ : name} {quantity : asset} {m1 m2 : String}
    {s s1 s2 : State} (h1 : transfer c1 from_ to_ quantity m1 s = .ok s1)
    (h2 : transfer c2 from_ to_ quantity m2 s = .ok s2) : s1 = s2 := by
  obtain ⟨-, -, -, -, -, -, bf1, bt1, hbf1, -, -, hs1, ha1, rfl⟩ := transfer_ok h1
  obtain ⟨-, -, -, -, -, -, bf2, bt2, hbf2, -, -, hs2, ha2, rfl⟩ := transfer_ok h2
  rw [hbf1] at hbf2
  cases hbf2
  obtain ⟨a1, y1⟩ := bt1
  obtain ⟨a2, y2⟩ := bt2
  simp only at hs1 ha1 hs2 ha2
  rw [hs1, ha1, hs2, ha2]

theorem refunddef_of_transfer {c : Ctx} {A : name} {u : unstaking} {s s1 : State}
    (hauth : c.self ∈ c.auth) (hu : s.unstaking.lookup A = some u)
    (h : transfer (c.inline felixstaking) felixstaking A u.quantity "unstake"
      { s with unstaking := s.unstaking.erase A } = .ok s1) :
    refunddef c A s = .ok s1 := by
  unfold refunddef
  simp only [Ctx.require_auth, Ctx.has_auth, hauth, decide_True, check_true, hu, bind,
    Except.bind]
  exact h

/-- The transfer queued by a settlement of the pending quantity of `A`
succeeds when the escrow balance covers it. -/
theorem settle_succeeds {s : State} (hi : Inv s) (h2 : Inv2 s) (c : Ctx) {A : name}
    {u : unstaking} (hacc : c.is_account A = true)
    (hu : s.unstaking.lookup A = some u)
    (hcover : u.quantity.amount ≤ free_balance s felixstaking) :
    ∃ s1, transfer (c.inline felixstaking) felixstaking A u.quantity "unstake"
      { s with unstaking := s.unstaking.erase A } = .ok s1 := by
  have hne : A ≠ felixstaking := by
    intro hA
    rw [hA, h2.1.2.2.2.1.2] at hu
    cases hu
  have hus : u.quantity.symbol = felix_symbol := h2.1.1.2.1 A u hu
  have hpos : 0 < u.quantity.amount := hi.2.2.1.2 A u hu
  obtain ⟨st, hst, hsts⟩ := h2.1.2.2.1.2 A u hu
  obtain ⟨hiE, hsyE, hsoE⟩ := frame_ok { s with unstaking := s.unstaking.erase A }
    hi h2 rfl rfl
    ⟨hi.2.2.1.1, Tbl.forall_erase (P := fun u : unstaking => 0 < u.quantity.amount)
      hi.2.2.1.2 A⟩
  cases hbf : s.accounts.lookup (felixstaking, felix_symbol.code) with
  | none =>
    simp only [free_balance, balance_of, amount_at, hbf] at hcover
    omega
  | some bf =>
    simp only [free_balance, balance_of, amount_at, hbf] at hcover
    rw [← hus] at hst hbf
    exact transfer_succeeds hiE hsyE hsoE (c.inline felixstaking) felixstaking A u.quantity
      "unstake" (Ne.symm hne) (List.mem_singleton.2 rfl) hacc hst (by rw [hus, hsts]) hpos
      (by decide) hbf hcover

/-! ## When unstake and restake go through -/

theorem staked_row_le {s : State} (hi : Inv s) (h2 : Inv2 s) {A : name} {r : asset}
    (hr : s.staking.lookup A = some r) :
    0 < r.amount ∧ r.amount ≤ s.totalStake.amount ∧ s.totalStake.amount ≤ max_amount := by
  have h1 := staked_le_sum hi.2.2.1 A
  simp only [staked_of, amount_at, hr] at h1
  exact ⟨hi.2.2.1.1 A r hr, le_trans h1 h2.1.2.1.1, h2.1.2.1.2⟩

/-- On a ledger that satisfies the invariants, an authorised `unstake` of a
positive FLX quantity covered by the staking row succeeds when the pending
quantity stays within `asset::max_amount`. -/
theorem unstake_succeeds {s : State} (hi : Inv s) (h2 : Inv2 s) (c : Ctx) {A : name}
    {q r : asset} (hauth : A ∈ c.auth) (hpos : 0 < q.amount)
    (hqs : q.symbol = felix_symbol) (hr : s.staking.lookup A = some r)
    (hle : q.amount ≤ r.amount) (hroom : pending_of s A + q.amount ≤ max_amount) :
    ∃ s1, unstake c A q s = .ok s1 := by
  obtain ⟨hrp, hrt, htm⟩ := staked_row_le hi h2 hr
  have hrs : r.symbol = felix_symbol := h2.1.1.1 A r hr
  have hts : s.totalStake.symbol = felix_symbol := h2.1.1.2.2
  have hx : ∃ x, (match s.unstaking.lookup A with
      | none => (pure (asset.mk 0 felix_symbol) : Except String asset)
      | some u => (asset.mk 0 felix_symbol).add u.quantity) = .ok x := by
    cases hu : s.unstaking.lookup A with
    | none => exact ⟨_, rfl⟩
    | some u =>
      have hup := hi.2.2.1.2 A u hu
      simp only [pending_of, hu] at hroom
      exact ⟨_, (asset.add_ok_iff _ _ _).2
        ⟨h2.1.1.2.1 A u hu, by simp only; unfold max_amount at *; omega,
          by simp only; omega, rfl⟩⟩
  have hstk : ∃ stk, (if r.amount = q.amount
      then (pure (s.staking.erase A) : Except String (Tbl name asset))
      else r.sub q >>= fun x => pure (s.staking.insert A x)) = .ok stk := by
    by_cases heq : r.amount = q.amount
    · rw [if_pos heq]
      exact ⟨_, rfl⟩
    · rw [if_neg heq]
      refine ⟨s.staking.insert A ⟨r.amount - q.amount, r.symbol⟩, ?_⟩
      rw [bind_ok_iff]
      exact ⟨_, (asset.sub_ok_iff _ _ _).2
        ⟨by rw [hqs, hrs], by unfold max_amount at *; omega, by omega, rfl⟩, rfl⟩
  have hrow : ∃ row, (match s.unstaking.lookup A with
      | none => (pure (unstaking.mk q c.now) : Except String unstaking)
      | some u => u.quantity.add q >>= fun x => pure (unstaking.mk x c.now)) = .ok row := by
    cases hu : s.unstaking.lookup A with
    | none => exact ⟨_, rfl⟩
    | some u =>
      have hup := hi.2.2.1.2 A u hu
      simp only [pending_of, hu] at hroom
      refine ⟨⟨⟨u.quantity.amount + q.amount, u.quantity.symbol⟩, c.now⟩, ?_⟩
      simp only
      rw [bind_ok_iff]
      exact ⟨_, (asset.add_ok_iff _ _ _).2
        ⟨by rw [hqs, h2.1.1.2.1 A u hu], by unfold max_amount at *; omega, hroom, rfl⟩, rfl⟩
  obtain ⟨x, hx⟩ := hx
  obtain ⟨stk, hstk⟩ := hstk
  obtain ⟨row, hrow⟩ := hrow
  exact ⟨_, (unstake_iff c A q s _).2
    ⟨hauth, hpos, ⟨x, hx⟩, r, hr, by rw [hqs, hrs], hle, stk, hstk, row, hrow,
      ⟨s.totalStake.amount - q.amount, s.totalStake.symbol⟩,
      (asset.sub_ok_iff _ _ _).2
        ⟨by rw [hqs, hts], by unfold max_amount at *; omega, by omega, rfl⟩, rfl⟩⟩

theorem require_auth_of_mem {c : Ctx} {n : name} (h : n ∈ c.auth) :
    c.require_auth n = .ok () := by
  simp only [Ctx.require_auth, Ctx.has_auth, h, decide_True, check_true]

theorem check_false (m : String) : check false m = .error m := rfl

theorem asset.ge_of_symbol {a b : asset} (h : a.symbol = b.symbol) :
    a.ge b = .ok (decide (b.amount ≤ a.amount)) :=
  (asset.ge_ok_iff a b _).2 ⟨h, rfl⟩

theorem asset.ge_mismatch {a b : asset} (h : a.symbol ≠ b.symbol) :
    a.ge b = .error "comparison of assets with different symbols is not allowed" := by
  unfold asset.ge
  rw [decide_eq_false h]
  rfl

theorem asset.eq_of_symbol {a b : asset} (h : a.symbol = b.symbol) :
    a.eq b = .ok (decide (a.amount = b.amount)) :=
  (asset.eq_ok_iff a b _).2 ⟨h, rfl⟩

theorem asset.add_overflow {a b : asset} (h1 : b.symbol = a.symbol)
    (h2 : -max_amount ≤ a.amount + b.amount) (h3 : max_amount < a.amount + b.amount) :
    a.add b = .error "addition overflow" := by
  unfold asset.add
  rw [decide_eq_true h1, decide_eq_true h2, decide_eq_false (not_le.2 h3)]
  rfl

/-- The first steps of `unstake` on a ledger that satisfies the invariants:
the authorisation, the sign check and the copy of the pending quantity pass,
and the action continues with the lookup of the staking row. -/
theorem unstake_cases {s : State} (hi : Inv s) (h2 : Inv2 s) (c : Ctx) (A : name) (q : asset)
    (hauth : A ∈ c.auth) (hpos : 0 < q.amount) :
    (s.staking.lookup A = none → unstake c A q s = .error "No staking account")
      ∧ ∀ r, s.staking.lookup A = some r →
        (q.symbol ≠ felix_symbol → unstake c A q s
          = .error "comparison of assets with different symbols is not allowed")
        ∧ (q.symbol = felix_symbol → r.amount < q.amount →
            unstake c A q s = .error "Not enough staked token")
        ∧ (q.symbol = felix_symbol → q.amount ≤ r.amount →
            max_amount < pending_of s A + q.amount →
            unstake c A q s = .error "addition overflow") := by
  have hreq := require_auth_of_mem hauth
  have hchk : check (decide (q.amount > 0)) "Unstake must positive value" = .ok () := by
    rw [decide_eq_true (show q.amount > 0 from hpos)]
    rfl
  have hfirst : ∀ u, s.unstaking.lookup A = some u →
      (asset.mk 0 felix_symbol).add u.quantity = .ok ⟨0 + u.quantity.amount, felix_symbol⟩ := by
    intro u hu
    have h3 := hi.2.2.1.2 A u hu
    have h4 := h2.1.2.2.2.2 A u hu
    exact (asset.add_ok_iff _ _ _).2
      ⟨h2.1.1.2.1 A u hu, by simp only; unfold max_amount at *; omega, by simp only; omega, rfl⟩
  refine ⟨?_, ?_⟩
  · intro hnone
    unfold unstake
    cases hu : s.unstaking.lookup A with
    | none => simp only [hreq, hchk, hnone, bind, Except.bind, pure, Except.pure]
    | some u =>
      simp only [hreq, hchk, hnone, hfirst u hu, bind, Except.bind, pure, Except.pure]
  · intro r hr
    have hrs : r.symbol = felix_symbol := h2.1.1.1 A r hr
    obtain ⟨hrp, hrt, htm⟩ := staked_row_le hi h2 hr
    refine ⟨?_, ?_, ?_⟩
    · intro hne
      have hge := asset.ge_mismatch (a := r) (b := q) (by rw [hrs]; exact Ne.symm hne)
      unfold unstake
      cases hu : s.unstaking.lookup A with
      | none => simp only [hreq, hchk, hr, hge, bind, Except.bind, pure, Except.pure]
      | some u =>
        simp only [hreq, hchk, hr, hge, hfirst u hu, bind, Except.bind, pure, Except.pure]
    · intro hqs hlt
      have hge := asset.ge_of_symbol (a := r) (b := q) (by rw [hrs, hqs])
      rw [decide_eq_false (not_le.2 hlt)] at hge
      unfold unstake
      cases hu : s.unstaking.lookup A with
      | none =>
        simp only [hreq, hchk, hr, hge, check_false, bind, Except.bind, pure, Except.pure]
      | some u =>
        simp only [hreq, hchk, hr, hge, check_false, hfirst u hu, bind, Except.bind, pure,
          Except.pure]
    · intro hqs hle hov
      have hge := asset.ge_of_symbol (a := r) (b := q) (by rw [hrs, hqs])
      rw [decide_eq_true hle] at hge
      have heq := asset.eq_of_symbol (a := r) (b := q) (by rw [hrs, hqs])
      cases hu : s.unstaking.lookup A with
      | none =>
        simp only [pending_of, hu] at hov
        omega
      | some u =>
        simp only [pending_of, hu] at hov
        have hup := hi.2.2.1.2 A u hu
        have hadd := asset.add_overflow (a := u.quantity) (b := q)
          (by rw [hqs, h2.1.1.2.1 A u hu]) (by unfold max_amount at *; omega) hov
        unfold unstake
        by_cases hall : r.amount = q.amount
        · rw [decide_eq_true hall] at heq
          simp only [hreq, hchk, hr, hge, heq, hu, hadd, hfirst u hu, check_true, if_true,
            bind, Except.bind, pure, Except.pure]
        · rw [decide_eq_false hall] at heq
          have hsub : r.sub q = .ok ⟨r.amount - q.amount, r.symbol⟩ :=
            (asset.sub_ok_iff _ _ _).2
              ⟨by rw [hqs, hrs], by unfold max_amount at *; omega, by omega, rfl⟩
          simp only [hreq, hchk, hr, hge, heq, hu, hadd, hsub, hfirst u hu, check_true,
            Bool.false_eq_true, if_false, bind, Except.bind, pure, Except.pure]

/-! ## Escrow solvency -/

theorem pending_sum_insert (s : State) (a : name) (row : unstaking) :
    Tbl.sum (s.unstaking.insert a row) (fun _ u => u.quantity.amount)
      = pending_sum s + (row.quantity.amount - pending_of s a) := by
  simp only [pending_sum, pending_of, Tbl.sum_insert]
  cases s.unstaking.lookup a <;> simp only <;> ring

theorem pending_sum_erase (s : State) (a : name) :
    Tbl.sum (s.unstaking.erase a) (fun _ u => u.quantity.amount)
      = pending_sum s - pending_of s a := by
  simp only [pending_sum, pending_of, Tbl.sum_erase]
  cases s.unstaking.lookup a <;> rfl

theorem solvent_of_le {s s1 : State} (hs : solvent s)
    (h : staked_sum s1 + pending_sum s1 - free_balance s1 felixstaking
      ≤ staked_sum s + pending_sum s - free_balance s felixstaking) : solvent s1 := by
  unfold solvent at *
  omega

theorem no_escrow_issuer_of_eq {s s1 : State} (hs : no_escrow_issuer s)
    (h : s1.stats = s.stats) : no_escrow_issuer s1 := by
  simpa only [no_escrow_issuer, h] using hs

theorem solvent_frame {s s1 : State} (hs : solvent s) (h1 : s1.staking = s.staking)
    (h2 : s1.unstaking = s.unstaking)
    (h3 : free_balance s felixstaking ≤ free_balance s1 felixstaking) : solvent s1 := by
  unfold solvent at *
  simp only [staked_sum, pending_sum, h1, h2] at *
  omega

theorem solvent_token {c : Ctx} {call : Call} {s s1 : State} (hs : solvent s)
    (hiss : no_escrow_issuer s) (hcall : call.is_token = true)
    (hpass : call.escrow_passive = true) (h : call.apply c s = .ok s1) :
    solvent s1 ∧ no_escrow_issuer s1 := by
  obtain ⟨f1, f2, -, -⟩ := apply_token_frame hcall h
  cases call with
  | create issuer maximum_supply =>
    obtain ⟨-, -, -, -, rfl⟩ := create_ok h
    refine ⟨solvent_frame hs rfl rfl (le_refl _), ?_⟩
    intro code st hst
    rcases Tbl.lookup_insert_cases hst with ⟨-, rfl⟩ | ⟨-, hold⟩
    · simpa [Call.escrow_passive] using hpass
    · exact hiss code st hold
  | issue to_ quantity memo =>
    obtain ⟨st, hst, -, -, -, -, -, hadd⟩ := issue_ok h
    obtain ⟨b, rfl, -, -⟩ := add_balance_ok hadd
    have hne := hiss _ _ hst
    refine ⟨solvent_frame hs rfl rfl ?_, ?_⟩
    · simp only [free_balance, balance_of]
      rw [amount_at_insert, if_neg (fun e => hne (congrArg Prod.fst e).symm)]
    · intro code st1 hst1
      rcases Tbl.lookup_insert_cases hst1 with ⟨-, rfl⟩ | ⟨-, hold⟩
      · exact hne
      · exact hiss code st1 hold
  | retire quantity memo =>
    obtain ⟨st, hst, -, -, -, hsub⟩ := retire_ok h
    obtain ⟨bal, -, -, -, rfl⟩ := sub_balance_ok hsub
    have hne := hiss _ _ hst
    refine ⟨solvent_frame hs rfl rfl ?_, ?_⟩
    · simp only [free_balance, balance_of]
      rw [amount_at_insert, if_neg (fun e => hne (congrArg Prod.fst e).symm)]
    · intro code st1 hst1
      rcases Tbl.lookup_insert_cases hst1 with ⟨-, rfl⟩ | ⟨-, hold⟩
      · exact hne
      · exact hiss code st1 hold
  | transfer from_ to_ quantity memo =>
    obtain ⟨e1, -, -, -, -, -, -, hbal⟩ := transfer_effect h
    obtain ⟨-, -, -, -, hpos, -⟩ := transfer_ok h
    have hfrom : felixstaking ≠ from_ := by
      simp only [Call.escrow_passive, decide_eq_true_eq] at hpass
      exact Ne.symm hpass
    refine ⟨solvent_frame hs f1 f2 ?_, no_escrow_issuer_of_eq hiss e1⟩
    have hb := hbal felixstaking felix_symbol.code
    rw [if_neg (fun e : felixstaking = from_ ∧ felix_symbol.code = quantity.symbol.code =>
      hfrom e.1)] at hb
    simp only [free_balance]
    rw [hb]
    split <;> omega
  | open_ owner sym ram_payer =>
    rcases open_ok h with rfl | ⟨hnone, rfl⟩
    · exact ⟨hs, hiss⟩
    · refine ⟨solvent_frame hs rfl rfl ?_, no_escrow_issuer_of_eq hiss rfl⟩
      simp only [free_balance, balance_of]
      rw [amount_at_insert]
      split
      · rename_i hk
        rw [hk]
        simp only [amount_at, hnone]
        exact le_refl _
      · exact le_refl _
  | close owner sym =>
    obtain ⟨bal, hbal, hzero, rfl⟩ := close_ok h
    refine ⟨solvent_frame hs rfl rfl ?_, no_escrow_issuer_of_eq hiss rfl⟩
    simp only [free_balance, balance_of]
    rw [amount_at_erase]
    split
    · rename_i hk
      rw [hk]
      simp only [amount_at, hbal, hzero]
      exact le_refl _
    · exact le_refl _
  | _ => simp [Call.is_token] at hcall

theorem solvent_settle {c : Ctx} {A : name} {u : unstaking} {s s1 : State} (h2 : Inv2 s)
    (hs : solvent s) (hiss : no_escrow_issuer s) (hu : s.unstaking.lookup A = some u)
    (h : transfer (c.inline felixstaking) felixstaking A u.quantity "unstake"
      { s with unstaking := s.unstaking.erase A } = .ok s1) :
    solvent s1 ∧ no_escrow_issuer s1 := by
  obtain ⟨hne, e1, e2, -, e4, -, hbal⟩ := settle_effect h
  have hcode : u.quantity.symbol.code = felix_symbol.code := by rw [h2.1.1.2.1 A u hu]
  refine ⟨solvent_of_le hs ?_, no_escrow_issuer_of_eq hiss e4⟩
  simp only [free_balance, staked_sum, pending_sum, e1, e2]
  rw [hbal felixstaking felix_symbol.code, if_neg (fun e => hne e.1.symm),
    if_pos ⟨rfl, hcode.symm⟩, pending_sum_erase]
  simp only [pending_of, hu, pending_sum, staked_sum]
  omega

theorem solvent_apply {c : Ctx} {call : Call} {s s1 : State} (hi : Inv s) (h2 : Inv2 s)
    (hs : solvent s) (hiss : no_escrow_issuer s) (hpass : call.escrow_passive = true)
    (h : call.apply c s = .ok s1) : solvent s1 ∧ no_escrow_issuer s1 := by
  cases call with
  | create issuer maximum_supply => exact solvent_token hs hiss (by rfl) hpass h
  | issue to_ quantity memo => exact solvent_token hs hiss (by rfl) hpass h
  | retire quantity memo => exact solvent_token hs hiss (by rfl) hpass h
  | transfer from_ to_ quantity memo => exact solvent_token hs hiss (by rfl) hpass h
  | open_ owner sym ram_payer => exact solvent_token hs hiss (by rfl) hpass h
  | close owner sym => exact solvent_token hs hiss (by rfl) hpass h
  | stake account quantity =>
    obtain ⟨hne, -, -, -, ⟨row, hstk, hamt, -, -⟩, -, hbal, hst, hun, -⟩ := stake_effect h
    refine ⟨solvent_of_le hs ?_, no_escrow_issuer_of_eq hiss hst⟩
    simp only [staked_sum, pending_sum, staked_of] at hamt ⊢
    rw [hstk, hun, staked_sum_insert, hbal felixstaking, if_pos rfl, if_neg (Ne.symm hne)]
    omega
  | unstake account quantity =>
    obtain ⟨-, -, staked, hst, -, -, -, -, row, hrow, -, -, rfl⟩ := unstake_ok h
    refine ⟨solvent_of_le hs ?_, no_escrow_issuer_of_eq hiss rfl⟩
    have hsa : amount_at s.staking account = staked.amount := by
      simp only [amount_at, hst]
    simp only [free_balance, balance_of, staked_sum]
    have hp : pending_sum
        { s with
          staking := if staked.amount = quantity.amount then s.staking.erase account
            else s.staking.insert account ⟨staked.amount - quantity.amount, staked.symbol⟩,
          unstaking := s.unstaking.insert account row,
          totalStake := ⟨s.totalStake.amount - quantity.amount, s.totalStake.symbol⟩,
          deferred := (s.deferred.erase account).insert account ⟨refund_delay_sec, account⟩ }
        = pending_sum s + quantity.amount := by
      show Tbl.sum (s.unstaking.insert account row) (fun _ u => u.quantity.amount) = _
      rw [pending_sum_insert, hrow]
      ring
    rw [hp]
    split
    · rw [staked_sum_erase]
      omega
    · rw [staked_sum_insert]
      simp only
      omega
  | restake account =>
    obtain ⟨-, u, hu, -, -, row, hamt, -, -, rfl⟩ := restake_ok h
    refine ⟨solvent_of_le hs ?_, no_escrow_issuer_of_eq hiss rfl⟩
    have hp : pending_sum
        { s with
          staking := s.staking.insert account row,
          totalStake := ⟨s.totalStake.amount + u.quantity.amount, s.totalStake.symbol⟩,
          unstaking := s.unstaking.erase account }
        = pending_sum s - u.quantity.amount := by
      show Tbl.sum (s.unstaking.erase account) (fun _ u => u.quantity.amount) = _
      rw [pending_sum_erase]
      simp only [pending_of, hu]
    rw [hp]
    simp only [free_balance, balance_of, staked_sum, staked_of] at hamt ⊢
    rw [staked_sum_insert]
    omega
  | refunddef account =>
    obtain ⟨-, u, hu, htr⟩ := refunddef_ok h
    exact solvent_settle h2 hs hiss hu htr
  | refund account =>
    obtain ⟨-, u, hu, -, htr⟩ := refund_ok h
    exact solvent_settle h2 hs hiss hu htr
  | banish account =>
    obtain ⟨-, s2, hs2, htr, hnone⟩ := banish_ok h
    have hpn := pending_of_nonneg hi.2.2.1 account
    have h2s : staked_sum s2 = staked_sum s - staked_of s account := by
      rw [hs2]
      simp only [staked_sum, staked_of]
      rw [staked_sum_erase]
    have h2p : pending_sum s2 = pending_sum s - pending_of s account := by
      rw [hs2]
      exact pending_sum_erase s account
    have h2b : free_balance s2 felixstaking = free_balance s felixstaking := by
      rw [hs2]
      rfl
    have h2t : s2.stats = s.stats := by rw [hs2]
    cases hq : s.staking.lookup account with
    | none =>
      rw [hnone hq]
      refine ⟨solvent_of_le hs ?_, no_escrow_issuer_of_eq hiss h2t⟩
      have : staked_of s account = 0 := by simp only [staked_of, amount_at, hq]
      omega
    | some q =>
      obtain ⟨e1, e2, e3, -, -, -, -, hbal⟩ := transfer_effect (htr q hq)
      have hcode : q.symbol.code = felix_symbol.code := by rw [h2.1.1.1 account q hq]
      have hsq : staked_of s account = q.amount := by simp only [staked_of, amount_at, hq]
      refine ⟨solvent_of_le hs ?_, no_escrow_issuer_of_eq hiss (e1.trans h2t)⟩
      have hb := hbal felixstaking felix_symbol.code
      rw [if_neg (fun e => absurd e.1 (by decide)), if_pos ⟨rfl, hcode.symm⟩] at hb
      have hs1 : staked_sum s1 = staked_sum s2 := by simp only [staked_sum, e2]
      have hp1 : pending_sum s1 = pending_sum s2 := by simp only [pending_sum, e3]
      simp only [free_balance] at h2b ⊢
      rw [hs1, hp1, hb, h2s, h2p]
      omega
  | recalc =>
    obtain ⟨-, rfl⟩ := recalc_ok h
    exact ⟨hs, hiss⟩

theorem solvent_run (calls : List (Ctx × Call)) :
    ∀ {s : State}, Inv s → Inv2 s → solvent s → no_escrow_issuer s →
      (∀ x ∈ calls, x.2.escrow_passive = true) →
      solvent (run calls s) ∧ no_escrow_issuer (run calls s) := by
  induction calls with
  | nil => intro s _ _ hs hiss _; exact ⟨hs, hiss⟩
  | cons x xs ih =>
    intro s hi h2 hs hiss hcalls
    have hstep : solvent (exec x.1 x.2 s) ∧ no_escrow_issuer (exec x.1 x.2 s) := by
      unfold felix.exec
      split
      · rename_i s1 h
        exact solvent_apply hi h2 hs hiss (hcalls x (List.mem_cons_self _ _)) h
      · exact ⟨hs, hiss⟩
    exact ih hi.exec (Inv2_exec hi h2) hstep.1 hstep.2
      (fun y hy => hcalls y (List.mem_cons_of_mem _ hy))

theorem solvent_empty : solvent State.empty ∧ no_escrow_issuer State.empty := by
  refine ⟨by unfold solvent; decide, ?_⟩
  intro code st hst
  simp [State.empty, Finmap.lookup_empty] at hst

/-! ## Why a transfer aborts -/

theorem check_error_iff (p : Bool) (m e : String) :
    check p m = .error e ↔ p = false ∧ m = e := by
  cases p <;> simp [check]

theorem bind_error_iff {α β : Type} (x : Except String α) (f : α → Except String β)
    (e : String) :
    (x >>= f) = .error e ↔ x = .error e ∨ ∃ a, x = .ok a ∧ f a = .error e := by
  cases x with
  | error e1 => simp [bind, Except.bind]
  | ok a => simp [bind, Except.bind]

theorem sub_balance_short {owner : name} {value : asset} {s : State} {e : String}
    (h : sub_balance owner value s = .error e)
    (he : e = "overdrawn balance" ∨ e = "no balance object found") :
    balance_of s owner value.symbol.code < value.amount
      ∨ s.accounts.lookup (owner, value.symbol.code) = none := by
  unfold sub_balance at h
  cases hb : s.accounts.lookup (owner, value.symbol.code) with
  | none => exact Or.inr rfl
  | some bal =>
    left
    simp only [hb, bind_error_iff, check_error_iff, asset.sub, decide_eq_false_iff_not,
      bind_ok_iff, check_ok_iff, exists_const, pure, Except.pure] at h
    simp only [balance_of, amount_at, hb]
    rcases he with rfl | rfl
    · simp at h
      omega
    · simp at h

theorem add_balance_short {owner : name} {value : asset} {p : name} {s : State} {e : String}
    (h : add_balance owner value p s = .error e)
    (he : e = "overdrawn balance" ∨ e = "no balance object found") : False := by
  unfold add_balance at h
  cases hb : s.accounts.lookup (owner, value.symbol.code) with
  | none =>
    rw [hb] at h
    cases h
  | some bal =>
    simp only [hb, bind_error_iff, check_error_iff, asset.add, decide_eq_false_iff_not,
      bind_ok_iff, check_ok_iff, exists_const, pure, Except.pure] at h
    rcases he with rfl | rfl <;> simp at h

/-- A transfer that aborts with "overdrawn balance" or "no balance object
found" has a sender whose balance does not cover the quantity. -/
theorem transfer_short {c : Ctx} {from_ to_ : name} {quantity : asset} {memo : String}
    {s : State} {e : String} (h : transfer c from_ to_ quantity memo s = .error e)
    (he : e = "overdrawn balance" ∨ e = "no balance object found") :
    balance_of s from_ quantity.symbol.code < quantity.amount
      ∨ s.accounts.lookup (from_, quantity.symbol.code) = none := by
  unfold transfer at h
  simp only [bind_error_iff, check_error_iff, Ctx.require_auth] at h
  rcases h with ⟨-, rfl⟩ | ⟨-, -, h⟩
  · simp at he
  rcases h with ⟨-, rfl⟩ | ⟨-, -, h⟩
  · simp at he
  rcases h with ⟨-, rfl⟩ | ⟨-, -, h⟩
  · simp at he
  split at h
  · cases h
    simp at he
  simp only [bind_error_iff, check_error_iff] at h
  rcases h with ⟨-, rfl⟩ | ⟨-, -, h⟩
  · simp at he
  rcases h with ⟨-, rfl⟩ | ⟨-, -, h⟩
  · simp at he
  rcases h with ⟨-, rfl⟩ | ⟨-, -, h⟩
  · simp at he
  rcases h with ⟨-, rfl⟩ | ⟨-, -, h⟩
  · simp at he
  rcases h with h | ⟨s0, -, h⟩
  · exact sub_balance_short h he
  · exact (add_balance_short h he).elim

/-- On a solvent ledger the escrow balance covers every unstaking row and
every staking row. -/
theorem escrow_covers {s : State} (hi : Inv s) (h2 : Inv2 s) (hs : solvent s) {q : asset}
    (hq : (∃ A u, s.unstaking.lookup A = some u ∧ u.quantity = q)
      ∨ ∃ A, s.staking.lookup A = some q) :
    ¬ (amount_at s.accounts (felixstaking, q.symbol.code) < q.amount
      ∨ s.accounts.lookup (felixstaking, q.symbol.code) = none) := by
  have h0 := staked_sum_nonneg hi.2.2.1
  have h1 := pending_sum_nonneg hi.2.2.1
  unfold solvent at hs
  have hq2 : q.symbol = felix_symbol ∧ 0 < q.amount ∧ q.amount ≤ free_balance s felixstaking := by
    rcases hq with ⟨A, u, hu, rfl⟩ | ⟨A, hst⟩
    · have := pending_le_sum hi.2.2.1 A
      simp only [pending_of, hu] at this
      exact ⟨h2.1.1.2.1 A u hu, hi.2.2.1.2 A u hu, by omega⟩
    · have := staked_le_sum hi.2.2.1 A
      simp only [staked_of, amount_at, hst] at this
      exact ⟨h2.1.1.1 A q hst, hi.2.2.1.1 A q hst, by omega⟩
  obtain ⟨hsym, hpos, hle⟩ := hq2
  rw [hsym]
  simp only [free_balance, balance_of] at hle
  rintro (h | h)
  · omega
  · simp only [amount_at, h] at hle
    omega

theorem settle_not_short {c : Ctx} {A : name} {s : State} {e : String} (hi : Inv s)
    (h2 : Inv2 s) (hs : solvent s)
    (h : refund c A s = .error e ∨ refunddef c A s = .error e) :
    e ≠ "overdrawn balance" ∧ e ≠ "no balance object found" := by
  have key : ¬ (e = "overdrawn balance" ∨ e = "no balance object found") := by
    intro he
    rcases h with h | h
    · unfold refund _refund at h
      simp only [bind_error_iff, check_error_iff, Ctx.require_auth] at h
      rcases h with ⟨-, rfl⟩ | ⟨-, -, h⟩
      · simp at he
      split at h
      · cases h
        simp at he
      rename_i u hu
      simp only [bind_error_iff, check_error_iff] at h
      rcases h with ⟨-, rfl⟩ | ⟨-, -, h⟩
      · simp at he
      have hshort := transfer_short h he
      simp only [balance_of] at hshort
      exact escrow_covers hi h2 hs (Or.inl ⟨A, u, hu, rfl⟩) hshort
    · unfold refunddef at h
      simp only [bind_error_iff, check_error_iff, Ctx.require_auth] at h
      rcases h with ⟨-, rfl⟩ | ⟨-, -, h⟩
      · simp at he
      split at h
      · cases h
        simp at he
      rename_i u hu
      have hshort := transfer_short h he
      simp only [balance_of] at hshort
      exact escrow_covers hi h2 hs (Or.inl ⟨A, u, hu, rfl⟩) hshort
  exact ⟨fun h => key (Or.inl h), fun h => key (Or.inr h)⟩

theorem banish_not_short {c : Ctx} {A : name} {s : State} {e : String} (hi : Inv s)
    (h2 : Inv2 s) (hs : solvent s) (h : banish c A s = .error e) :
    e ≠ "overdrawn balance" ∧ e ≠ "no balance object found" := by
  have key : ¬ (e = "overdrawn balance" ∨ e = "no balance object found") := by
    intro he
    unfold banish at h
    rw [bind_error_iff] at h
    rcases h with h | ⟨-, -, h⟩
    · simp only [Ctx.require_auth, check_error_iff] at h
      obtain ⟨-, rfl⟩ := h
      simp at he
    rw [bind_error_iff] at h
    rcases h with h | ⟨sa, hsa, h⟩
    · cases hq : s.staking.lookup A with
      | none =>
        rw [hq] at h
        cases h
      | some q =>
        simp only [hq, bind_error_iff, asset.sub, check_error_iff, bind_ok_iff, check_ok_iff,
          pure, Except.pure, exists_const] at h
        rcases he with rfl | rfl <;> simp at h
    have hsa_acc : sa.accounts = s.accounts := by
      cases hq : s.staking.lookup A with
      | none =>
        rw [hq] at hsa
        simp only [pure, Except.pure, Except.ok.injEq] at hsa
        subst hsa
        rfl
      | some q =>
        simp only [hq, bind_ok_iff, asset.sub_ok_iff, pure, Except.pure, Except.ok.injEq] at hsa
        obtain ⟨total, -, rfl⟩ := hsa
        rfl
    rw [bind_error_iff] at h
    rcases h with h | ⟨sb, hsb, h⟩
    · cases hu : sa.unstaking.lookup A with
      | none =>
        rw [hu] at h
        cases h
      | some u =>
        simp only [hu, bind_error_iff, asset.add, check_error_iff, bind_ok_iff, check_ok_iff,
          pure, Except.pure, exists_const] at h
        rcases he with rfl | rfl <;> simp at h
    have hsb_acc : sb.accounts = sa.accounts := by
      cases hu : sa.unstaking.lookup A with
      | none =>
        rw [hu] at hsb
        simp only [pure, Except.pure, Except.ok.injEq] at hsb
        subst hsb
        rfl
      | some u =>
        simp only [hu, bind_ok_iff, asset.add_ok_iff, pure, Except.pure, Except.ok.injEq] at hsb
        obtain ⟨total, -, rfl⟩ := hsb
        rfl
    cases hq : s.staking.lookup A with
    | none =>
      rw [hq] at h
      cases h
    | some q =>
      simp only [hq] at h
      have hshort := transfer_short h he
      simp only [balance_of, hsb_acc, hsa_acc] at hshort
      exact escrow_covers hi h2 hs (Or.inr ⟨A, hq⟩) hshort
  exact ⟨fun h => key (Or.inl h), fun h => key (Or.inr h)⟩


/-! ## The range of a stake -/

/-- A stake that succeeds leaves the staking row, the aggregate and the
escrow balance within `asset::max_amount`. -/
theorem stake_in_range {c : Ctx} {A : name} {q : asset} {s s1 : State}
    (hA : A ≠ felixstaking) (h : stake c A q s = .ok s1) :
    staked_of s A + q.amount ≤ max_amount
      ∧ s.totalStake.amount + q.amount ≤ max_amount
      ∧ free_balance s felixstaking + q.amount ≤ max_amount := by
  obtain ⟨-, -, hsym, row, hrow, total, htot, htr⟩ := (stake_iff c A q s s1).1 h
  obtain ⟨-, -, -, st, -, hvalid, -, -, -, s0, hsub, hadd⟩ :=
    (transfer_iff _ _ _ _ _ _ _).1 htr
  have hq : q.amount ≤ max_amount := by
    simp only [asset.is_valid, asset.is_amount_within_range, Bool.and_eq_true,
      decide_eq_true_eq] at hvalid
    exact hvalid.1.2
  refine ⟨?_, ?_, ?_⟩
  · cases hl : s.staking.lookup A with
    | none =>
      simp only [staked_of, amount_at, hl, zero_add]
      exact hq
    | some q0 =>
      rw [hl] at hrow
      obtain ⟨-, -, h3, -⟩ := (asset.add_ok_iff _ _ _).1 hrow
      simp only [staked_of, amount_at, hl]
      exact h3
  · obtain ⟨-, -, h3, -⟩ := (asset.add_ok_iff _ _ _).1 htot
    exact h3
  · obtain ⟨bal, -, -, -, -, -, rfl⟩ := (sub_balance_iff _ _ _ _).1 hsub
    have hk : (felixstaking, q.symbol.code) ≠ (A, q.symbol.code) :=
      fun e => hA (congrArg Prod.fst e).symm
    have hcode : q.symbol.code = felix_symbol.code := by rw [hsym]
    rcases (add_balance_iff _ _ _ _ _).1 hadd with ⟨hnone, -⟩ | ⟨b, hb, -, -, h3, -⟩
    · simp only at hnone
      rw [Finmap.lookup_insert_of_ne _ hk, hcode] at hnone
      simp only [free_balance, balance_of, amount_at, hnone, zero_add]
      exact hq
    · simp only at hb
      rw [Finmap.lookup_insert_of_ne _ hk, hcode] at hb
      simp only [free_balance, balance_of, amount_at, hb]
      exact h3


/-! ## Binary64 values of integers -/

theorem bit_length_loop_zero (fuel : Nat) : bit_length_loop fuel 0 = 0 := by
  cases fuel <;> rfl

theorem bit_length_loop_spec : ∀ (fuel n : Nat), n ≤ fuel → 0 < n →
    2 ^ (bit_length_loop fuel n - 1) ≤ n ∧ 0 < bit_length_loop fuel n := by
  intro fuel
  induction fuel with
  | zero => intro n h1 h2; omega
  | succ fuel ih =>
    intro n h1 h2
    have hn : n ≠ 0 := by omega
    simp only [bit_length_loop, if_neg hn, Nat.add_sub_cancel, Nat.succ_pos, and_true]
    by_cases h0 : n / 2 = 0
    · rw [h0, bit_length_loop_zero]
      simpa using h2
    · have hle : n / 2 ≤ fuel := by omega
      obtain ⟨h3, h4⟩ := ih (n / 2) hle (by omega)
      have h5 : 2 ^ bit_length_loop fuel (n / 2)
          = 2 * 2 ^ (bit_length_loop fuel (n / 2) - 1) := by
        rw [← Nat.pow_succ']
        congr 1
        omega
      rw [h5]
      omega

theorem bit_length_spec {n : Nat} (h : 0 < n) :
    2 ^ (bit_length n - 1) ≤ n ∧ 0 < bit_length n :=
  bit_length_loop_spec n n (le_refl n) h

/-- The significand of the double of a non-zero integer is not zero. -/
theorem f64.of_int_ne_zero {i : Int} (h : i ≠ 0) : (f64.of_int i).m ≠ 0 := by
  have ha : 0 < i.natAbs := Int.natAbs_pos.2 h
  obtain ⟨hla, hla0⟩ := bit_length_spec ha
  have hq : ∀ q : Nat, 0 < q → 0 < q / 2 ^ (bit_length q - 53) := by
    intro q hq
    obtain ⟨h1, h2⟩ := bit_length_spec hq
    apply Nat.div_pos _ (by positivity)
    exact le_trans (Nat.pow_le_pow_right (by decide) (by omega)) h1
  have hquot : 0 < i.natAbs * 2 ^ ((54 : Int) - (bit_length i.natAbs : Int)
        + (bit_length 1 : Int)).toNat
      / (1 * 2 ^ (-((54 : Int) - (bit_length i.natAbs : Int) + (bit_length 1 : Int))).toNat) := by
    have hb1 : bit_length 1 = 1 := by decide
    rw [hb1]
    apply Nat.div_pos _ (by positivity)
    rw [one_mul]
    by_cases hs : (54 : Int) - (bit_length i.natAbs : Int) + ((1 : Nat) : Int) ≥ 0
    · have : (-((54 : Int) - (bit_length i.natAbs : Int) + ((1 : Nat) : Int))).toNat = 0 := by
        omega
      rw [this, pow_zero]
      exact Nat.one_le_iff_ne_zero.2 (by positivity)
    · have h1 : ((54 : Int) - (bit_length i.natAbs : Int) + ((1 : Nat) : Int)).toNat = 0 := by
        omega
      rw [h1, pow_zero, mul_one]
      refine le_trans (Nat.pow_le_pow_right (by decide) ?_) hla
      omega
  have hm0 := hq _ hquot
  unfold f64.of_int f64.round
  rw [if_neg h]
  simp only
  split <;> split <;> omega

/-! ## The dividend -/

theorem eos_symbol_valid : eos_symbol.is_valid = true := by decide

theorem f64.of_int_zero : f64.of_int 0 = ⟨0, 0⟩ := rfl

theorem binary64_payout_zero_total (b s : Int) : binary64_payout b s 0 = none := by
  simp only [binary64_payout, f64.of_int_zero, f64.div, if_true, Option.map_none']

/-- What `dividend` does once the staking row is found, in terms of the
rounded quotient. -/
theorem dividend_of_ratio {c : Ctx} {A : name} {b T : asset} {s : State} {st : asset}
    (hauth : c.self ∈ c.auth) (hst : s.staking.lookup A = some st) :
    dividend c A b T s
      = (match f64.div (f64.of_int st.amount) (f64.of_int T.amount) with
        | none => .error "magnitude of asset amount must be less than 2^62"
        | some ratio =>
          if -max_amount ≤ f64.to_int64 (f64.mul (f64.of_int b.amount) ratio)
              ∧ f64.to_int64 (f64.mul (f64.of_int b.amount) ratio) ≤ max_amount then
            (if 0 < f64.to_int64 (f64.mul (f64.of_int b.amount) ratio) then
              .ok (s, [⟨eosio_token, felixfunding, A,
                ⟨f64.to_int64 (f64.mul (f64.of_int b.amount) ratio), eos_symbol⟩, "dividend"⟩])
            else .ok (s, []))
          else .error "magnitude of asset amount must be less than 2^62") := by
  unfold dividend
  rw [require_auth_of_mem hauth]
  show (match s.staking.lookup A with | none => _ | some staked => _) = _
  rw [hst]
  simp only [gt_iff_lt]
  generalize f64.div (f64.of_int st.amount) (f64.of_int T.amount) = r
  cases r with
  | none => rfl
  | some ratio =>
    simp only [eos_symbol_valid, check_true]
    generalize f64.to_int64 (f64.mul (f64.of_int b.amount) ratio) = p
    by_cases hr : -max_amount ≤ p ∧ p ≤ max_amount
    · have hc : asset.is_amount_within_range ⟨p, eos_symbol⟩ = true := by
        simp only [asset.is_amount_within_range, decide_eq_true hr]
      rw [if_pos hr, hc, check_true]
      rfl
    · have hc : asset.is_amount_within_range ⟨p, eos_symbol⟩ = false := by
        simp only [asset.is_amount_within_range, decide_eq_false hr]
      rw [if_neg hr, hc, check_false]
      rfl

set_option maxRecDepth 8000 in
theorem binary64_payout_third : binary64_payout 100 150 300 = some 50 := by decide

set_option maxRecDepth 8000 in
theorem binary64_payout_short : binary64_payout 49 150 7350 = some 0 := by decide

set_option maxRecDepth 8000 in
theorem binary64_payout_large :
    binary64_payout 2305843009213693952 150 75 = some 4611686018427387904 := by decide

theorem exact_payout_short : exact_payout 49 150 7350 = 1 := by
  unfold exact_payout
  rw [Int.floor_eq_iff]
  norm_num

/-- The outcome of `dividend` in terms of the payout. -/
theorem dividend_of_payout {c : Ctx} {A : name} {b T : asset} {s : State} {st : asset}
    (hauth : c.self ∈ c.auth) (hst : s.staking.lookup A = some st) :
    (binary64_payout b.amount st.amount T.amount = none →
        dividend c A b T s = .error "magnitude of asset amount must be less than 2^62")
      ∧ ∀ p, binary64_payout b.amount st.amount T.amount = some p →
          dividend c A b T s
            = if -max_amount ≤ p ∧ p ≤ max_amount then
                (if 0 < p then
                  .ok (s, [⟨eosio_token, felixfunding, A, ⟨p, eos_symbol⟩, "dividend"⟩])
                else .ok (s, []))
              else .error "magnitude of asset amount must be less than 2^62" := by
  rw [dividend_of_ratio hauth hst]
  unfold binary64_payout
  cases f64.div (f64.of_int st.amount) (f64.of_int T.amount) with
  | none =>
    refine ⟨fun _ => rfl, fun p hp => ?_⟩
    simp only [Option.map_none'] at hp
    cases hp
  | some ratio =>
    refine ⟨fun h => ?_, fun p hp => ?_⟩
    · simp only [Option.map_some'] at h
      cases h
    · simp only [Option.map_some', Option.some.injEq] at hp
      subst hp
      rfl

theorem exact_payout_large :
    exact_payout 2305843009213693952 150 75 = 4611686018427387904 := by
  unfold exact_payout
  rw [Int.floor_eq_iff]
  norm_num

/-- The payout is defined exactly when the total amount is not zero. -/
theorem binary64_payout_none_iff (b s T : Int) : binary64_payout b s T = none ↔ T = 0 := by
  constructor
  · intro h
    by_contra hT
    unfold binary64_payout f64.div at h
    rw [if_neg (f64.of_int_ne_zero hT)] at h
    simp only [Option.map_some'] at h
    cases h
  · rintro rfl
    exact binary64_payout_zero_total b s

/-! ## C1: conservation -/

/-- C1. In every state reached from the empty ledger by a sequence of
`create`, `issue`, `retire`, `transfer`, `open` and `close` calls, each of
which succeeds or aborts without effect, the supply stored in the row of a
currency in `stat` equals the sum of the amounts of all balance rows of that
currency. -/
theorem conservation (calls : List (Ctx × Call))
    (_hcalls : ∀ x ∈ calls, x.2.is_token = true)
    (code : symbol_code) (st : currency_stats)
    (hst : (run calls State.empty).stats.lookup code = some st) :
    st.supply.amount = balance_sum (run calls State.empty) code := by
  have h := (Inv.run calls Inv.empty).1 code
  simp only [supply_of, hst] at h
  exact h

/-- The scenario calls are token calls, FLX has a row in `stat` afterwards,
and its supply of 500 equals the sum of the FLX balances. -/
theorem conservation_witness :
    (∀ x ∈ sample_calls, x.2.is_token = true)
      ∧ (run sample_calls State.empty).stats.lookup felix_symbol.code
          = some ⟨flx 500, flx 1000, 1⟩
      ∧ (flx 500).amount = balance_sum (run sample_calls State.empty) felix_symbol.code :=
  ⟨by decide, by decide,
    conservation sample_calls (by decide) felix_symbol.code ⟨flx 500, flx 1000, 1⟩ (by decide)⟩

/-! ## C2: aggregate integrity -/

/-- C2. Starting from a state in which the Total-Stake Aggregate equals the
sum of the quantities of all staking rows (an `int64_t`, as every stored
amount), after any finite sequence of `stake`, `unstake` and `restake` calls
the aggregate still equals that sum, and a following `recalc()` authorised by
the contract succeeds and leaves the state, hence the aggregate, unchanged. -/
theorem aggregate_integrity (calls : List (Ctx × Call))
    (hcalls : ∀ x ∈ calls, x.2.is_staking = true) (s : State)
    (hagg : s.totalStake = ⟨staked_sum s, felix_symbol⟩) (hint : is_int64 (staked_sum s))
    (c : Ctx) (hauth : c.self ∈ c.auth) :
    (run calls s).totalStake = ⟨staked_sum (run calls s), felix_symbol⟩
      ∧ recalc c (run calls s) = .ok (run calls s) := by
  have h := aggregate_run calls hcalls ⟨hagg, hint⟩
  exact ⟨h.1, recalc_fixed hauth h.1 h.2⟩

/-- On the sample ledger, whose aggregate and staking table are both empty,
the three staking calls keep the aggregate equal to the staked sum. -/
theorem aggregate_integrity_witness :
    (∀ x ∈ sample_staking_calls, x.2.is_staking = true)
      ∧ sample_state.totalStake = ⟨staked_sum sample_state, felix_symbol⟩
      ∧ (-9223372036854775808 ≤ staked_sum sample_state
          ∧ staked_sum sample_state < 9223372036854775808)
      ∧ felixtokenio ∈ (sample_ctx [felixtokenio] 0).auth
      ∧ staked_of (run sample_staking_calls sample_state) 2 = 150
      ∧ (run sample_staking_calls sample_state).totalStake
          = ⟨staked_sum (run sample_staking_calls sample_state), felix_symbol⟩
      ∧ recalc (sample_ctx [felixtokenio] 0) (run sample_staking_calls sample_state)
          = .ok (run sample_staking_calls sample_state) :=
  ⟨by decide, by decide, by decide, by decide, by decide,
    aggregate_integrity sample_staking_calls (by decide) sample_state (by decide)
      (by unfold is_int64; decide) (sample_ctx [felixtokenio] 0) (by decide)⟩

/-! ## C3: stake, unstake, restake -/

/-- C3, as stated, fails: on the sample ledger account `2` (200 units free, no
staking row, no unstaking row) stakes 150 units, unstakes them and is
restaked. All three calls succeed, and afterwards 150 units are staked
(before: 0) and 50 units are free (before: 200). -/
theorem round_trip_counterexample :
    (2 : name) ≠ felixstaking ∧ sample_state.unstaking.lookup 2 = none
      ∧ 0 < (flx 150).amount ∧ (flx 150).amount ≤ free_balance sample_state 2
      ∧ ∃ s1 s2 s3, stake (sample_ctx [2] 0) 2 (flx 150) sample_state = .ok s1
          ∧ unstake (sample_ctx [2] 500000) 2 (flx 150) s1 = .ok s2
          ∧ restake (sample_ctx [felixtokenio] 600000) 2 s2 = .ok s3
          ∧ staked_of sample_state 2 = 0 ∧ staked_of s3 2 = 150
          ∧ free_balance sample_state 2 = 200 ∧ free_balance s3 2 = 50 :=
  ⟨by decide, by decide, by decide, by decide, _, _, _, rfl, rfl, rfl,
    by decide, by decide, by decide, by decide⟩


/-- C3, amended. On a ledger with FLX registered at precision 4 and well-formed
FLX rows, for every account `A` other than the escrow account with free
balance `≥ q > 0` (an FLX quantity) and no unstaking row, when the calls are
authorised (`stake` and `unstake` by `A`, `restake` by the contract), the
escrow account exists and the staking row, the aggregate and the escrow
balance stay within `asset::max_amount` after adding `q`: the sequence
`stake(A, q); unstake(A, q); restake(A)` succeeds and leaves the staking row
of `A` at its value before the sequence plus `q` and the free balance of `A`
at its value before the sequence minus `q`. -/
theorem round_trip_amended (c1 c2 c3 : Ctx) (A : name) (q : asset) (s : State)
    (hA : A ≠ felixstaking) (hq : 0 < q.amount) (hsym : q.symbol = felix_symbol)
    (hbal : q.amount ≤ free_balance s A) (hun : s.unstaking.lookup A = none)
    (hl : flx_ledger_ok s) (hs : flx_staking_ok s)
    (hauth1 : A ∈ c1.auth) (hauth2 : A ∈ c2.auth) (hauth3 : c3.self ∈ c3.auth)
    (hacc : c1.is_account felixstaking = true)
    (ov1 : staked_of s A + q.amount ≤ max_amount)
    (ov2 : s.totalStake.amount + q.amount ≤ max_amount)
    (ov3 : free_balance s felixstaking + q.amount ≤ max_amount) :
    ∃ s1 s2 s3, stake c1 A q s = .ok s1 ∧ unstake c2 A q s1 = .ok s2
      ∧ restake c3 A s2 = .ok s3
      ∧ staked_of s3 A = staked_of s A + q.amount
      ∧ free_balance s3 A = free_balance s A - q.amount := by
  obtain ⟨s1, h1⟩ := stake_flx_ok hl hs hauth1 hacc hA hq hsym hbal ov1 ov2 ov3
  obtain ⟨-, -, -, -, ⟨row, hstk, hrow, hrs, -⟩, htot, hfb, -, hun1, -⟩ := stake_effect h1
  have hst0 := staked_of_nonneg (s := s)
    ⟨fun a x hx => (hs.staked hx).2, fun a u hu => (hs.pending hu).2⟩ A
  have hlook1 : s1.staking.lookup A = some row := by rw [hstk, Finmap.lookup_insert]
  have hun1' : s1.unstaking.lookup A = none := by rw [hun1, hun]
  have htsym : s1.totalStake.symbol = felix_symbol := by rw [htot]
  have htamt : s1.totalStake.amount = s.totalStake.amount + q.amount := by rw [htot]
  -- the tables after `unstake`
  obtain ⟨stk, hstk2, hstk2look⟩ : ∃ stk : Tbl name asset,
      (if row.amount = q.amount
        then (pure (s1.staking.erase A) : Except String (Tbl name asset))
        else row.sub q >>= fun x => pure (s1.staking.insert A x)) = .ok stk
      ∧ stk.lookup A = if row.amount = q.amount then none
          else some ⟨row.amount - q.amount, felix_symbol⟩ := by
    by_cases he : row.amount = q.amount
    · refine ⟨s1.staking.erase A, by rw [if_pos he]; rfl, ?_⟩
      rw [if_pos he, Finmap.lookup_erase]
    · refine ⟨s1.staking.insert A ⟨row.amount - q.amount, felix_symbol⟩, ?_, ?_⟩
      · rw [if_neg he, bind_ok_iff]
        exact ⟨⟨row.amount - q.amount, row.symbol⟩,
          (asset.sub_ok_iff _ _ _).2 ⟨by rw [hsym, hrs], by unfold max_amount; omega,
            by omega, rfl⟩, by rw [hrs]; rfl⟩
      · rw [if_neg he, Finmap.lookup_insert]
  have hs2 : unstake c2 A q s1 = .ok { s1 with
      staking := stk,
      unstaking := s1.unstaking.insert A ⟨q, c2.now⟩,
      totalStake := ⟨s1.totalStake.amount - q.amount, s1.totalStake.symbol⟩,
      deferred := (s1.deferred.erase A).insert A ⟨refund_delay_sec, A⟩ } :=
    (unstake_iff _ _ _ _ _).2 ⟨hauth2, hq, ⟨⟨0, felix_symbol⟩, by rw [hun1']; rfl⟩, row, hlook1,
      by rw [hrs, hsym], by omega, stk, hstk2, ⟨q, c2.now⟩, by rw [hun1']; rfl, _,
      (asset.sub_ok_iff _ _ _).2 ⟨by rw [hsym, htsym],
        by rw [htamt]; have := hs.2.2.2.1; omega,
        by rw [htamt]; have := hs.2.2.2.2; omega, rfl⟩, rfl⟩
  -- the staking row after `restake`
  obtain ⟨row3, hrow3, hrow3amt⟩ : ∃ row3 : asset,
      (match stk.lookup A with
        | none => (pure q : Except String asset)
        | some x => x.add q) = .ok row3
      ∧ row3.amount = staked_of s A + q.amount := by
    by_cases he : row.amount = q.amount
    · rw [hstk2look, if_pos he]
      exact ⟨q, rfl, by omega⟩
    · rw [hstk2look, if_neg he]
      exact ⟨_, (asset.add_ok_iff _ _ _).2 ⟨hsym, by
        show -max_amount ≤ row.amount - q.amount + q.amount
        unfold max_amount; omega, by
        show row.amount - q.amount + q.amount ≤ max_amount
        omega, rfl⟩, by show row.amount - q.amount + q.amount = _; omega⟩
  refine ⟨s1, _, _, h1, hs2, (restake_iff _ _ _ _).2 ⟨hauth3, ⟨q, c2.now⟩,
    Finmap.lookup_insert _, row3, hrow3, _,
    (asset.add_ok_iff _ _ _).2 ⟨by rw [hsym, htsym], by
      show -max_amount ≤ s1.totalStake.amount - q.amount + q.amount
      rw [htamt]; have := hs.2.2.2.1; omega, by
      show s1.totalStake.amount - q.amount + q.amount ≤ max_amount
      rw [htamt]; omega, rfl⟩, rfl⟩, ?_, ?_⟩
  · simp only [staked_of, amount_at_insert, if_true, hrow3amt]
  · have := hfb A
    rw [if_neg hA, if_pos rfl] at this
    simp only [free_balance, balance_of] at this ⊢
    omega

/-- The sequence succeeds on the sample ledger for account `2` and 150 units. -/
theorem round_trip_amended_witness :
    (2 : name) ≠ felixstaking ∧ sample_state.unstaking.lookup 2 = none
      ∧ ∃ s1 s2 s3, stake (sample_ctx [2] 0) 2 (flx 150) sample_state = .ok s1
          ∧ unstake (sample_ctx [2] 500000) 2 (flx 150) s1 = .ok s2
          ∧ restake (sample_ctx [felixtokenio] 600000) 2 s2 = .ok s3
          ∧ staked_of s3 2 = staked_of sample_state 2 + (flx 150).amount
          ∧ free_balance s3 2 = free_balance sample_state 2 - (flx 150).amount :=
  ⟨by decide, by decide,
    round_trip_amended (sample_ctx [2] 0) (sample_ctx [2] 500000)
      (sample_ctx [felixtokenio] 600000) 2 (flx 150) sample_state
      (by decide) (by decide) rfl (by decide) (by decide) (by decide) (by decide)
      (by decide) (by decide) (by decide) rfl (by decide) (by decide) (by decide)⟩

/-! ## C4: the maturity gate -/

/-- C4, as stated, fails: account `2` asked 150 units back at time point
`500000` (microseconds). At time point `1296000000000`, half a second before
the request time plus the lock period of 15 days, `refund(2)` succeeds and
pays the 150 units. -/
theorem maturity_gate_counterexample :
    pending_state.unstaking.lookup 2 = some ⟨flx 150, 500000⟩
      ∧ (1296000000000 : Int) < 500000 + (refund_delay_sec : Int) * 1000000
      ∧ ∃ s1, refund (sample_ctx [2] 1296000000000) 2 pending_state = .ok s1
          ∧ free_balance pending_state 2 = 50 ∧ free_balance s1 2 = 200 :=
  ⟨by decide, by decide, _, rfl, by decide, by decide⟩

/-- C4, amended. The gate compares whole seconds: with `t` the request time
of the unstaking row of `A` and `now` the current time, both microsecond time
points whose second counts (with the lock period added) fit 32 bits, a
`refund(A)` authorised by `A` aborts with `Refund is not available yet` and
changes nothing if `now / 10^6 < t / 10^6 + 1296000`. If
`t / 10^6 + 1296000 ≤ now / 10^6`, then on a ledger with FLX registered at
precision 4 and well-formed FLX rows, for an existing account `A` other than
the escrow account, when the escrow balance covers the pending quantity `p`
and the balance of `A` plus `p` stays within `asset::max_amount`, the refund
succeeds, credits `p` to `A`, debits it from the escrow balance and erases the
unstaking row of `A`. -/
theorem maturity_gate (c : Ctx) (A : name) (s : State) (u : unstaking)
    (hu : s.unstaking.lookup A = some u) (hauth : A ∈ c.auth)
    (ht : 0 ≤ u.req_time) (hn : 0 ≤ c.now)
    (hr1 : u.req_time / 1000000 + 1296000 < 4294967296)
    (hr2 : c.now / 1000000 < 4294967296) :
    (c.now / 1000000 < u.req_time / 1000000 + 1296000 →
        refund c A s = .error "Refund is not available yet" ∧ exec c (.refund A) s = s)
      ∧ (u.req_time / 1000000 + 1296000 ≤ c.now / 1000000 →
          flx_ledger_ok s → flx_staking_ok s → c.is_account A = true → A ≠ felixstaking →
          u.quantity.amount ≤ free_balance s felixstaking →
          free_balance s A + u.quantity.amount ≤ max_amount →
          ∃ s1, refund c A s = .ok s1
            ∧ free_balance s1 A = free_balance s A + u.quantity.amount
            ∧ free_balance s1 felixstaking = free_balance s felixstaking - u.quantity.amount
            ∧ s1.unstaking.lookup A = none) := by
  have hq0 : 0 ≤ u.req_time / 1000000 := Int.ediv_nonneg ht (by decide)
  have hst : sec_since_epoch u.req_time = u.req_time / 1000000 :=
    sec_since_epoch_eq ht (by omega)
  have hsn : sec_since_epoch c.now = c.now / 1000000 := sec_since_epoch_eq hn hr2
  have hsum : (sec_since_epoch u.req_time + refund_delay_sec) % 4294967296
      = u.req_time / 1000000 + 1296000 := by
    rw [hst, refund_delay_sec_eq]
    omega
  refine ⟨?_, ?_⟩
  · intro hlt
    have herr : refund c A s = .error "Refund is not available yet" :=
      refund_not_matured hauth hu (by rw [hsum, hsn]; exact hlt)
    refine ⟨herr, ?_⟩
    unfold exec
    simp only [Call.apply, herr]
  · intro hge hl hs hacc hne hcov hroom
    have hp := hs.pending hu
    obtain ⟨s1, h1⟩ := transfer_flx_ok (c.inline felixstaking) felixstaking A u.quantity
      "unstake" { s with unstaking := s.unstaking.erase A }
      hl (Ne.symm hne) (by simp [Ctx.inline]) hacc hp.1 hp.2 hcov hroom (by decide)
    obtain ⟨-, hun, -, -, -, -, hbal⟩ := settle_effect h1
    have hcode : u.quantity.symbol.code = felix_symbol.code := by rw [hp.1]
    refine ⟨s1, (refund_iff _ _ _ _).2 ⟨hauth, u, hu, by rw [hsum, hsn]; exact hge, h1⟩,
      ?_, ?_, ?_⟩
    · have := hbal A felix_symbol.code
      rw [hcode, if_pos ⟨rfl, rfl⟩, if_neg (fun e => hne e.1)] at this
      simp only [free_balance, this]
      ring
    · have := hbal felixstaking felix_symbol.code
      rw [hcode, if_neg (fun e => hne e.1.symm), if_pos ⟨rfl, rfl⟩] at this
      simp only [free_balance, this]
      ring
    · rw [hun, Finmap.lookup_erase]

/-- One second after the epoch the refund of account `2`, requested at time
point `500000`, is not available. -/
theorem maturity_gate_witness :
    pending_state.unstaking.lookup 2 = some ⟨flx 150, 500000⟩
      ∧ (2 : name) ∈ (sample_ctx [2] 1000000).auth
      ∧ refund (sample_ctx [2] 1000000) 2 pending_state
          = .error "Refund is not available yet" :=
  ⟨by decide, by decide,
    ((maturity_gate (sample_ctx [2] 1000000) 2 pending_state ⟨flx 150, 500000⟩
      (by decide) (by decide) (by decide) (by decide) (by decide) (by decide)).1
        (by decide)).1⟩

/-! ## C5: settlement pays once -/

/-- C5. For every state and account `A`: if `refunddef(A)` succeeds, then it
credited the pending quantity to `A`, and an immediately following
`refunddef(A)` (authorised by the contract) and likewise `refund(A)`
(authorised by `A`) abort with `Unstaking request not found`; whatever the
authorisation, the second call leaves the state unchanged, so `A` stays
credited exactly once. -/
theorem settlement_once (c : Ctx) (A : name) (s s1 : State)
    (h : refunddef c A s = .ok s1) :
    (∀ c2 : Ctx, c2.self ∈ c2.auth →
        refunddef c2 A s1 = .error "Unstaking request not found")
      ∧ (∀ c2 : Ctx, A ∈ c2.auth → refund c2 A s1 = .error "Unstaking request not found")
      ∧ (∀ c2 : Ctx, exec c2 (.refunddef A) s1 = s1 ∧ exec c2 (.refund A) s1 = s1)
      ∧ ∃ u, s.unstaking.lookup A = some u
          ∧ balance_of s1 A u.quantity.symbol.code
              = balance_of s A u.quantity.symbol.code + u.quantity.amount
          ∧ ∀ c2 : Ctx, balance_of (exec c2 (.refunddef A) s1) A u.quantity.symbol.code
              = balance_of s A u.quantity.symbol.code + u.quantity.amount := by
  obtain ⟨-, u, hu, htr⟩ := refunddef_ok h
  obtain ⟨hne, hun, -, -, -, -, hbal⟩ := settle_effect htr
  have hnone : s1.unstaking.lookup A = none := by rw [hun, Finmap.lookup_erase]
  have hb : balance_of s1 A u.quantity.symbol.code
      = balance_of s A u.quantity.symbol.code + u.quantity.amount := by
    rw [hbal A u.quantity.symbol.code, if_pos ⟨rfl, rfl⟩, if_neg (fun e => hne e.1)]
    ring
  refine ⟨fun c2 h2 => refunddef_missing h2 hnone, fun c2 h2 => refund_missing h2 hnone,
    fun c2 => ⟨exec_refunddef_missing c2 hnone, exec_refund_missing c2 hnone⟩, u, hu, hb, ?_⟩
  intro c2
  rw [exec_refunddef_missing c2 hnone, hb]

/-- On the sample ledger with 150 units pending for account `2`, the forced
settlement succeeds. -/
theorem settlement_once_witness :
    ∃ s1, refunddef (sample_ctx [felixtokenio] 0) 2 pending_state = .ok s1
      ∧ refunddef (sample_ctx [felixtokenio] 0) 2 s1 = .error "Unstaking request not found"
      ∧ free_balance s1 2 = 200 :=
  ⟨_, rfl,
    (settlement_once (sample_ctx [felixtokenio] 0) 2 pending_state _ rfl).1
      (sample_ctx [felixtokenio] 0) (by decide),
    by decide⟩

/-! ## C6: a stale callback -/

/-- C6, as stated, fails: after `unstake` and `restake` account `2` has no
unstaking row, and the forced settlement `refunddef(2)`, authorised by the
contract as the scheduled callback is, aborts with an error. -/
theorem stale_callback_counterexample :
    (run sample_staking_calls sample_state).unstaking.lookup 2 = none
      ∧ refunddef (sample_ctx [felixtokenio] 1296000500000) 2
          (run sample_staking_calls sample_state)
          = .error "Unstaking request not found" :=
  ⟨by decide, rfl⟩

/-- C6, amended. For every state in which account `A` has no unstaking row,
the forced settlement `refunddef(A)` fired by the scheduled callback
(authorised by the contract) aborts with `Unstaking request not found`; the
aborted transaction leaves the whole ledger state unchanged. -/
theorem stale_callback_aborts (c : Ctx) (A : name) (s : State)
    (hauth : c.self ∈ c.auth) (hnone : s.unstaking.lookup A = none) :
    refunddef c A s = .error "Unstaking request not found"
      ∧ exec c (.refunddef A) s = s :=
  ⟨refunddef_missing hauth hnone, exec_refunddef_missing c hnone⟩

/-- The callback of account `2` on the ledger where `2` was restaked. -/
theorem stale_callback_aborts_witness :
    felixtokenio ∈ (sample_ctx [felixtokenio] 1296000500000).auth
      ∧ (run sample_staking_calls sample_state).unstaking.lookup 2 = none
      ∧ exec (sample_ctx [felixtokenio] 1296000500000) (.refunddef 2)
          (run sample_staking_calls sample_state) = run sample_staking_calls sample_state :=
  ⟨by decide, by decide,
    (stale_callback_aborts (sample_ctx [felixtokenio] 1296000500000) 2
      (run sample_staking_calls sample_state) (by decide) (by decide)).2⟩

/-! ## C7: non-negativity -/

/-- C7. In every state reached from the empty ledger by a sequence of calls
of `create`, `issue`, `retire`, `transfer`, `open`, `close`, `stake`,
`unstake`, `restake`, `refund`, `refunddef`, `banish` and `recalc`, every
balance row holds an amount `≥ 0`, and every staking row and every unstaking
row that exists holds a quantity `> 0`. -/
theorem non_negativity (calls : List (Ctx × Call)) :
    (∀ k bal, (run calls State.empty).accounts.lookup k = some bal → 0 ≤ bal.amount)
      ∧ (∀ a q, (run calls State.empty).staking.lookup a = some q → 0 < q.amount)
      ∧ ∀ a u, (run calls State.empty).unstaking.lookup a = some u → 0 < u.quantity.amount := by
  have h := Inv.run calls Inv.empty
  exact ⟨h.2.1, h.2.2.1.1, h.2.2.1.2⟩

/-! ## C8: supply bound -/

/-- C8. In every state reached from the empty ledger by `create`, `issue`,
`retire` and `transfer` calls, every row of `stat` has
`0 ≤ supply ≤ max_supply`. In such a state an `issue` of a quantity larger
than `max_supply - supply` aborts and changes nothing, with the message
`quantity exceeds available supply` when the checks that precede this one in
the action pass; and a `retire` that succeeds leaves every supply `≥ 0`. -/
theorem supply_bound (calls : List (Ctx × Call))
    (_hcalls : ∀ x ∈ calls, x.2.is_registry = true)
    (code : symbol_code) (st : currency_stats)
    (hst : (run calls State.empty).stats.lookup code = some st) :
    (0 ≤ st.supply.amount ∧ st.supply.amount ≤ st.max_supply.amount)
      ∧ (∀ (c : Ctx) (to_ : name) (q : asset) (memo : String), q.symbol.code = code →
          st.max_supply.amount - st.supply.amount < q.amount →
            (∃ e, issue c to_ q memo (run calls State.empty) = .error e)
            ∧ exec c (.issue to_ q memo) (run calls State.empty) = run calls State.empty
            ∧ (memo.utf8ByteSize ≤ 256 → to_ = st.issuer → st.issuer ∈ c.auth →
                q.is_valid = true → q.symbol = st.supply.symbol →
                issue c to_ q memo (run calls State.empty)
                  = .error "quantity exceeds available supply"))
      ∧ ∀ (c : Ctx) (q : asset) (memo : String) (s1 : State),
          retire c q memo (run calls State.empty) = .ok s1 →
            ∀ code1 st1, s1.stats.lookup code1 = some st1 → 0 ≤ st1.supply.amount := by
  have hinv := Inv.run calls Inv.empty
  have h0 := supply_nonneg hinv code
  simp only [supply_of, hst] at h0
  have hb := hinv.2.2.2 code st hst
  have hwrap : wrap64 (st.max_supply.amount - st.supply.amount)
      = st.max_supply.amount - st.supply.amount :=
    wrap64_of_range _ (by unfold max_amount at hb; omega) (by unfold max_amount at hb; omega)
  refine ⟨⟨h0, hb.1⟩, ?_, ?_⟩
  · intro c to_ q memo hcode hq
    subst hcode
    have hfail : ∀ s1, issue c to_ q memo (run calls State.empty) ≠ .ok s1 := by
      intro s1 h
      obtain ⟨st1, hst1, -, -, -, -, hle, -⟩ := issue_ok h
      rw [hst] at hst1
      cases hst1
      rw [hwrap] at hle
      omega
    refine ⟨?_, ?_, ?_⟩
    · cases h : issue c to_ q memo (run calls State.empty) with
      | error e => exact ⟨e, rfl⟩
      | ok s1 => exact absurd h (hfail s1)
    · unfold exec
      simp only [Call.apply]
      split
      · rename_i s1 h
        exact absurd h (hfail s1)
      · rfl
    · intro hmemo hto hauth hvalid hsym
      have hv : q.symbol.is_valid = true := by
        simp only [asset.is_valid, Bool.and_eq_true] at hvalid
        exact hvalid.2
      have hpos : 0 < q.amount := by omega
      have hsym1 : decide (q.symbol = st.supply.symbol) = true := by simp [hsym]
      unfold issue
      simp only [hv, hmemo, hst, hto, hauth, hvalid, hpos, hsym1, hwrap, Ctx.require_auth,
        Ctx.has_auth, check, decide_True, if_true, bind, Except.bind, gt_iff_lt]
      rw [if_neg]
      simp only [decide_eq_true_eq, not_le]
      exact hq
  · intro c q memo s1 h code1 st1 hst1
    have h1 := supply_nonneg (hinv.retire h) code1
    simp only [supply_of, hst1] at h1
    exact h1

/-- After the scenario calls FLX has supply 500 of at most 1000. -/
theorem supply_bound_witness :
    (∀ x ∈ sample_calls, x.2.is_registry = true)
      ∧ (run sample_calls State.empty).stats.lookup felix_symbol.code
          = some ⟨flx 500, flx 1000, 1⟩
      ∧ issue (sample_ctx [1] 0) 1 (flx 501) "" (run sample_calls State.empty)
          = .error "quantity exceeds available supply" :=
  ⟨by decide, by decide,
    ((supply_bound sample_calls (by decide) felix_symbol.code ⟨flx 500, flx 1000, 1⟩
      (by decide)).2.1 (sample_ctx [1] 0) 1 (flx 501) "" rfl (by decide)).2.2
        (by decide) rfl (by decide) (by decide) rfl⟩

/-! ## C9: banish -/

/-- C9, as stated, fails: the account `felixtokenio` has 150 units staked and
50 units free; `banish(felixtokenio)` succeeds and sweeps the stake to
`felixtokenio` itself, whose free balance becomes 200. -/
theorem banish_counterexample :
    staked_of penalty_staker_state felixtokenio = 150
      ∧ (banish (sample_ctx [felixtokenio] 0) felixtokenio penalty_staker_state).isOk = true
      ∧ free_balance penalty_staker_state felixtokenio = 50
      ∧ free_balance
          (exec (sample_ctx [felixtokenio] 0) (.banish felixtokenio) penalty_staker_state)
          felixtokenio = 200 :=
  ⟨by decide, by decide, by decide, by decide⟩

/-- C9, amended. For every state and account `A` whose staking row, if any,
is an FLX quantity, with staked quantity `s` and pending quantity `p` (`0` for
an absent row), a successful `banish(A)` sets the Total-Stake Aggregate to
`aggregate - s + p`, erases both rows of `A`, and moves exactly `s` from the
escrow balance to the balance of `felixtokenio` (nothing is moved for `p`).
The free balance of `A` is unchanged when `A` is neither `felixtokenio` nor
the escrow account; it grows by `s` when `A` is `felixtokenio`. -/
theorem banish_effect (c : Ctx) (A : name) (s s1 : State)
    (h : banish c A s = .ok s1)
    (hflx : ∀ q ∈ s.staking.lookup A, q.symbol = felix_symbol) :
    s1.totalStake.amount = s.totalStake.amount - staked_of s A + pending_of s A
      ∧ s1.staking.lookup A = none ∧ s1.unstaking.lookup A = none
      ∧ free_balance s1 felixstaking = free_balance s felixstaking - staked_of s A
      ∧ free_balance s1 felixtokenio = free_balance s felixtokenio + staked_of s A
      ∧ (A ≠ felixtokenio → A ≠ felixstaking → free_balance s1 A = free_balance s A)
      ∧ (A = felixtokenio → free_balance s1 A = free_balance s A + staked_of s A) := by
  obtain ⟨-, s2, rfl, htr, hnone⟩ := banish_ok h
  have hne : felixstaking ≠ felixtokenio := by decide
  cases hq : s.staking.lookup A with
  | none =>
    have hs1 := hnone hq
    subst hs1
    have h0 : staked_of s A = 0 := by simp [staked_of, amount_at, hq]
    simp only [h0, Finmap.lookup_erase, free_balance, balance_of, sub_zero, add_zero,
      true_and, implies_true, and_self]
  | some q =>
    have hqs : q.symbol = felix_symbol := hflx q hq
    have hqa : staked_of s A = q.amount := by simp [staked_of, amount_at, hq]
    obtain ⟨-, h2, h3, h4, -, -, -, hbal⟩ := transfer_effect (htr q hq)
    have hcode : q.symbol.code = felix_symbol.code := by rw [hqs]
    have hb : ∀ o, free_balance s1 o = free_balance s o
        + (if o = felixtokenio then q.amount else 0)
        - (if o = felixstaking then q.amount else 0) := by
      intro o
      have := hbal o felix_symbol.code
      simp only [hcode, and_true] at this
      exact this
    refine ⟨by rw [h4], by rw [h2]; exact Finmap.lookup_erase _ _,
      by rw [h3]; exact Finmap.lookup_erase _ _, ?_, ?_, ?_, ?_⟩
    · rw [hb felixstaking, if_neg hne, if_pos rfl, hqa]
      ring
    · rw [hb felixtokenio, if_pos rfl, if_neg (Ne.symm hne), hqa]
      ring
    · intro h1 h2
      rw [hb A, if_neg h1, if_neg h2]
      ring
    · intro h1
      rw [hb A, if_pos h1, if_neg (by rw [h1]; exact Ne.symm hne), hqa]
      ring

/-- On the sample ledger with 150 units staked by account `2`, the contract
banishes `2`. -/
theorem banish_effect_witness :
    ∃ s1, banish (sample_ctx [felixtokenio] 0) 2
        (exec (sample_ctx [2] 0) (.stake 2 (flx 150)) sample_state) = .ok s1
      ∧ (∀ q ∈ (exec (sample_ctx [2] 0) (.stake 2 (flx 150)) sample_state).staking.lookup 2,
          q.symbol = felix_symbol)
      ∧ s1.staking.lookup 2 = none
      ∧ free_balance s1 felixtokenio = 150 ∧ free_balance s1 2 = 50 :=
  ⟨_, rfl, by decide,
    (banish_effect (sample_ctx [felixtokenio] 0) 2
      (exec (sample_ctx [2] 0) (.stake 2 (flx 150)) sample_state) _ rfl (by decide)).2.1,
    by decide, by decide⟩

/-! ## C10: stake -/

/-- C10, as stated, fails: on the ledger reached by `full_stake_calls` account
`2` (not the escrow account) holds 1 unit of FLX and stakes 1 unit of FLX, yet
the stake aborts, because the staking row would exceed `asset::max_amount`. -/
theorem stake_postcondition_counterexample :
    (2 : name) ≠ felixstaking ∧ 0 < (flx 1).amount ∧ (flx 1).symbol = felix_symbol
      ∧ (flx 1).amount ≤ free_balance (run full_stake_calls State.empty) 2
      ∧ staked_of (run full_stake_calls State.empty) 2 = max_amount
      ∧ stake (sample_ctx [2] 0) 2 (flx 1) (run full_stake_calls State.empty)
          = .error "addition overflow" := by
  refine ⟨by decide, by decide, by decide, by decide, by decide, ?_⟩
  rfl


/-- C10, amended. For every state, account `A` other than the escrow account
and quantity `q`: `stake(A, q)` aborts and changes nothing if `q ≤ 0`, if
`q` is not an FLX quantity of precision 4, or if the free balance of `A` is
less than `q`. Every stake that succeeds sets the staking row of `A` to the
old quantity plus `q` (to `q` when there was no row), adds `q` to the
Total-Stake Aggregate, takes `q` from the free balance of `A`, adds `q` to the
escrow balance and leaves the supplies and the unstaking rows unchanged. The
stake succeeds when, on a ledger with FLX registered at precision 4 and
well-formed FLX rows, `A` authorises it, the escrow account exists, `q` is a
positive FLX quantity covered by the free balance of `A`, and the staking row,
the aggregate and the escrow balance stay within `asset::max_amount`; it
aborts and changes nothing when adding `q` would push the staking row of `A`,
the aggregate or the escrow balance above `asset::max_amount`. -/
theorem stake_postcondition (c : Ctx) (A : name) (q : asset) (s : State)
    (hA : A ≠ felixstaking) :
    ((q.amount ≤ 0 ∨ q.symbol ≠ felix_symbol ∨ free_balance s A < q.amount) →
        (∃ e, stake c A q s = .error e) ∧ exec c (.stake A q) s = s)
      ∧ ((max_amount < staked_of s A + q.amount
            ∨ max_amount < s.totalStake.amount + q.amount
            ∨ max_amount < free_balance s felixstaking + q.amount) →
          (∃ e, stake c A q s = .error e) ∧ exec c (.stake A q) s = s)
      ∧ (∀ s1, stake c A q s = .ok s1 →
          staked_of s1 A = staked_of s A + q.amount
          ∧ (s.staking.lookup A = none → s1.staking.lookup A = some q)
          ∧ s1.totalStake.amount = s.totalStake.amount + q.amount
          ∧ free_balance s1 A = free_balance s A - q.amount
          ∧ free_balance s1 felixstaking = free_balance s felixstaking + q.amount
          ∧ s1.stats = s.stats ∧ s1.unstaking = s.unstaking)
      ∧ (flx_ledger_ok s → flx_staking_ok s → A ∈ c.auth →
          c.is_account felixstaking = true → 0 < q.amount → q.symbol = felix_symbol →
          q.amount ≤ free_balance s A → staked_of s A + q.amount ≤ max_amount →
          s.totalStake.amount + q.amount ≤ max_amount →
          free_balance s felixstaking + q.amount ≤ max_amount →
          ∃ s1, stake c A q s = .ok s1) := by
  refine ⟨?_, ?_, ?_, ?_⟩
  · intro hbad
    have hfail : ∀ s1, stake c A q s ≠ .ok s1 := by
      intro s1 h
      obtain ⟨-, hpos, hsym, hle, -⟩ := stake_effect h
      rcases hbad with h1 | h1 | h1
      · omega
      · exact h1 hsym
      · omega
    refine ⟨?_, ?_⟩
    · cases h : stake c A q s with
      | error e => exact ⟨e, rfl⟩
      | ok s1 => exact absurd h (hfail s1)
    · unfold exec
      simp only [Call.apply]
      split
      · rename_i s1 h
        exact absurd h (hfail s1)
      · rfl
  · intro hov
    apply fails_of_not_ok c (.stake A q) s
    intro s1 h
    obtain ⟨h1, h2, h3⟩ := stake_in_range hA h
    rcases hov with h4 | h4 | h4 <;> omega
  · intro s1 h
    obtain ⟨-, -, -, -, ⟨row, hstk, hrow, -, hnone⟩, htot, hbal, hst, hun, -⟩ := stake_effect h
    refine ⟨?_, ?_, ?_, ?_, ?_, hst, hun⟩
    · rw [staked_of_insert s1 _ _ _ hstk, hrow]
    · intro hn
      rw [hstk, Finmap.lookup_insert, hnone hn]
    · rw [htot]
    · rw [hbal A, if_neg hA, if_pos rfl]
      ring
    · rw [hbal felixstaking, if_pos rfl, if_neg (Ne.symm hA)]
      ring
  · intro hl hs hauth hacc hpos hsym hle ov1 ov2 ov3
    exact stake_flx_ok hl hs hauth hacc hA hpos hsym hle ov1 ov2 ov3

/-- On the sample ledger account `2` stakes 150 of its 200 units. -/
theorem stake_postcondition_witness :
    (2 : name) ≠ felixstaking
      ∧ ∃ s1, stake (sample_ctx [2] 0) 2 (flx 150) sample_state = .ok s1 :=
  ⟨by decide,
    (stake_postcondition (sample_ctx [2] 0) 2 (flx 150) sample_state (by decide)).2.2.2
      (by decide) (by decide) (by decide) rfl (by decide) rfl (by decide) (by decide)
      (by decide) (by decide)⟩


/-! ## C11: unstake -/

/-- C11, as stated, fails. After `pending_full_calls` account `2` has a
staking row and an unstaking row of `asset::max_amount` units each; its
`unstake` of 1 unit is covered by the staking row and still aborts, because
the pending quantity would exceed `asset::max_amount`. And on the sample
ledger with 150 units staked, an `unstake` of 50 units written with precision
`0` instead of `4` aborts in the comparison of the two assets. -/
theorem unstake_contract_counterexample :
    staked_of (run pending_full_calls State.empty) 2 = max_amount
      ∧ pending_of (run pending_full_calls State.empty) 2 = max_amount
      ∧ 0 < (flx 1).amount
      ∧ (flx 1).amount ≤ staked_of (run pending_full_calls State.empty) 2
      ∧ unstake (sample_ctx [2] 0) 2 (flx 1) (run pending_full_calls State.empty)
          = .error "addition overflow"
      ∧ (run staked_calls State.empty).staking.lookup 2 = some (flx 150)
      ∧ unstake (sample_ctx [2] 0) 2 ⟨50, ⟨5786694, 0⟩⟩ (run staked_calls State.empty)
          = .error "comparison of assets with different symbols is not allowed" := by
  refine ⟨by decide, by decide, by decide, by decide, ?_, by decide, ?_⟩
  · rfl
  · rfl

/-- C11, amended. In every state reached from the empty ledger, for every
account `A`, quantity `q > 0` and block time `now`, with the action authorised
by `A`: `unstake(A, q)` aborts with "No staking account" if `A` has no staking
row; if `A` has a staking row of quantity `r`, it aborts in the comparison of
the assets if `q` is not an FLX quantity of precision 4, with "Not enough
staked token" if `r < q`, and with "addition overflow" if `r ≥ q` and the old
pending quantity plus `q` exceeds `asset::max_amount`; every abort changes
nothing. Otherwise it succeeds: the staking row is reduced by `q` (erased
exactly when `r = q`), the Total-Stake Aggregate decreases by `q`, the
unstaking row of `A` holds the old pending quantity plus `q` (`q` if it was
absent) with request time `now`, and the balance rows, `stat` and the rows
of all other accounts are unchanged. -/
theorem unstake_contract (calls : List (Ctx × Call)) (c : Ctx) (A : name) (q : asset)
    (hauth : A ∈ c.auth) (hpos : 0 < q.amount) :
    ((run calls State.empty).staking.lookup A = none →
        unstake c A q (run calls State.empty) = .error "No staking account"
          ∧ exec c (.unstake A q) (run calls State.empty) = run calls State.empty)
      ∧ ∀ r, (run calls State.empty).staking.lookup A = some r →
        (q.symbol ≠ felix_symbol →
          unstake c A q (run calls State.empty)
              = .error "comparison of assets with different symbols is not allowed"
            ∧ exec c (.unstake A q) (run calls State.empty) = run calls State.empty)
        ∧ (q.symbol = felix_symbol → r.amount < q.amount →
          unstake c A q (run calls State.empty) = .error "Not enough staked token"
            ∧ exec c (.unstake A q) (run calls State.empty) = run calls State.empty)
        ∧ (q.symbol = felix_symbol → q.amount ≤ r.amount →
          max_amount < pending_of (run calls State.empty) A + q.amount →
          unstake c A q (run calls State.empty) = .error "addition overflow"
            ∧ exec c (.unstake A q) (run calls State.empty) = run calls State.empty)
        ∧ (q.symbol = felix_symbol → q.amount ≤ r.amount →
          pending_of (run calls State.empty) A + q.amount ≤ max_amount →
          ∃ s1, unstake c A q (run calls State.empty) = .ok s1
            ∧ (r.amount = q.amount → s1.staking.lookup A = none)
            ∧ (r.amount ≠ q.amount →
                s1.staking.lookup A = some ⟨r.amount - q.amount, felix_symbol⟩)
            ∧ s1.totalStake.amount = (run calls State.empty).totalStake.amount - q.amount
            ∧ s1.unstaking.lookup A
                = some ⟨⟨pending_of (run calls State.empty) A + q.amount, felix_symbol⟩, c.now⟩
            ∧ ((run calls State.empty).unstaking.lookup A = none →
                s1.unstaking.lookup A = some ⟨q, c.now⟩)
            ∧ s1.accounts = (run calls State.empty).accounts
            ∧ s1.stats = (run calls State.empty).stats
            ∧ ∀ B, B ≠ A → s1.staking.lookup B = (run calls State.empty).staking.lookup B
                ∧ s1.unstaking.lookup B = (run calls State.empty).unstaking.lookup B) := by
  obtain ⟨hi, h2⟩ := reachable_inv calls
  generalize run calls State.empty = s at hi h2
  obtain ⟨hnone, hsome⟩ := unstake_cases hi h2 c A q hauth hpos
  have hexec : ∀ e, unstake c A q s = .error e → exec c (.unstake A q) s = s :=
    fun e he => exec_of_error (show (Call.unstake A q).apply c s = .error e from he)
  refine ⟨fun hn => ⟨hnone hn, hexec _ (hnone hn)⟩, ?_⟩
  intro r hr
  obtain ⟨e1, e2, e3⟩ := hsome r hr
  refine ⟨fun h => ⟨e1 h, hexec _ (e1 h)⟩, fun h h1 => ⟨e2 h h1, hexec _ (e2 h h1)⟩,
    fun h h1 h3 => ⟨e3 h h1 h3, hexec _ (e3 h h1 h3)⟩, ?_⟩
  intro hqs hle hroom
  have hrs : r.symbol = felix_symbol := h2.1.1.1 A r hr
  obtain ⟨s1, hun⟩ := unstake_succeeds hi h2 c hauth hpos hqs hr hle hroom
  obtain ⟨row, hrow, htime, hrn, hrsome⟩ := unstake_row hun
  obtain ⟨-, -, staked, hst, -, -, -, -, row1, hamt, -, -, hs1⟩ := unstake_ok hun
  rw [hr] at hst
  cases hst
  have hrowl : s1.unstaking.lookup A = some row := by
    rw [hrow]
    exact Finmap.lookup_insert _
  have hrow1 : row1 = row := by
    have : s1.unstaking.lookup A = some row1 := by
      rw [hs1]
      exact Finmap.lookup_insert _
    rw [hrowl] at this
    cases this
    rfl
  subst hrow1
  have hrsym : row1.quantity.symbol = felix_symbol := by
    cases hu : s.unstaking.lookup A with
    | none => rw [hrn hu, hqs]
    | some u => rw [(hrsome u hu).1, h2.1.1.2.1 A u hu]
  refine ⟨s1, hun, ?_, ?_, ?_, ?_, ?_, ?_, ?_, ?_⟩
  · intro heq
    rw [hs1]
    simp only [if_pos heq]
    exact Finmap.lookup_erase _ _
  · intro hneq
    rw [hs1]
    simp only [if_neg hneq]
    rw [Finmap.lookup_insert, hrs]
  · rw [hs1]
  · rw [hrowl]
    obtain ⟨⟨a, y⟩, t⟩ := row1
    simp only at hamt htime hrsym
    rw [hamt, htime, hrsym]
  · intro hu
    rw [hrowl]
    obtain ⟨x, t⟩ := row1
    simp only at htime
    have := hrn hu
    simp only at this
    rw [this, htime]
  · rw [hs1]
  · rw [hs1]
  · intro B hB
    refine ⟨?_, ?_⟩
    · rw [hs1]
      simp only
      split
      · rw [Finmap.lookup_erase_ne hB]
      · rw [Finmap.lookup_insert_of_ne _ hB]
    · rw [hrow, Finmap.lookup_insert_of_ne _ hB]

/-- On the sample ledger with 150 units staked, account `2` asks for all 150
units: its staking row is erased and its unstaking row holds 150 units with
the block time as request time. -/
theorem unstake_contract_witness :
    (2 : name) ∈ (sample_ctx [2] 500000).auth ∧ 0 < (flx 150).amount
      ∧ ∃ s1, unstake (sample_ctx [2] 500000) 2 (flx 150) (run staked_calls State.empty)
          = .ok s1
        ∧ s1.staking.lookup 2 = none
        ∧ s1.unstaking.lookup 2 = some ⟨flx 150, 500000⟩ := by
  obtain ⟨s1, h1, h2, -, -, -, h6, -⟩ :=
    ((unstake_contract staked_calls (sample_ctx [2] 500000) 2 (flx 150)
      (by decide) (by decide)).2 (flx 150) (by decide)).2.2.2 rfl (by decide) (by decide)
  exact ⟨by decide, by decide, s1, h1, h2 rfl, h6 (by decide)⟩

/-! ## C12: the two settlement paths -/

/-- C12. In every state reached from the empty ledger in which `A` has an
unstaking row with pending quantity `p` and the escrow balance is at least
`p`, `refunddef(A)`, authorised by the contract for the existing account `A`,
succeeds at every block time (the context `c` and its time are arbitrary, so
also before `req_time + refund_delay_sec`). Its result has the balance of `A`
increased by `p`, the escrow balance decreased by `p`, the unstaking row of
`A` erased, and all other balance rows, the staking table, the aggregate and
`stat` unchanged. Whenever `refund(A)` succeeds on the same state, in any
context, it yields exactly that state. -/
theorem settlement_paths (calls : List (Ctx × Call)) (c : Ctx) (A : name) (u : unstaking)
    (hauth : c.self ∈ c.auth) (hacc : c.is_account A = true)
    (hu : (run calls State.empty).unstaking.lookup A = some u)
    (hcover : u.quantity.amount ≤ free_balance (run calls State.empty) felixstaking) :
    ∃ s1, refunddef c A (run calls State.empty) = .ok s1
      ∧ free_balance s1 A = free_balance (run calls State.empty) A + u.quantity.amount
      ∧ free_balance s1 felixstaking
          = free_balance (run calls State.empty) felixstaking - u.quantity.amount
      ∧ s1.unstaking = (run calls State.empty).unstaking.erase A
      ∧ s1.staking = (run calls State.empty).staking
      ∧ s1.totalStake = (run calls State.empty).totalStake
      ∧ s1.stats = (run calls State.empty).stats
      ∧ (∀ k, k ≠ (A, felix_symbol.code) → k ≠ (felixstaking, felix_symbol.code) →
          s1.accounts.lookup k = (run calls State.empty).accounts.lookup k)
      ∧ ∀ c2 s2, refund c2 A (run calls State.empty) = .ok s2 → s2 = s1 := by
  obtain ⟨hi, h2⟩ := reachable_inv calls
  generalize run calls State.empty = s at hi h2 hu hcover
  have hus : u.quantity.symbol = felix_symbol := h2.1.1.2.1 A u hu
  obtain ⟨s1, htr⟩ := settle_succeeds hi h2 c hacc hu hcover
  obtain ⟨hne, e1, e2, e3, e4, -, hbal⟩ := settle_effect htr
  have hcode : u.quantity.symbol.code = felix_symbol.code := by rw [hus]
  refine ⟨s1, refunddef_of_transfer hauth hu htr, ?_, ?_, e1, e2, e3, e4, ?_, ?_⟩
  · simp only [free_balance]
    rw [hbal A felix_symbol.code, if_pos ⟨rfl, hcode.symm⟩, if_neg (fun h => hne h.1)]
    ring
  · simp only [free_balance]
    rw [hbal felixstaking felix_symbol.code, if_neg (fun h => hne h.1.symm),
      if_pos ⟨rfl, hcode.symm⟩]
    ring
  · intro k h1 h3
    obtain ⟨-, -, -, -, -, -, bf, bt, -, -, -, -, -, rfl⟩ := transfer_ok htr
    simp only
    rw [hcode, Finmap.lookup_insert_of_ne _ h1, Finmap.lookup_insert_of_ne _ h3]
  · intro c2 s2 hr
    obtain ⟨-, u2, hu2, -, htr2⟩ := refund_ok hr
    rw [hu] at hu2
    cases hu2
    exact transfer_det htr2 htr

/-- On `pending_state`, reached by `pending_calls`, account `2` has 150 units
pending since half a second after the epoch; one tenth of a second later the
contract settles them. -/
theorem settlement_paths_witness :
    ∃ s1, refunddef (sample_ctx [felixtokenio] 600000) 2 (run pending_calls State.empty)
        = .ok s1
      ∧ free_balance s1 2 = free_balance (run pending_calls State.empty) 2 + (flx 150).amount
      ∧ free_balance s1 2 = 200 := by
  obtain ⟨s1, h1, h2, -⟩ :=
    settlement_paths pending_calls (sample_ctx [felixtokenio] 600000) 2
      ⟨flx 150, 500000⟩ (by decide) rfl (by decide) (by decide)
  refine ⟨s1, h1, h2, ?_⟩
  rw [h2]
  decide

/-! ## C13: transfer -/

/-- C13. For all accounts `from`, `to`, every quantity `q` and every memo,
on a state `s`: `transfer(from, to, q, memo)` aborts and changes nothing if
`from = to`, if `to` is not an existing account, if the currency of `q` has no
row in `stat` or `q` does not carry the registered symbol, if `q ≤ 0`, if the
memo has more than 256 bytes, or if `from` has no balance row or a balance
below `q`. Every transfer that succeeds takes exactly `q` from the balance of
`from`, adds exactly `q` to the balance of `to` (a row holding `q` is created
when there was none), and leaves every other balance row and the table `stat`
unchanged. When `s` is reached from the empty ledger by `calls` and `from`
authorises the action, the transfer succeeds whenever none of the listed
conditions holds. -/
theorem transfer_frame (c : Ctx) (from_ to_ : name) (q : asset) (memo : String)
    (s : State) (calls : List (Ctx × Call)) :
    ((from_ = to_ ∨ c.is_account to_ = false
          ∨ s.stats.lookup q.symbol.code = none
          ∨ (∃ st, s.stats.lookup q.symbol.code = some st ∧ q.symbol ≠ st.supply.symbol)
          ∨ q.amount ≤ 0 ∨ 256 < memo.utf8ByteSize
          ∨ s.accounts.lookup (from_, q.symbol.code) = none
          ∨ balance_of s from_ q.symbol.code < q.amount) →
        (∃ e, transfer c from_ to_ q memo s = .error e)
          ∧ exec c (.transfer from_ to_ q memo) s = s)
      ∧ (∀ s1, transfer c from_ to_ q memo s = .ok s1 →
          balance_of s1 from_ q.symbol.code = balance_of s from_ q.symbol.code - q.amount
          ∧ balance_of s1 to_ q.symbol.code = balance_of s to_ q.symbol.code + q.amount
          ∧ (s.accounts.lookup (to_, q.symbol.code) = none →
              s1.accounts.lookup (to_, q.symbol.code) = some q)
          ∧ (∀ k, k ≠ (from_, q.symbol.code) → k ≠ (to_, q.symbol.code) →
              s1.accounts.lookup k = s.accounts.lookup k)
          ∧ s1.stats = s.stats)
      ∧ (s = run calls State.empty → from_ ∈ c.auth →
          ¬ (from_ = to_ ∨ c.is_account to_ = false
            ∨ s.stats.lookup q.symbol.code = none
            ∨ (∃ st, s.stats.lookup q.symbol.code = some st ∧ q.symbol ≠ st.supply.symbol)
            ∨ q.amount ≤ 0 ∨ 256 < memo.utf8ByteSize
            ∨ s.accounts.lookup (from_, q.symbol.code) = none
            ∨ balance_of s from_ q.symbol.code < q.amount) →
          ∃ s1, transfer c from_ to_ q memo s = .ok s1) := by
  refine ⟨?_, ?_, ?_⟩
  · intro hbad
    apply fails_of_not_ok c (.transfer from_ to_ q memo) s
    intro s1 h
    obtain ⟨hne, -, hacc, st, hst, -, hpos, hsym, hmemo, -⟩ :=
      (transfer_iff c from_ to_ q memo s s1).1 h
    obtain ⟨-, -, -, -, -, -, bf, bt, hbf, hle, -⟩ := transfer_ok h
    rcases hbad with h1 | h1 | h1 | ⟨st1, h1, h2⟩ | h1 | h1 | h1 | h1
    · exact hne h1
    · rw [hacc] at h1
      cases h1
    · rw [hst] at h1
      cases h1
    · rw [hst] at h1
      cases h1
      exact h2 hsym
    · omega
    · omega
    · rw [hbf] at h1
      cases h1
    · simp only [balance_of, amount_at, hbf] at h1
      omega
  · intro s1 h
    obtain ⟨he, -, -, -, -, -, -, hbal⟩ := transfer_effect h
    obtain ⟨hne, -, -, -, -, -, bf, bt, hbf, -, -, hbts, hbta, rfl⟩ := transfer_ok h
    refine ⟨?_, ?_, ?_, ?_, he⟩
    · rw [hbal from_ q.symbol.code, if_neg (fun h => hne h.1), if_pos ⟨rfl, rfl⟩]
      ring
    · rw [hbal to_ q.symbol.code, if_pos ⟨rfl, rfl⟩, if_neg (fun h => hne h.1.symm)]
      ring
    · intro hnone
      simp only [amount_at, hnone, zero_add] at hbta
      simp only
      rw [Finmap.lookup_insert]
      obtain ⟨a, sy⟩ := bt
      simp only at hbts hbta
      rw [hbts, hbta]
    · intro k h1 h2
      simp only
      rw [Finmap.lookup_insert_of_ne _ h2, Finmap.lookup_insert_of_ne _ h1]
  · intro hs hauth hgood
    obtain ⟨hi, h2⟩ := reachable_inv calls
    rw [← hs] at hi h2
    simp only [not_or, not_exists, not_and, not_not, not_le, not_lt] at hgood
    obtain ⟨g1, g2, g3, g4, g5, g6, g7, g8⟩ := hgood
    cases hst : s.stats.lookup q.symbol.code with
    | none => exact absurd hst g3
    | some st =>
      cases hbf : s.accounts.lookup (from_, q.symbol.code) with
      | none => exact absurd hbf g7
      | some bf =>
        simp only [balance_of, amount_at, hbf] at g8
        exact transfer_succeeds hi h2.2.1 h2.2.2 c from_ to_ q memo g1 hauth (by simpa using g2) hst
          (g4 st hst) g5 g6 hbf g8

/-- On the sample ledger, reached by `sample_calls`, account `2` holds 200
units and sends 50 of them to account `1`. -/
theorem transfer_frame_witness :
    ∃ s1, transfer (sample_ctx [2] 0) 2 1 (flx 50) "" sample_state = .ok s1
      ∧ balance_of s1 2 (flx 50).symbol.code = 150
      ∧ balance_of s1 1 (flx 50).symbol.code = 350 := by
  obtain ⟨s1, h⟩ :=
    (transfer_frame (sample_ctx [2] 0) 2 1 (flx 50) "" sample_state sample_calls).2.2
      rfl (by decide) (by decide)
  obtain ⟨h1, h2, -⟩ :=
    (transfer_frame (sample_ctx [2] 0) 2 1 (flx 50) "" sample_state sample_calls).2.1 s1 h
  refine ⟨s1, h, ?_, ?_⟩
  · rw [h1]
    decide
  · rw [h2]
    decide

/-! ## C14: recalc -/

/-- C14. In every state reached from the empty ledger by calls of the
thirteen actions (also one whose aggregate has drifted after a `banish`), a
`recalc()` authorised by the contract succeeds, sets the Total-Stake Aggregate
to the FLX quantity whose amount is exactly the sum of the quantities of all
staking rows (`0` when there is no staking row), changes no other table, and
a second `recalc()` changes nothing. -/
theorem recalc_correct (calls : List (Ctx × Call)) (c : Ctx) (hauth : c.self ∈ c.auth) :
    ∃ s1, recalc c (run calls State.empty) = .ok s1
      ∧ s1.totalStake = ⟨staked_sum (run calls State.empty), felix_symbol⟩
      ∧ ((∀ a, (run calls State.empty).staking.lookup a = none) → s1.totalStake.amount = 0)
      ∧ s1.stats = (run calls State.empty).stats
      ∧ s1.accounts = (run calls State.empty).accounts
      ∧ s1.staking = (run calls State.empty).staking
      ∧ s1.unstaking = (run calls State.empty).unstaking
      ∧ s1.deferred = (run calls State.empty).deferred
      ∧ recalc c s1 = .ok s1 := by
  obtain ⟨hi, h2⟩ := reachable_inv calls
  generalize run calls State.empty = s at hi h2
  have h0 := staked_sum_nonneg hi.2.2.1
  have hint : is_int64 (staked_sum s) := by
    have h1 := h2.1.2.1.1
    have h3 := h2.1.2.1.2
    unfold is_int64
    unfold max_amount at h3
    omega
  have hsum : Multiset.foldr recalc_step 0 s.staking.entries = staked_sum s := by
    rw [recalc_sum]
    exact wrap64_of_range _ hint.1 hint.2
  have hrun : recalc c s
      = .ok { s with totalStake := ⟨staked_sum s, felix_symbol⟩ } := by
    unfold recalc
    simp only [Ctx.require_auth, Ctx.has_auth, hauth, decide_True, check_true, bind,
      Except.bind, pure, Except.pure, hsum]
  refine ⟨_, hrun, rfl, ?_, rfl, rfl, rfl, rfl, rfl, ?_⟩
  · intro hnone
    have hempty : s.staking = ∅ := by
      apply Finmap.ext_lookup
      intro a
      rw [hnone a, Finmap.lookup_empty]
    simp only [staked_sum, hempty, Tbl.sum_empty]
  · exact recalc_fixed hauth rfl hint

/-- After `banish_calls` the aggregate is 150 while the only staking row holds
100 units; `recalc()` sets the aggregate to 100. -/
theorem recalc_correct_witness :
    felixtokenio ∈ (sample_ctx [felixtokenio] 0).auth
      ∧ (run banish_calls State.empty).totalStake = flx 150
      ∧ staked_sum (run banish_calls State.empty) = 100
      ∧ ∃ s1, recalc (sample_ctx [felixtokenio] 0) (run banish_calls State.empty) = .ok s1
          ∧ s1.totalStake = ⟨staked_sum (run banish_calls State.empty), felix_symbol⟩ := by
  obtain ⟨s1, h1, h2, -⟩ :=
    recalc_correct banish_calls (sample_ctx [felixtokenio] 0) (by decide)
  exact ⟨by decide, by decide, by decide, s1, h1, h2⟩

/-! ## C15: the dividend -/

/-- C15, as stated, fails. On the sample ledger account `2` has 150 units
staked. For the base amount 49 and the total amount 7350 the exact value
`floor(b * (s / T))` is `1`, so the claim asks for one payment of 1 unit; in
binary64 the quotient `150 / 7350` is rounded, its product with 49 is just
below `1`, the payout is `0` and `dividend` sends no payment. For the base
amount `2^61` and the total amount 75 the payout `2^62` is positive, and
`dividend` aborts because the amount exceeds `asset::max_amount`. -/
theorem dividend_payout_counterexample :
    (run staked_calls State.empty).staking.lookup 2 = some (flx 150)
      ∧ (sample_ctx [felixtokenio] 0).self ∈ (sample_ctx [felixtokenio] 0).auth
      ∧ exact_payout 49 150 7350 = 1
      ∧ dividend (sample_ctx [felixtokenio] 0) 2 ⟨49, eos_symbol⟩ ⟨7350, eos_symbol⟩
          (run staked_calls State.empty) = .ok (run staked_calls State.empty, [])
      ∧ exact_payout 2305843009213693952 150 75 = 4611686018427387904
      ∧ dividend (sample_ctx [felixtokenio] 0) 2 ⟨2305843009213693952, eos_symbol⟩
          ⟨75, eos_symbol⟩ (run staked_calls State.empty)
          = .error "magnitude of asset amount must be less than 2^62" := by
  have hst : (run staked_calls State.empty).staking.lookup 2 = some (flx 150) := by decide
  have hauth : (sample_ctx [felixtokenio] 0).self ∈ (sample_ctx [felixtokenio] 0).auth := by
    decide
  refine ⟨hst, hauth, exact_payout_short, ?_, exact_payout_large, ?_⟩
  · have h := (dividend_of_payout (b := ⟨49, eos_symbol⟩) (T := ⟨7350, eos_symbol⟩) hauth hst).2
      0 binary64_payout_short
    rw [if_pos (by decide), if_neg (by decide)] at h
    exact h
  · have h := (dividend_of_payout (b := ⟨2305843009213693952, eos_symbol⟩)
      (T := ⟨75, eos_symbol⟩) hauth hst).2 4611686018427387904 binary64_payout_large
    rw [if_neg (by decide)] at h
    exact h

/-- C15, amended. For every state, account `A`, base amount `b` and total
amount `T`, with the action authorised by the contract: `dividend(A, b, T)`
aborts with "No staking account" if `A` has no staking row. Otherwise, with
`s` the staked quantity, the payout is computed in binary64 (round to nearest,
ties to even): the quotient of the doubles of `s` and `T`, multiplied by the
double of `b`, truncated toward zero. It is defined exactly when `T` is not
zero, and `dividend` aborts when `T` is zero or the payout lies outside
`±asset::max_amount`; otherwise it sends exactly one payment
`(felixfunding, A, payout EOS, "dividend")` through `eosio.token` when the
payout is positive and no payment when the payout is `≤ 0`. In every case the
state of this ledger is unchanged. -/
theorem dividend_payout (c : Ctx) (A : name) (b T : asset) (s : State)
    (hauth : c.self ∈ c.auth) :
    (s.staking.lookup A = none → dividend c A b T s = .error "No staking account")
      ∧ (∀ st, s.staking.lookup A = some st →
          (binary64_payout b.amount st.amount T.amount = none ↔ T.amount = 0)
          ∧ (T.amount = 0 → ∃ e, dividend c A b T s = .error e)
          ∧ ∀ p, binary64_payout b.amount st.amount T.amount = some p →
              ((p < -max_amount ∨ max_amount < p) → ∃ e, dividend c A b T s = .error e)
              ∧ (0 < p → p ≤ max_amount →
                  dividend c A b T s
                    = .ok (s, [⟨eosio_token, felixfunding, A, ⟨p, eos_symbol⟩, "dividend"⟩]))
              ∧ (-max_amount ≤ p → p ≤ 0 → dividend c A b T s = .ok (s, [])))
      ∧ ∀ s1 out, dividend c A b T s = .ok (s1, out) → s1 = s := by
  refine ⟨?_, ?_, ?_⟩
  · intro hnone
    unfold dividend
    rw [require_auth_of_mem hauth]
    show (match s.staking.lookup A with | none => _ | some staked => _) = _
    rw [hnone]
  · intro st hst
    obtain ⟨hn, hp⟩ := dividend_of_payout (b := b) (T := T) hauth hst
    refine ⟨binary64_payout_none_iff _ _ _, ?_, ?_⟩
    · intro hT
      exact ⟨_, hn ((binary64_payout_none_iff _ _ _).2 hT)⟩
    · intro p hpay
      have hd := hp p hpay
      refine ⟨?_, ?_, ?_⟩
      · intro hout
        rw [if_neg (by omega)] at hd
        exact ⟨_, hd⟩
      · intro h1 h2
        have h3 : -max_amount ≤ p := by unfold max_amount; omega
        rw [if_pos ⟨h3, h2⟩, if_pos h1] at hd
        exact hd
      · intro h1 h2
        have h3 : p ≤ max_amount := by unfold max_amount; omega
        rw [if_pos ⟨h1, h3⟩, if_neg (by omega)] at hd
        exact hd
  · intro s1 out h
    cases hl : s.staking.lookup A with
    | none =>
      unfold dividend at h
      rw [require_auth_of_mem hauth] at h
      change (match s.staking.lookup A with | none => _ | some staked => _) = _ at h
      rw [hl] at h
      cases h
    | some st =>
      obtain ⟨hn, hp⟩ := dividend_of_payout (b := b) (T := T) hauth hl
      cases hpay : binary64_payout b.amount st.amount T.amount with
      | none =>
        rw [hn hpay] at h
        cases h
      | some p =>
        rw [hp p hpay] at h
        split at h
        · split at h
          · cases h
            rfl
          · cases h
            rfl
        · cases h

/-- On the sample ledger with 150 units staked by account `2`, base amount
100 and total amount 300: the quotient is `0.5`, the payout is 50 and
one payment of 50 units is sent to account `2`. -/
theorem dividend_payout_witness :
    (sample_ctx [felixtokenio] 0).self ∈ (sample_ctx [felixtokenio] 0).auth
      ∧ binary64_payout 100 150 300 = some 50
      ∧ dividend (sample_ctx [felixtokenio] 0) 2 ⟨100, eos_symbol⟩ ⟨300, eos_symbol⟩
          (run staked_calls State.empty)
        = .ok (run staked_calls State.empty,
            [⟨eosio_token, felixfunding, 2, ⟨50, eos_symbol⟩, "dividend"⟩]) :=
  ⟨by decide, binary64_payout_third,
    (((dividend_payout (sample_ctx [felixtokenio] 0) 2 ⟨100, eos_symbol⟩ ⟨300, eos_symbol⟩
      (run staked_calls State.empty) (by decide)).2.1 (flx 150) (by decide)).2.2 50
        binary64_payout_third).2.1 (by decide) (by decide)⟩

/-! ## C16: one maturity callback per account -/

/-- C16. The scheduler is the table `deferred`, a map from sender id to the
queued transaction. After every successful `unstake(A, q)` the table holds
under the key of `A` exactly the transaction that calls `refunddef(A)` with a
delay of `refund_delay_sec = 15*24*3600 = 1296000` seconds; the transaction
queued before under that key has been cancelled, and the rows of all other
keys are untouched. -/
theorem one_callback (c : Ctx) (A : name) (q : asset) (s s1 : State)
    (h : unstake c A q s = .ok s1) :
    s1.deferred = (s.deferred.erase A).insert A ⟨refund_delay_sec, A⟩
      ∧ s1.deferred.lookup A = some ⟨1296000, A⟩
      ∧ ∀ B, B ≠ A → s1.deferred.lookup B = s.deferred.lookup B := by
  obtain ⟨-, -, staked, -, -, -, -, -, row, -, -, -, rfl⟩ := unstake_ok h
  refine ⟨rfl, ?_, ?_⟩
  · exact Finmap.lookup_insert _
  · intro B hB
    simp only
    rw [Finmap.lookup_insert_of_ne _ hB, Finmap.lookup_erase_ne hB]

/-- On the sample ledger with 150 units staked, account `2` asks 50 units
back twice: after the second request the scheduler still holds one
transaction under the key `2`. -/
theorem one_callback_witness :
    ∃ s1, unstake (sample_ctx [2] 900000) 2 (flx 50)
        (run requested_calls State.empty)
        = .ok s1
      ∧ s1.deferred.lookup 2 = some ⟨1296000, 2⟩
      ∧ s1.deferred.entries.card = 1 :=
  ⟨_, rfl,
    (one_callback (sample_ctx [2] 900000) 2 (flx 50)
      (run requested_calls State.empty)
      _ rfl).2.1, by decide⟩

/-! ## C17: escrow solvency -/

/-- C17. In every state reached from the empty ledger by calls of the
thirteen actions in which the escrow account `felixstaking` is never made the
issuer of a currency and is never the sender of a `transfer` called from
outside (the transfers sent by `refund`, `refunddef` and `banish` are part of
those actions), the FLX balance of the escrow account is at least the sum of
the quantities of all staking rows plus the sum of the quantities of all
unstaking rows. Consequently `refund`, `refunddef` and `banish` never abort in
such a state because the escrow balance is overdrawn or missing. -/
theorem escrow_solvency (calls : List (Ctx × Call))
    (hcalls : ∀ x ∈ calls, x.2.escrow_passive = true) :
    staked_sum (run calls State.empty) + pending_sum (run calls State.empty)
        ≤ free_balance (run calls State.empty) felixstaking
      ∧ ∀ (c : Ctx) (A : name) (e : String),
          (refund c A (run calls State.empty) = .error e
            ∨ refunddef c A (run calls State.empty) = .error e
            ∨ banish c A (run calls State.empty) = .error e) →
          e ≠ "overdrawn balance" ∧ e ≠ "no balance object found" := by
  obtain ⟨hi, h2⟩ := reachable_inv calls
  obtain ⟨hs, -⟩ := solvent_run calls Inv.empty Inv2_empty solvent_empty.1 solvent_empty.2 hcalls
  refine ⟨hs, ?_⟩
  intro c A e h
  rcases h with h | h | h
  · exact settle_not_short hi h2 hs (Or.inl h)
  · exact settle_not_short hi h2 hs (Or.inr h)
  · exact banish_not_short hi h2 hs h

/-- After `requested_calls` the escrow account holds the 150 units that
account `2` staked, of which 100 are staked and 50 are pending. -/
theorem escrow_solvency_witness :
    (∀ x ∈ requested_calls, x.2.escrow_passive = true)
      ∧ staked_sum (run requested_calls State.empty) = 100
      ∧ pending_sum (run requested_calls State.empty) = 50
      ∧ free_balance (run requested_calls State.empty) felixstaking = 150
      ∧ staked_sum (run requested_calls State.empty)
          + pending_sum (run requested_calls State.empty)
          ≤ free_balance (run requested_calls State.empty) felixstaking :=
  ⟨by decide, by decide, by decide, by decide,
    (escrow_solvency requested_calls (by decide)).1⟩

/-! ## C18: the value of an account -/

/-- C18. For every account `A` other than the escrow account and every state
reached from the empty ledger, each successful `stake(A, q)`, `unstake(A, q)`,
`restake(A)`, `refund(A)` and `refunddef(A)` leaves the sum of the free
balance, the staked quantity and the pending quantity of `A` unchanged (an
absent row counts as `0`), and leaves the free balance, the staking row and
the unstaking row of every other account that is not the escrow account
unchanged. -/
theorem account_value_conserved (calls : List (Ctx × Call)) (c : Ctx) (call : Call)
    (A : name) (q : asset) (s1 : State) (hA : A ≠ felixstaking)
    (hcall : call = .stake A q ∨ call = .unstake A q ∨ call = .restake A
      ∨ call = .refund A ∨ call = .refunddef A)
    (h : call.apply c (run calls State.empty) = .ok s1) :
    free_balance s1 A + staked_of s1 A + pending_of s1 A
        = free_balance (run calls State.empty) A + staked_of (run calls State.empty) A
          + pending_of (run calls State.empty) A
      ∧ ∀ B, B ≠ A → B ≠ felixstaking →
          free_balance s1 B = free_balance (run calls State.empty) B
            ∧ s1.staking.lookup B = (run calls State.empty).staking.lookup B
            ∧ s1.unstaking.lookup B = (run calls State.empty).unstaking.lookup B := by
  obtain ⟨hi, h2⟩ := reachable_inv calls
  generalize run calls State.empty = s at hi h2 h
  have hsettle : ∀ u, s.unstaking.lookup A = some u →
      transfer (c.inline felixstaking) felixstaking A u.quantity "unstake"
        { s with unstaking := s.unstaking.erase A } = .ok s1 →
      (free_balance s1 A + staked_of s1 A + pending_of s1 A
        = free_balance s A + staked_of s A + pending_of s A)
      ∧ ∀ B, B ≠ A → B ≠ felixstaking →
          free_balance s1 B = free_balance s B
            ∧ s1.staking.lookup B = s.staking.lookup B
            ∧ s1.unstaking.lookup B = s.unstaking.lookup B := by
    intro u hu htr
    obtain ⟨-, e1, e2, -, -, -, hbal⟩ := settle_effect htr
    have hcode : u.quantity.symbol.code = felix_symbol.code := by
      rw [h2.1.1.2.1 A u hu]
    refine ⟨?_, ?_⟩
    · simp only [free_balance, staked_of, pending_of, e1, e2, hu, Finmap.lookup_erase]
      rw [hbal A felix_symbol.code, if_pos ⟨rfl, hcode.symm⟩, if_neg (fun h => hA h.1)]
      ring
    · intro B hB hBe
      refine ⟨?_, by rw [e2], by rw [e1, Finmap.lookup_erase_ne hB]⟩
      simp only [free_balance]
      rw [hbal B felix_symbol.code, if_neg (fun h => hB h.1), if_neg (fun h => hBe h.1)]
      ring
  rcases hcall with rfl | rfl | rfl | rfl | rfl
  · obtain ⟨-, -, -, -, ⟨row, hstk, hamt, -, -⟩, -, hbal, -, hun, -⟩ := stake_effect h
    refine ⟨?_, ?_⟩
    · rw [staked_of_insert s1 _ _ _ hstk, hamt, hbal A, if_neg hA, if_pos rfl]
      simp only [pending_of, hun]
      ring
    · intro B hB hBe
      refine ⟨?_, by rw [hstk, Finmap.lookup_insert_of_ne _ hB], by rw [hun]⟩
      rw [hbal B, if_neg hBe, if_neg hB]
      ring
  · obtain ⟨-, -, staked, hst, -, -, -, -, row, hrow, -, -, rfl⟩ := unstake_ok h
    refine ⟨?_, ?_⟩
    · have hsa : staked_of s A = staked.amount := by
        simp only [staked_of, amount_at, hst]
      simp only [free_balance, balance_of, staked_of, pending_of, Finmap.lookup_insert] at *
      rw [hrow, hsa]
      split
      · rename_i heq
        rw [amount_at_erase, if_pos rfl]
        omega
      · rw [amount_at_insert, if_pos rfl]
        simp only
        omega
    · intro B hB hBe
      refine ⟨rfl, ?_, ?_⟩
      · simp only
        split
        · rw [Finmap.lookup_erase_ne hB]
        · rw [Finmap.lookup_insert_of_ne _ hB]
      · simp only
        rw [Finmap.lookup_insert_of_ne _ hB]
  · obtain ⟨-, u, hu, -, -, row, hamt, -, -, rfl⟩ := restake_ok h
    refine ⟨?_, ?_⟩
    · simp only [free_balance, balance_of, staked_of, pending_of, Finmap.lookup_erase, hu,
        amount_at_insert, if_true] at *
      rw [hamt]
      ring
    · intro B hB hBe
      refine ⟨rfl, ?_, ?_⟩
      · simp only
        rw [Finmap.lookup_insert_of_ne _ hB]
      · simp only
        rw [Finmap.lookup_erase_ne hB]
  · obtain ⟨-, u, hu, -, htr⟩ := refund_ok h
    exact hsettle u hu htr
  · obtain ⟨-, u, hu, htr⟩ := refunddef_ok h
    exact hsettle u hu htr

/-- On the sample ledger with 150 units staked, account `2` asks 50 units
back: its free balance of 50, its stake and its pending quantity still add up
to 200. -/
theorem account_value_conserved_witness :
    ∃ s1, unstake (sample_ctx [2] 500000) 2 (flx 50) (run staked_calls State.empty) = .ok s1
      ∧ free_balance s1 2 + staked_of s1 2 + pending_of s1 2 = 200
      ∧ staked_of s1 2 = 100 ∧ pending_of s1 2 = 50 := by
  refine ⟨_, rfl, ?_, by decide, by decide⟩
  rw [(account_value_conserved staked_calls (sample_ctx [2] 500000) (.unstake 2 (flx 50)) 2
    (flx 50) _ (by decide) (Or.inr (Or.inl rfl)) rfl).1]
  decide

/-! ## C19: restake undoes unstake -/

/-- C20. In every state reached from the empty ledger, whose aggregate is
`0`, by any sequence of calls (of `stake`, `unstake`, `restake`, `refund`,
`refunddef`, `banish` and `recalc`, and also of the six token actions, without
which no stake can succeed), the Total-Stake Aggregate equals the sum of the
quantities of all staking rows plus `drift`, the sum of the pending quantities
of the unstaking rows erased by `banish` since the last `recalc`; that excess
is never negative, so the aggregate is at least the sum of the staking rows
and never negative. -/
theorem drift_one_sided (calls : List (Ctx × Call)) :
    (run calls State.empty).totalStake.amount
        = staked_sum (run calls State.empty) + drift calls State.empty 0
      ∧ 0 ≤ drift calls State.empty 0
      ∧ staked_sum (run calls State.empty) ≤ (run calls State.empty).totalStake.amount
      ∧ 0 ≤ (run calls State.empty).totalStake.amount := by
  have h := drift_run calls Inv.empty Inv2_empty (by decide)
  have he : State.empty.totalStake.amount - staked_sum State.empty = 0 := by decide
  rw [he] at h
  have h0 := staked_sum_nonneg (Inv.run calls Inv.empty).2.2.1
  obtain ⟨h1, h2⟩ := h
  refine ⟨?_, h2, ?_, ?_⟩ <;> omega

/-- After `banish_calls`, in which the banished account had 50 units pending,
the aggregate of 150 exceeds the staked sum of 100 by the drift of 50. -/
theorem drift_one_sided_witness :
    (run banish_calls State.empty).totalStake.amount = 150
      ∧ staked_sum (run banish_calls State.empty) = 100
      ∧ drift banish_calls State.empty 0 = 50
      ∧ (run banish_calls State.empty).totalStake.amount
          = staked_sum (run banish_calls State.empty) + drift banish_calls State.empty 0 :=
  ⟨by decide, by decide, by decide, (drift_one_sided banish_calls).1⟩

end felix
